import Mathlib

/-!
ZZK1 archive tool: a shallow embedding of `zzk1.c`.

Bytes are natural numbers below 256, files and C strings are lists of bytes,
a stdio stream is the bytes of its file together with a position.  The
embedding fixes the LP64 data model (`long`, `unsigned long` and `size_t` are
64 bits wide, `int` is 32 bits wide): it is the model on which the range
checks of the source against `0xFFFFFFFF` and `2147483647` are not vacuous.
Storage never fails: `fopen`, `fseek`, `fwrite` and `malloc` succeed, so the
`die_io` exits are not part of the model.  Every other `exit(1)` of the source
is an `Error` value.
-/

namespace Zzk1

set_option maxRecDepth 100000

/-! ## Constants of the format -/

def MAGIC_NUMBER : Nat := 0x5A5A4B31
def RESERVED : Nat := 0x00000000
def TYPE_TEXT : Nat := 0x00000001
def TYPE_BINARY : Nat := 0x00000002
def TYPE_PADDING : Nat := 0xFFFFFFFF

/-- Number of values of `unsigned long` (the type behind `u32`) on LP64. -/
def ULONG_MOD : Nat := 2 ^ 64

/-- Largest `long` on LP64. -/
def LONG_MAX : Nat := 2 ^ 63 - 1

/-- Addition of two `u32` (`unsigned long`) values. -/
def uadd (a b : Nat) : Nat := (a + b) % ULONG_MOD

/-- Subtraction of two `u32` (`unsigned long`) values. -/
def usub (a b : Nat) : Nat := (a + ULONG_MOD - b % ULONG_MOD) % ULONG_MOD

/-! ## Streams -/

/-- A stdio stream: the bytes of the underlying file and the file position. -/
structure FILE where
  data : List Nat
  pos : Nat
deriving DecidableEq

/-- The call `fread(buf, 1, n, fp)`: the bytes obtained (their number is the
return value) and the advanced stream. -/
def fread (fp : FILE) (n : Nat) : List Nat × FILE :=
  let got := (fp.data.drop fp.pos).take n
  (got, { fp with pos := fp.pos + got.length })

/-- The call `fwrite(buf, 1, len, fp)` on a stream open for writing: the bytes
replace what is stored from the position on and extend the file past its end;
a gap left by seeking past the end reads as zero bytes. -/
def fwrite (fp : FILE) (buf : List Nat) : FILE :=
  { data := fp.data.take fp.pos ++ List.replicate (fp.pos - fp.data.length) 0 ++ buf
              ++ fp.data.drop (fp.pos + buf.length),
    pos := fp.pos + buf.length }

/-- The call `fseek(fp, off, SEEK_SET)`. -/
def fseek_set (fp : FILE) (off : Nat) : FILE := { fp with pos := off }

/-- The call `fseek(fp, step, SEEK_CUR)` with a non-negative step. -/
def fseek_cur (fp : FILE) (step : Nat) : FILE := { fp with pos := fp.pos + step }

/-- The call `fseek(fp, 0, SEEK_END)`. -/
def fseek_end (fp : FILE) : FILE := { fp with pos := fp.data.length }

/-- The call `fopen(name, "rb")` or `fopen(name, "rb+")` on an existing file. -/
def fopen_existing (bytes : List Nat) : FILE := { data := bytes, pos := 0 }

/-- The call `fopen(name, "wb")`: the file is created empty. -/
def fopen_wb : FILE := { data := [], pos := 0 }

/-! ## Field codec -/

/-- The four bytes `buf[0..3]` that `write_u32_be` fills in. -/
def u32_be_buf (val : Nat) : List Nat :=
  [ ((val >>> 24) &&& 0xFF) % 256,
    ((val >>> 16) &&& 0xFF) % 256,
    ((val >>> 8) &&& 0xFF) % 256,
    (val &&& 0xFF) % 256 ]

/-- The function `write_u32_be`; the result `0` of the source is the only one
possible since storage does not fail. -/
def write_u32_be (fp : FILE) (val : Nat) : FILE :=
  fwrite fp (u32_be_buf val)

/-- The function `read_u32_be`: `none` stands for the return value `-1`,
`some v` for return value `0` with `*val = v`. -/
def read_u32_be (fp : FILE) : Option Nat × FILE :=
  let r := fread fp 4
  match r.1 with
  | [b0, b1, b2, b3] =>
      (some ((b0 <<< 24) ||| (b1 <<< 16) ||| (b2 <<< 8) ||| b3), r.2)
  | _ => (none, r.2)

/-- Big-endian encoding of a 32-bit value as the format description words it:
most significant byte first. -/
def be32 (v : Nat) : List Nat :=
  [v / 2 ^ 24 % 256, v / 2 ^ 16 % 256, v / 2 ^ 8 % 256, v % 256]

/-- Value of four bytes read as a big-endian unsigned 32-bit integer. -/
def be32_value (b0 b1 b2 b3 : Nat) : Nat :=
  b0 * 2 ^ 24 + b1 * 2 ^ 16 + b2 * 2 ^ 8 + b3

/-! ## Outcomes -/

/-- The fatal exits of the program, one per diagnostic of the source. -/
inductive Error where
  /-- Message "Error: text too large (overflow risk)." -/
  | TextTooLarge
  /-- Message "Invalid magic number." -/
  | InvalidMagic
  /-- Message "Error reading size." -/
  | ReadSize
  /-- Message "Error reading reserved." -/
  | ReadReserved
  /-- Message "Error: file too large for U32 size field." -/
  | FileTooLarge
  /-- Message "Error: File is smaller than header claims (Truncated). Corrupted." -/
  | Truncated
  /-- Message "Error: file size overflow (exceeds 4GB limit)." -/
  | SizeOverflow
  /-- Message "Error: metadata too large (overflow risk)." -/
  | MetadataTooLarge
  /-- Message "Error: Invalid chunk index ... Must be a positive integer >= 1." -/
  | InvalidIndex
  /-- Message "Error reading chunk data." -/
  | ReadChunkData
  /-- Message "Error: Chunk #n not found." -/
  | ChunkNotFound
deriving DecidableEq

/-- The non-fatal diagnostics written to stderr. -/
inductive Warning where
  | ReservedNonZero (reserved : Nat)
  | SizeMismatch (header_total_size actual_size : Nat)
  | FixingGarbage
  | MetadataTruncated
  | EofChunkLength
deriving DecidableEq

deriving instance DecidableEq for Except

/-! ## Helpers of the source -/

/-- The function `require_fwrite`: nothing is written for `len == 0`. -/
def require_fwrite (fp : FILE) (buf : List Nat) (len : Nat) : FILE :=
  if len = 0 then fp else fwrite fp (buf.take len)

/-- The function `require_write_u32`. -/
def require_write_u32 (fp : FILE) (val : Nat) : FILE := write_u32_be fp val

/-- The function `get_file_size_u32_or_die`: the size and the stream left at
the end of the file. -/
def get_file_size_u32_or_die (fp : FILE) : Except Error (Nat × FILE) :=
  let fp := fseek_end fp
  let pos := fp.pos
  if pos > 0xFFFFFFFF then .error .FileTooLarge else .ok (pos, fp)

/-- The bound `MAX_STEP` of `seek_forward`. -/
def MAX_STEP : Nat := 0x70000000

/-- The loop of `seek_forward`.  The first argument bounds the number of
iterations; `seek_forward` passes `offset`, which every iteration lowers. -/
def seek_forward_loop : Nat → FILE → Nat → FILE
  | 0, fp, _ => fp
  | fuel + 1, fp, offset =>
    if offset > 0 then
      let step := if offset > MAX_STEP then MAX_STEP else offset
      seek_forward_loop fuel (fseek_cur fp step) (usub offset step)
    else fp

/-- The function `seek_forward`. -/
def seek_forward (fp : FILE) (offset : Nat) : FILE :=
  seek_forward_loop offset fp offset

/-- The C library call `memcpy(dst + off, src, src.length)` on a buffer held
as the list of its bytes. -/
def memcpy_at (dst : List Nat) (off : Nat) (src : List Nat) : List Nat :=
  dst.take off ++ src ++ dst.drop (off + src.length)

/-- The function `append_str`: the return value, the buffer and `*used`. -/
def append_str (dst : List Nat) (dst_cap : Nat) (used : Nat) (src : List Nat) :
    Int × List Nat × Nat :=
  if dst_cap = 0 then (-1, dst, used)
  else if used ≥ dst_cap then (-1, dst.set (dst_cap - 1) 0, used)
  else
    let src_len := src.length
    let avail := usub (usub dst_cap 1) used
    if src_len > avail then
      let dst := memcpy_at dst used (src.take avail)
      let used := uadd used avail
      (-1, dst.set used 0, used)
    else
      let dst := memcpy_at dst used (src.take src_len)
      let used := uadd used src_len
      (0, dst.set used 0, used)

/-- The C library call `strlen` on a buffer: the number of bytes before the
first zero byte. -/
def strlen (buf : List Nat) : Nat := (buf.takeWhile (fun b => b != 0)).length

/-- The text that `sprintf(size_buf, "%lu", n)` produces. -/
def sprintf_lu (n : Nat) : List Nat := (Nat.toDigits 10 n).map Char.toNat

/-- The characters of a string literal of the source. -/
def lit (s : String) : List Nat := s.toList.map Char.toNat

/-! ## Create -/

/-- The function `cmd_create`: the bytes of the file created, or the error
raised before the file is opened. -/
def cmd_create (initial_text : List Nat) : Except Error (List Nat) :=
  let total_size : Nat := 12
  let text_len := initial_text.length
  if text_len > 0xFFFFFFEB then .error .TextTooLarge
  else
    let total_size := uadd total_size (uadd 8 text_len)
    let fp := fopen_wb
    let fp := require_write_u32 fp MAGIC_NUMBER
    let fp := require_write_u32 fp total_size
    let fp := require_write_u32 fp RESERVED
    let fp := require_write_u32 fp TYPE_TEXT
    let fp := require_write_u32 fp text_len
    let fp := require_fwrite fp initial_text text_len
    .ok fp.data

/-! ## Opening for append -/

/-- What `validate_and_open` hands back: the stream `*fp_out`, the baseline
`*current_size_out` and the warnings printed on the way. -/
structure Opened where
  fp : FILE
  current_size : Nat
  warnings : List Warning
deriving DecidableEq

/-- The function `validate_and_open` on an existing archive file. -/
def validate_and_open (archive : List Nat) : Except Error Opened :=
  let fp := fopen_existing archive
  match read_u32_be fp with
  | (none, _) => .error .InvalidMagic
  | (some magic, fp) =>
    if magic ≠ MAGIC_NUMBER then .error .InvalidMagic
    else
      match read_u32_be fp with
      | (none, _) => .error .ReadSize
      | (some header_total_size, fp) =>
        match read_u32_be fp with
        | (none, _) => .error .ReadReserved
        | (some reserved, fp) =>
          let w := if reserved ≠ RESERVED then [Warning.ReservedNonZero reserved] else []
          match get_file_size_u32_or_die fp with
          | .error e => .error e
          | .ok (actual_size, fp) =>
            if header_total_size ≠ actual_size then
              if actual_size > header_total_size then
                .ok { fp := fseek_set fp header_total_size,
                      current_size := header_total_size,
                      warnings := w ++ [Warning.SizeMismatch header_total_size actual_size,
                                        Warning.FixingGarbage] }
              else .error .Truncated
            else
              .ok { fp := fseek_end fp, current_size := actual_size, warnings := w }

/-- The function `update_total_size`. -/
def update_total_size (fp : FILE) (added_size old_size : Nat) : Except Error FILE :=
  if old_size > usub 0xFFFFFFFF added_size then .error .SizeOverflow
  else
    let new_size := uadd old_size added_size
    let fp := fseek_set fp 4
    let fp := require_write_u32 fp new_size
    .ok (fseek_end fp)

/-! ## Append -/

/-- How an append command ends: the bytes of the archive file at that moment,
the fatal error if the process exited through one, and the warnings. -/
structure AppendResult where
  archive : List Nat
  error : Option Error
  warnings : List Warning
deriving DecidableEq

/-- The function `cmd_append`. -/
def cmd_append (archive text : List Nat) : AppendResult :=
  let text_len := text.length
  if text_len > 0xFFFFFFF7 then { archive := archive, error := some .TextTooLarge, warnings := [] }
  else
    let chunk_size := uadd 8 text_len
    match validate_and_open archive with
    | .error e => { archive := archive, error := some e, warnings := [] }
    | .ok o =>
      let fp := require_write_u32 o.fp TYPE_TEXT
      let fp := require_write_u32 fp text_len
      let fp := require_fwrite fp text text_len
      match update_total_size fp chunk_size o.current_size with
      | .error e => { archive := fp.data, error := some e, warnings := o.warnings }
      | .ok fp => { archive := fp.data, error := none, warnings := o.warnings }

/-- The metadata block of `cmd_append_file`: the 1024-byte buffer after the
seven calls of `append_str` and the flag `truncated`.  The buffer starts
zero-filled; the source leaves it uninitialised apart from `metadata[0]`. -/
def format_metadata (target_file description : List Nat) (target_size : Nat) :
    List Nat × Bool :=
  let metadata := (List.replicate 1024 0).set 0 0
  let size_buf := sprintf_lu target_size
  let r1 := append_str metadata 1024 0 (lit "Filename: ")
  let r2 := append_str r1.2.1 1024 r1.2.2 target_file
  let r3 := append_str r2.2.1 1024 r2.2.2 (lit "\nDescription: ")
  let r4 := append_str r3.2.1 1024 r3.2.2 description
  let r5 := append_str r4.2.1 1024 r4.2.2 (lit "\nSize: ")
  let r6 := append_str r5.2.1 1024 r5.2.2 size_buf
  let r7 := append_str r6.2.1 1024 r6.2.2 (lit " bytes")
  (r7.2.1, r1.1 != 0 || r2.1 != 0 || r3.1 != 0 || r4.1 != 0 || r5.1 != 0 || r6.1 != 0
    || r7.1 != 0)

/-- The copy loop of `cmd_append_file`: blocks of at most 4096 bytes are read
from the target and written to the archive until a read returns nothing.  The
first argument bounds the number of iterations. -/
def append_file_copy_loop : Nat → FILE → FILE → FILE × FILE
  | 0, fp_target, fp_archive => (fp_target, fp_archive)
  | fuel + 1, fp_target, fp_archive =>
    let r := fread fp_target 4096
    if r.1.length > 0 then
      append_file_copy_loop fuel r.2 (require_fwrite fp_archive r.1 r.1.length)
    else (r.2, fp_archive)

/-- The function `cmd_append_file`; `target` holds the bytes of the file named
`target_file`. -/
def cmd_append_file (archive target_file target description : List Nat) : AppendResult :=
  let total_added : Nat := 0
  let fp_target := fopen_existing target
  match get_file_size_u32_or_die fp_target with
  | .error e => { archive := archive, error := some e, warnings := [] }
  | .ok (target_size, fp_target) =>
    let fp_target := fseek_set fp_target 0
    let m := format_metadata target_file description target_size
    let metadata := m.1
    let w := if m.2 then [Warning.MetadataTruncated] else []
    let meta_len := strlen metadata
    match validate_and_open archive with
    | .error e => { archive := archive, error := some e, warnings := w }
    | .ok o =>
      let fp_archive := require_write_u32 o.fp TYPE_TEXT
      let fp_archive := require_write_u32 fp_archive meta_len
      let fp_archive := require_fwrite fp_archive metadata meta_len
      if meta_len > 0xFFFFFFF7 then
        { archive := fp_archive.data, error := some .MetadataTooLarge,
          warnings := w ++ o.warnings }
      else
        let total_added := uadd total_added (uadd 8 meta_len)
        let fp_archive := require_write_u32 fp_archive TYPE_BINARY
        let fp_archive := require_write_u32 fp_archive target_size
        let fp_archive := (append_file_copy_loop (target.length + 1) fp_target fp_archive).2
        if target_size > 0xFFFFFFF7 ∨ total_added > usub 0xFFFFFFFF (uadd 8 target_size) then
          { archive := fp_archive.data, error := some .SizeOverflow,
            warnings := w ++ o.warnings }
        else
          let total_added := uadd total_added (uadd 8 target_size)
          match update_total_size fp_archive total_added o.current_size with
          | .error e => { archive := fp_archive.data, error := some e,
                          warnings := w ++ o.warnings }
          | .ok fp => { archive := fp.data, error := none, warnings := w ++ o.warnings }

/-! ## Extract -/

/-- The C library predicate `isspace` in the C locale. -/
def isspace (c : Nat) : Bool := c == 32 || (9 ≤ c && c ≤ 13)

/-- The C library predicate `isdigit`. -/
def isdigit (c : Nat) : Bool := 48 ≤ c && c ≤ 57

/-- Value of a run of decimal digit characters, most significant first. -/
def digits_value (ds : List Nat) : Nat := ds.foldl (fun acc c => acc * 10 + (c - 48)) 0

/-- The C library call `strtol(s, &endptr, 10)` as ISO C defines it: leading
white space is skipped, one sign is optional, the longest run of digits is
converted, a value out of the range of `long` is clamped to `LONG_MIN` or
`LONG_MAX`, and without any digit the value is `0` and `endptr` is `s`.  The
result is the value and the offset `endptr - s`. -/
def strtol (s : List Nat) : Int × Nat :=
  let ws := s.takeWhile isspace
  let rest := s.dropWhile isspace
  let negative := rest.head? == some 45
  let signed := rest.head? == some 45 || rest.head? == some 43
  let body := if signed then rest.drop 1 else rest
  let ds := body.takeWhile isdigit
  if ds.length = 0 then (0, 0)
  else
    let v := digits_value ds
    let value : Int :=
      if negative then (if v > LONG_MAX + 1 then -((LONG_MAX : Int) + 1) else -(v : Int))
      else (if v > LONG_MAX then (LONG_MAX : Int) else (v : Int))
    (value, ws.length + (if signed then 1 else 0) + ds.length)

/-- How `cmd_extract` ends: the output file (`none` when it was never
opened), the fatal error if any, the chunk announced by the line
"Extracting Chunk #i (Type t, l bytes)" and the warnings. -/
structure ExtractResult where
  output : Option (List Nat)
  error : Option Error
  found : Option (Nat × Nat × Nat)
  warnings : List Warning
deriving DecidableEq

/-- The inner loop of `cmd_extract` that copies the payload in blocks of at
most 4096 bytes: the two streams and whether every block was read in full.
The first argument bounds the number of iterations; the caller passes
`bytes_remaining`, which every iteration lowers. -/
def extract_copy_loop : Nat → FILE → FILE → Nat → FILE × FILE × Bool
  | 0, fp_in, fp_out, _ => (fp_in, fp_out, true)
  | fuel + 1, fp_in, fp_out, bytes_remaining =>
    if bytes_remaining > 0 then
      let to_read := if bytes_remaining > 4096 then 4096 else bytes_remaining
      let r := fread fp_in to_read
      if r.1.length ≠ to_read then (r.2, fp_out, false)
      else extract_copy_loop fuel r.2 (fwrite fp_out r.1) (usub bytes_remaining to_read)
    else (fp_in, fp_out, true)

/-- The chunk loop of `cmd_extract`.  The first argument bounds the number of
iterations; `current_index` stays below `target_index`, so the `int` counter
of the source cannot overflow. -/
def extract_loop : Nat → FILE → Nat → Nat → ExtractResult
  | 0, _, _, _ =>
    { output := none, error := some .ChunkNotFound, found := none, warnings := [] }
  | fuel + 1, fp_in, current_index, target_index =>
    match read_u32_be fp_in with
    | (none, _) =>
      { output := none, error := some .ChunkNotFound, found := none, warnings := [] }
    | (some type, fp_in) =>
      match read_u32_be fp_in with
      | (none, _) =>
        { output := none, error := some .ChunkNotFound, found := none,
          warnings := [Warning.EofChunkLength] }
      | (some length, fp_in) =>
        let current_index := current_index + 1
        if current_index = target_index then
          let fp_out := fopen_wb
          let c := extract_copy_loop length fp_in fp_out length
          if c.2.2 then
            { output := some c.2.1.data, error := none,
              found := some (target_index, type, length), warnings := [] }
          else
            { output := some c.2.1.data, error := some .ReadChunkData,
              found := some (target_index, type, length), warnings := [] }
        else
          extract_loop fuel (seek_forward fp_in length) current_index target_index

/-- The function `cmd_extract` on an existing archive file. -/
def cmd_extract (archive chunk_index_str : List Nat) : ExtractResult :=
  let p := strtol chunk_index_str
  let parsed_value := p.1
  let endptr := p.2
  if endptr ≠ chunk_index_str.length ∨ endptr = 0 ∨ parsed_value ≤ 0
      ∨ parsed_value > 2147483647 then
    { output := none, error := some .InvalidIndex, found := none, warnings := [] }
  else
    let target_index := parsed_value.toNat
    let fp_in := fopen_existing archive
    match read_u32_be fp_in with
    | (none, _) =>
      { output := none, error := some .InvalidMagic, found := none, warnings := [] }
    | (some magic, fp_in) =>
      if magic ≠ MAGIC_NUMBER then
        { output := none, error := some .InvalidMagic, found := none, warnings := [] }
      else
        let fp_in := (read_u32_be fp_in).2
        let fp_in := (read_u32_be fp_in).2
        extract_loop (archive.length + 1) fp_in 0 target_index

/-! ## List -/

/-- The lines that `cmd_list` prints, stdout and stderr in program order. -/
inductive Line where
  /-- Line "File: name (Size: n)"; `none` when the size field could not be
  read and the variable printed is indeterminate. -/
  | Header (total_size : Option Nat)
  /-- Line "Chunk #n: Type=t, Length=l bytes". -/
  | Chunk (ordinal type length : Nat)
  /-- Lines "Content:" and the buffer printed with `%s`. -/
  | Content (text : List Nat)
  /-- Line "Warning: Text chunk too large (l). Skipping print." -/
  | TextTooLarge (length : Nat)
  /-- Line "Warning: Unexpected EOF reading chunk body." -/
  | EofBody
  /-- Line "Warning: Unexpected EOF reading chunk length." -/
  | EofLength
  /-- Line "[Binary Data - Skipped]". -/
  | BinarySkipped
  /-- Line "[Padding - Skipped]". -/
  | PaddingSkipped
  /-- Line "[Unknown Type - Skipped]". -/
  | UnknownSkipped
  /-- The dashed line. -/
  | Separator
deriving DecidableEq

/-- What `printf("%s", buffer)` shows of a buffer: the bytes before the first
zero byte. -/
def printf_s (buffer : List Nat) : List Nat := buffer.takeWhile (fun b => b != 0)

/-- The chunk loop of `cmd_list`.  The first argument bounds the number of
iterations; the counter is a natural number where the source has an `int`. -/
def list_loop : Nat → FILE → Nat → List Line
  | 0, _, _ => []
  | fuel + 1, fp, chunk_count =>
    match read_u32_be fp with
    | (none, _) => []
    | (some type, fp) =>
      match read_u32_be fp with
      | (none, _) => [Line.EofLength]
      | (some length, fp) =>
        let chunk_count := chunk_count + 1
        let head := Line.Chunk chunk_count type length
        if type = TYPE_TEXT then
          if length = 0xFFFFFFFF ∨ length > 0x10000000 then
            head :: Line.TextTooLarge length :: Line.Separator
              :: list_loop fuel (seek_forward fp length) chunk_count
          else
            let r := fread fp length
            if r.1.length = length then
              head :: Line.Content (printf_s (r.1 ++ [0])) :: Line.Separator
                :: list_loop fuel r.2 chunk_count
            else
              head :: Line.EofBody :: Line.Separator :: list_loop fuel r.2 chunk_count
        else if type = TYPE_BINARY then
          head :: Line.BinarySkipped :: Line.Separator
            :: list_loop fuel (seek_forward fp length) chunk_count
        else if type = TYPE_PADDING then
          head :: Line.PaddingSkipped :: Line.Separator
            :: list_loop fuel (seek_forward fp length) chunk_count
        else
          head :: Line.UnknownSkipped :: Line.Separator
            :: list_loop fuel (seek_forward fp length) chunk_count

/-- The function `cmd_list` on an existing archive file: the lines printed, or
the invalid-magic exit, before which nothing is printed. -/
def cmd_list (archive : List Nat) : Except Error (List Line) :=
  let fp := fopen_existing archive
  match read_u32_be fp with
  | (none, _) => .error .InvalidMagic
  | (some magic, fp) =>
    if magic ≠ MAGIC_NUMBER then .error .InvalidMagic
    else
      let r1 := read_u32_be fp
      let r2 := read_u32_be r1.2
      .ok (Line.Header r1.1 :: Line.Separator :: list_loop (archive.length + 1) r2.2 0)

/-- The chunks a listing reports: ordinal, type and length of every
"Chunk #n" line. -/
def listed_chunks : List Line → List (Nat × Nat × Nat)
  | [] => []
  | Line.Chunk n t l :: rest => (n, t, l) :: listed_chunks rest
  | _ :: rest => listed_chunks rest

/-- The texts a listing displays, in order. -/
def listed_contents : List Line → List (List Nat)
  | [] => []
  | Line.Content c :: rest => c :: listed_contents rest
  | _ :: rest => listed_contents rest

/-! ## Layout of a well-formed archive -/

/-- A chunk of the format: type tag and payload; the length field is the
length of the payload. -/
structure Chunk where
  type : Nat
  payload : List Nat
deriving DecidableEq

/-- Bytes of one chunk: type, length, payload. -/
def encode_chunk (c : Chunk) : List Nat := be32 c.type ++ be32 c.payload.length ++ c.payload

/-- Bytes of a sequence of chunks laid out one after the other. -/
def encode_chunks : List Chunk → List Nat
  | [] => []
  | c :: cs => encode_chunk c ++ encode_chunks cs

/-- Bytes of the 12-byte header. -/
def encode_header (total_size reserved : Nat) : List Nat :=
  [0x5A, 0x5A, 0x4B, 0x31] ++ be32 total_size ++ be32 reserved

/-- A chunk whose fields fit the 32-bit format. -/
def Chunk.fits (c : Chunk) : Prop := c.type < 2 ^ 32 ∧ c.payload.length < 2 ^ 32

instance (c : Chunk) : Decidable c.fits := by
  unfold Chunk.fits
  infer_instance

/-- The line a listing is expected to show under the "Chunk #n" line of a
well-formed chunk. -/
def chunk_body_line (c : Chunk) : Line :=
  if c.type = TYPE_TEXT then
    if c.payload.length = 0xFFFFFFFF ∨ c.payload.length > 0x10000000 then
      Line.TextTooLarge c.payload.length
    else Line.Content (printf_s (c.payload ++ [0]))
  else if c.type = TYPE_BINARY then Line.BinarySkipped
  else if c.type = TYPE_PADDING then Line.PaddingSkipped
  else Line.UnknownSkipped

/-- The lines a listing is expected to show for a sequence of well-formed
chunks when `k` chunks were counted before. -/
def chunk_lines : Nat → List Chunk → List Line
  | _, [] => []
  | k, c :: cs =>
    Line.Chunk (k + 1) c.type c.payload.length :: chunk_body_line c :: Line.Separator
      :: chunk_lines (k + 1) cs

/-- The bytes of a file after `buf` is stored at offset `p` within it. -/
def overwrite (d : List Nat) (p : Nat) (buf : List Nat) : List Nat :=
  d.take p ++ buf ++ d.drop (p + buf.length)

/-- The total-size field of a file as `read_u32_be` reads it at offset 4. -/
def header_total_size (f : List Nat) : Option Nat := (read_u32_be { data := f, pos := 4 }).1

/-- The magic field of a file as `read_u32_be` reads it at offset 0. -/
def header_magic (f : List Nat) : Option Nat := (read_u32_be (fopen_existing f)).1

/-- Ordinal, type and length of the chunks of a sequence, the first one
numbered `k + 1`. -/
def numbered : Nat → List Chunk → List (Nat × Nat × Nat)
  | _, [] => []
  | k, c :: cs => (k + 1, c.type, c.payload.length) :: numbered (k + 1) cs

/-- Bytes of a healthy archive: a header whose total size is the length of
the file, followed by the chunks. -/
def healthy_archive (reserved : Nat) (cs : List Chunk) : List Nat :=
  encode_header (12 + (encode_chunks cs).length) reserved ++ encode_chunks cs

/-- An index string that denotes the integer `i` between 1 and 2147483647:
optional white space, an optional plus sign, then one or more decimal digits
whose value is `i`. -/
def positive_index (s : List Nat) (i : Nat) : Prop :=
  ∃ ws sign ds, s = ws ++ sign ++ ds ∧ (∀ c ∈ ws, isspace c = true)
    ∧ (sign = [] ∨ sign = [43]) ∧ ds ≠ [] ∧ (∀ c ∈ ds, isdigit c = true)
    ∧ digits_value ds = i ∧ 1 ≤ i ∧ i ≤ 2147483647

/-- The condition of a foreign file in the format description: fewer than
four bytes, or the first four bytes read as a big-endian 32-bit integer
differ from `0x5A5A4B31`. -/
def bad_magic (f : List Nat) : Prop :=
  f.length < 4 ∨ ∃ b0 b1 b2 b3 rest, f = b0 :: b1 :: b2 :: b3 :: rest
    ∧ be32_value b0 b1 b2 b3 ≠ 0x5A5A4B31

/-- The steps that the loop of `seek_forward` hands to `fseek`, in order: the
loop of `seek_forward_loop` with the stream left out. -/
def seek_forward_steps : Nat → Nat → List Nat
  | 0, _ => []
  | fuel + 1, offset =>
    if offset > 0 then
      let step := if offset > MAX_STEP then MAX_STEP else offset
      step :: seek_forward_steps fuel (usub offset step)
    else []

/-- A sequence of calls of `append_str` on one buffer, each starting where the
one before stopped, as `cmd_append_file` issues them: the buffer, `used` and
whether some call returned non-zero. -/
def append_str_all (dst : List Nat) (dst_cap used : Nat) :
    List (List Nat) → List Nat × Nat × Bool
  | [] => (dst, used, false)
  | src :: rest =>
    let r := append_str dst dst_cap used src
    let q := append_str_all r.2.1 dst_cap r.2.2 rest
    (q.1, q.2.1, r.1 != 0 || q.2.2)

/-- The metadata text of an append-file as the format description words it:
"Filename: name", "Description: description" and "Size: n bytes" on three
lines, `n` in decimal. -/
def metadata_text (target_file description : List Nat) (n : Nat) : List Nat :=
  lit "Filename: " ++ target_file ++ lit "\nDescription: " ++ description ++ lit "\nSize: "
    ++ sprintf_lu n ++ lit " bytes"

/-- The texts a listing is expected to display for a sequence of well-formed
chunks: the payload, printed as a C string, of every TEXT chunk that passes
the size guard of `cmd_list`, and nothing for any other chunk. -/
def displayed_texts : List Chunk → List (List Nat)
  | [] => []
  | c :: cs =>
    if c.type = TYPE_TEXT ∧ ¬ (c.payload.length = 0xFFFFFFFF ∨ c.payload.length > 0x10000000) then
      printf_s (c.payload ++ [0]) :: displayed_texts cs
    else displayed_texts cs

/-- The 4-byte field stored at offset `p` of a file, read as a big-endian
unsigned 32-bit integer; `none` when fewer than four bytes are left. -/
def field_at (data : List Nat) (p : Nat) : Option Nat :=
  match (data.drop p).take 4 with
  | [b0, b1, b2, b3] => some (be32_value b0 b1 b2 b3)
  | _ => none

/-- The left-to-right scan of the format description: from offset `p`, with
`k` chunks counted before, a chunk is a type field and a length field, it gets
the next ordinal, and the next chunk is looked for `8 + length` bytes
further; the scan ends where a chunk header is not complete.  The first
argument bounds the number of chunks. -/
def scan_chunks : Nat → List Nat → Nat → Nat → List (Nat × Nat × Nat)
  | 0, _, _, _ => []
  | fuel + 1, data, p, k =>
    match field_at data p with
    | none => []
    | some type =>
      match field_at data (p + 4) with
      | none => []
      | some length => (k + 1, type, length) :: scan_chunks fuel data (p + 8 + length) (k + 1)

/-! ## Codec lemmas -/

theorem u32_be_buf_eq_be32 (v : Nat) : u32_be_buf v = be32 v := by
  have h : (0xFF : Nat) = 2 ^ 8 - 1 := by norm_num
  simp only [u32_be_buf, be32, h, Nat.and_pow_two_sub_one_eq_mod, Nat.shiftRight_eq_div_pow]
  norm_num

theorem be32_length (v : Nat) : (be32 v).length = 4 := rfl

theorem u32_be_buf_length (v : Nat) : (u32_be_buf v).length = 4 := rfl

theorem decode_eq_be32_value (b0 b1 b2 b3 : Nat) (h1 : b1 < 256) (h2 : b2 < 256)
    (h3 : b3 < 256) :
    ((b0 <<< 24) ||| (b1 <<< 16) ||| (b2 <<< 8) ||| b3) = be32_value b0 b1 b2 b3 := by
  have e1 : (b0 <<< 24) ||| (b1 <<< 16) = 2 ^ 16 * (b0 * 2 ^ 8 + b1) := by
    have h := Nat.mul_add_lt_is_or (show b1 * 2 ^ 16 < 2 ^ 24 by omega) b0
    rw [Nat.shiftLeft_eq, Nat.shiftLeft_eq, Nat.mul_comm b0 (2 ^ 24), ← h]
    ring
  have e2 : 2 ^ 16 * (b0 * 2 ^ 8 + b1) ||| (b2 <<< 8)
      = 2 ^ 8 * (b0 * 2 ^ 16 + b1 * 2 ^ 8 + b2) := by
    have h := Nat.mul_add_lt_is_or (show b2 * 2 ^ 8 < 2 ^ 16 by omega) (b0 * 2 ^ 8 + b1)
    rw [Nat.shiftLeft_eq, ← h]
    ring
  have e3 : 2 ^ 8 * (b0 * 2 ^ 16 + b1 * 2 ^ 8 + b2) ||| b3
      = 2 ^ 8 * (b0 * 2 ^ 16 + b1 * 2 ^ 8 + b2) + b3 :=
    (Nat.mul_add_lt_is_or (show b3 < 2 ^ 8 by omega) _).symm
  rw [e1, e2, e3]
  simp only [be32_value]
  ring

theorem be32_value_be32 (v : Nat) (h : v < 2 ^ 32) :
    be32_value (v / 2 ^ 24 % 256) (v / 2 ^ 16 % 256) (v / 2 ^ 8 % 256) (v % 256) = v := by
  simp only [be32_value]
  omega

theorem be32_of_be32_value (b0 b1 b2 b3 : Nat) (h0 : b0 < 256) (h1 : b1 < 256)
    (h2 : b2 < 256) (h3 : b3 < 256) : be32 (be32_value b0 b1 b2 b3) = [b0, b1, b2, b3] := by
  simp only [be32, be32_value]
  have e0 : (b0 * 2 ^ 24 + b1 * 2 ^ 16 + b2 * 2 ^ 8 + b3) / 2 ^ 24 % 256 = b0 := by omega
  have e1 : (b0 * 2 ^ 24 + b1 * 2 ^ 16 + b2 * 2 ^ 8 + b3) / 2 ^ 16 % 256 = b1 := by omega
  have e2 : (b0 * 2 ^ 24 + b1 * 2 ^ 16 + b2 * 2 ^ 8 + b3) / 2 ^ 8 % 256 = b2 := by omega
  have e3 : (b0 * 2 ^ 24 + b1 * 2 ^ 16 + b2 * 2 ^ 8 + b3) % 256 = b3 := by omega
  rw [e0, e1, e2, e3]

theorem be32_value_lt (b0 b1 b2 b3 : Nat) (h0 : b0 < 256) (h1 : b1 < 256)
    (h2 : b2 < 256) (h3 : b3 < 256) : be32_value b0 b1 b2 b3 < 2 ^ 32 := by
  simp only [be32_value]
  omega

/-! ## Stream lemmas -/

theorem fwrite_pos (fp : FILE) (buf : List Nat) : (fwrite fp buf).pos = fp.pos + buf.length := rfl

theorem fwrite_data_eof (fp : FILE) (buf : List Nat) (h : fp.pos = fp.data.length) :
    (fwrite fp buf).data = fp.data ++ buf := by
  simp [fwrite, h]

theorem fwrite_data_inside (pre old post buf : List Nat) (h : old.length = buf.length) :
    (fwrite { data := pre ++ old ++ post, pos := pre.length } buf).data = pre ++ buf ++ post := by
  simp [fwrite, h]

theorem fwrite_data_drop (fp : FILE) (buf : List Nat) :
    (fwrite fp buf).data.drop fp.pos = buf ++ fp.data.drop (fp.pos + buf.length) := by
  have hl : (fp.data.take fp.pos ++ List.replicate (fp.pos - fp.data.length) 0).length = fp.pos := by
    simp only [List.length_append, List.length_take, List.length_replicate]
    omega
  have e : (fwrite fp buf).data
      = (fp.data.take fp.pos ++ List.replicate (fp.pos - fp.data.length) 0)
        ++ (buf ++ fp.data.drop (fp.pos + buf.length)) := by
    simp [fwrite]
  rw [e, List.drop_append_eq_append_drop, hl, List.drop_of_length_le (by omega)]
  simp

theorem fread_data (fp : FILE) (n : Nat) : (fread fp n).2.data = fp.data := rfl

theorem read_u32_be_data (fp : FILE) : (read_u32_be fp).2.data = fp.data := by
  simp only [read_u32_be]
  split <;> rfl

theorem read_u32_be_of_drop (fp : FILE) (v : Nat) (rest : List Nat) (hv : v < 2 ^ 32)
    (h : fp.data.drop fp.pos = be32 v ++ rest) :
    read_u32_be fp = (some v, { data := fp.data, pos := fp.pos + 4 }) := by
  have hd := decode_eq_be32_value (v / 2 ^ 24 % 256) (v / 2 ^ 16 % 256) (v / 2 ^ 8 % 256)
    (v % 256) (Nat.mod_lt _ (by norm_num)) (Nat.mod_lt _ (by norm_num))
    (Nat.mod_lt _ (by norm_num))
  rw [be32_value_be32 v hv] at hd
  simp only [read_u32_be, fread, h, be32]
  simp only [List.cons_append, List.nil_append, List.take_succ_cons, List.take_zero,
    List.length_cons, List.length_nil, hd]

theorem read_u32_be_none_iff (fp : FILE) :
    (read_u32_be fp).1 = none ↔ fp.data.length - fp.pos < 4 := by
  have hl : ((fp.data.drop fp.pos).take 4).length = min 4 (fp.data.length - fp.pos) := by
    simp
  simp only [read_u32_be, fread]
  constructor
  · intro h
    split at h
    · simp at h
    · rename_i hne
      by_contra hcon
      have h4 : ((fp.data.drop fp.pos).take 4).length = 4 := by rw [hl]; omega
      match hm : (fp.data.drop fp.pos).take 4, h4 with
      | [a, b, c, d], _ => exact hne a b c d hm
  · intro h
    split
    · rename_i b0 b1 b2 b3 heq
      have := congrArg List.length heq
      rw [hl] at this
      simp at this
      omega
    · rfl

theorem uadd_eq (a b : Nat) (h : a + b < 2 ^ 64) : uadd a b = a + b := by
  simp only [uadd, ULONG_MOD]
  exact Nat.mod_eq_of_lt h

theorem usub_eq (a b : Nat) (hb : b ≤ a) (ha : a < 2 ^ 64) : usub a b = a - b := by
  simp only [usub, ULONG_MOD]
  rw [Nat.mod_eq_of_lt (show b < 2 ^ 64 by omega)]
  omega

theorem fwrite_eof (fp : FILE) (buf : List Nat) (h : fp.pos = fp.data.length) :
    fwrite fp buf = { data := fp.data ++ buf, pos := fp.data.length + buf.length } := by
  simp [fwrite, h]

theorem write_u32_be_eof (fp : FILE) (v : Nat) (h : fp.pos = fp.data.length) :
    write_u32_be fp v = { data := fp.data ++ be32 v, pos := fp.data.length + 4 } := by
  rw [write_u32_be, fwrite_eof _ _ h, u32_be_buf_eq_be32]
  rfl

theorem require_fwrite_eof (fp : FILE) (buf : List Nat) (h : fp.pos = fp.data.length) :
    require_fwrite fp buf buf.length
      = { data := fp.data ++ buf, pos := fp.data.length + buf.length } := by
  unfold require_fwrite
  split
  · rename_i h0
    have : buf = [] := List.length_eq_zero.mp h0
    subst this
    cases fp
    simp_all
  · rw [List.take_length, fwrite_eof _ _ h]

theorem write_u32_be_at_end (d : List Nat) (v : Nat) :
    write_u32_be { data := d, pos := d.length } v
      = { data := d ++ be32 v, pos := (d ++ be32 v).length } := by
  rw [write_u32_be_eof _ _ rfl]
  simp [be32_length]

theorem require_fwrite_at_end (d buf : List Nat) :
    require_fwrite { data := d, pos := d.length } buf buf.length
      = { data := d ++ buf, pos := (d ++ buf).length } := by
  rw [require_fwrite_eof _ _ rfl]
  simp

/-! ## Loops -/

theorem seek_forward_loop_eq : ∀ (fuel offset : Nat) (fp : FILE),
    offset ≤ fuel → offset < 2 ^ 64 →
    seek_forward_loop fuel fp offset = { data := fp.data, pos := fp.pos + offset }
  | 0, offset, fp, h, _ => by
    have : offset = 0 := by omega
    subst this
    rfl
  | fuel + 1, offset, fp, h, h64 => by
    unfold seek_forward_loop
    by_cases h0 : offset > 0
    · rw [if_pos h0]
      simp only [MAX_STEP]
      by_cases hs : offset > 0x70000000
      · simp only [hs, if_true]
        rw [usub_eq _ _ (by omega) h64,
          seek_forward_loop_eq fuel _ _ (by omega) (by omega)]
        simp only [fseek_cur, FILE.mk.injEq, true_and]
        omega
      · simp only [hs, if_false]
        rw [usub_eq _ _ (by omega) h64,
          seek_forward_loop_eq fuel _ _ (by omega) (by omega)]
        simp only [fseek_cur, FILE.mk.injEq, true_and]
        omega
    · rw [if_neg h0]
      have : offset = 0 := by omega
      subst this
      rfl

theorem seek_forward_eq (fp : FILE) (offset : Nat) (h : offset < 2 ^ 64) :
    seek_forward fp offset = { data := fp.data, pos := fp.pos + offset } :=
  seek_forward_loop_eq offset offset fp (Nat.le_refl _) h

theorem read_u32_be_eof (fp : FILE) (h : fp.data.drop fp.pos = []) :
    (read_u32_be fp).1 = none := by
  rw [read_u32_be_none_iff]
  have := List.drop_eq_nil_iff.mp h
  omega

theorem read_u32_be_eof_eq (fp : FILE) (h : fp.data.drop fp.pos = []) :
    ∃ q, read_u32_be fp = (none, q) := by
  have := read_u32_be_eof fp h
  cases hr : read_u32_be fp with
  | mk a q =>
    rw [hr] at this
    simp only at this
    subst this
    exact ⟨q, rfl⟩

theorem drop_add_of_drop_eq (l : List Nat) (p : Nat) (a b : List Nat)
    (h : l.drop p = a ++ b) : l.drop (p + a.length) = b := by
  rw [← List.drop_drop, h, List.drop_left]

theorem fread_payload (fp : FILE) (payload rest : List Nat)
    (h : fp.data.drop fp.pos = payload ++ rest) :
    fread fp payload.length = (payload, { data := fp.data, pos := fp.pos + payload.length }) := by
  simp only [fread, h, List.take_left]

theorem list_loop_encoded (cs : List Chunk) : ∀ (fuel : Nat) (fp : FILE) (k : Nat),
    (∀ c ∈ cs, c.fits) → fp.data.drop fp.pos = encode_chunks cs → cs.length < fuel →
    list_loop fuel fp k = chunk_lines k cs := by
  induction cs with
  | nil =>
    intro fuel fp k _ hd hf
    obtain ⟨n, rfl⟩ : ∃ n, fuel = n + 1 := ⟨fuel - 1, by simp at hf; omega⟩
    obtain ⟨q, hq⟩ := read_u32_be_eof_eq fp (by simpa [encode_chunks] using hd)
    simp only [list_loop, hq, chunk_lines]
  | cons c cs ih =>
    intro fuel fp k hfit hd hf
    obtain ⟨n, rfl⟩ : ∃ n, fuel = n + 1 := ⟨fuel - 1, by simp at hf; omega⟩
    have hc : c.fits := hfit c (List.mem_cons_self _ _)
    have hrest : ∀ c ∈ cs, c.fits := fun x hx => hfit x (List.mem_cons_of_mem _ hx)
    have hd1 : fp.data.drop fp.pos
        = be32 c.type ++ (be32 c.payload.length ++ (c.payload ++ encode_chunks cs)) := by
      rw [hd]; simp [encode_chunks, encode_chunk]
    have r1 := read_u32_be_of_drop fp c.type _ hc.1 hd1
    have hd2 : (FILE.mk fp.data (fp.pos + 4)).data.drop (FILE.mk fp.data (fp.pos + 4)).pos
        = be32 c.payload.length ++ (c.payload ++ encode_chunks cs) :=
      drop_add_of_drop_eq _ _ (be32 c.type) _ hd1
    have r2 := read_u32_be_of_drop _ c.payload.length _ hc.2 hd2
    have hd3 : fp.data.drop (fp.pos + 4 + 4) = c.payload ++ encode_chunks cs :=
      drop_add_of_drop_eq _ _ (be32 c.payload.length) _ hd2
    have hd4 : fp.data.drop (fp.pos + 4 + 4 + c.payload.length) = encode_chunks cs :=
      drop_add_of_drop_eq _ _ c.payload _ hd3
    have hseek : seek_forward { data := fp.data, pos := fp.pos + 4 + 4 } c.payload.length
        = { data := fp.data, pos := fp.pos + 4 + 4 + c.payload.length } :=
      seek_forward_eq _ _ (by have := hc.2; omega)
    have hread : fread { data := fp.data, pos := fp.pos + 4 + 4 } c.payload.length
        = (c.payload, { data := fp.data, pos := fp.pos + 4 + 4 + c.payload.length }) :=
      fread_payload _ _ _ hd3
    have hnext : list_loop n { data := fp.data, pos := fp.pos + 4 + 4 + c.payload.length } (k + 1)
        = chunk_lines (k + 1) cs :=
      ih n _ (k + 1) hrest hd4 (by simp at hf; omega)
    simp only [list_loop, r1, r2, hseek, hread, hnext, chunk_lines, chunk_body_line]
    split_ifs <;> simp_all

theorem encode_header_eq (H R : Nat) :
    encode_header H R = be32 MAGIC_NUMBER ++ (be32 H ++ be32 R) := by
  have : be32 MAGIC_NUMBER = [0x5A, 0x5A, 0x4B, 0x31] := by decide
  rw [this]
  simp [encode_header]

theorem encode_header_length (H R : Nat) : (encode_header H R).length = 12 := rfl

theorem encode_chunks_append (cs ds : List Chunk) :
    encode_chunks (cs ++ ds) = encode_chunks cs ++ encode_chunks ds := by
  induction cs with
  | nil => rfl
  | cons c cs ih => simp [encode_chunks, ih]

theorem encode_chunks_length_ge (cs : List Chunk) : cs.length ≤ (encode_chunks cs).length := by
  induction cs with
  | nil => simp
  | cons c cs ih =>
    simp only [encode_chunks, encode_chunk, List.length_append, be32_length, List.length_cons]
    omega

/-- Reading the three header fields of a file that starts with a header. -/
theorem read_header (H R : Nat) (body : List Nat) (hH : H < 2 ^ 32) (hR : R < 2 ^ 32) :
    read_u32_be (fopen_existing (encode_header H R ++ body))
        = (some MAGIC_NUMBER, { data := encode_header H R ++ body, pos := 4 })
    ∧ read_u32_be { data := encode_header H R ++ body, pos := 4 }
        = (some H, { data := encode_header H R ++ body, pos := 8 })
    ∧ read_u32_be { data := encode_header H R ++ body, pos := 8 }
        = (some R, { data := encode_header H R ++ body, pos := 12 })
    ∧ (encode_header H R ++ body).drop 12 = body := by
  have e : encode_header H R ++ body = be32 MAGIC_NUMBER ++ (be32 H ++ (be32 R ++ body)) := by
    rw [encode_header_eq]; simp
  have d0 : (fopen_existing (encode_header H R ++ body)).data.drop
      (fopen_existing (encode_header H R ++ body)).pos
      = be32 MAGIC_NUMBER ++ (be32 H ++ (be32 R ++ body)) := by
    simp only [fopen_existing, List.drop_zero]; exact e
  have d1 := drop_add_of_drop_eq _ _ _ _ d0
  have d2 := drop_add_of_drop_eq _ _ _ _ d1
  have d3 := drop_add_of_drop_eq _ _ _ _ d2
  refine ⟨?_, ?_, ?_, ?_⟩
  · rw [read_u32_be_of_drop _ MAGIC_NUMBER _ (by decide) d0]; rfl
  · rw [read_u32_be_of_drop _ H _ hH (by simpa [fopen_existing, be32_length] using d1)]
  · rw [read_u32_be_of_drop _ R _ hR (by simpa [fopen_existing, be32_length] using d2)]
  · simpa [fopen_existing, be32_length] using d3

theorem cmd_list_encoded (H R : Nat) (cs : List Chunk) (hH : H < 2 ^ 32) (hR : R < 2 ^ 32)
    (hfit : ∀ c ∈ cs, c.fits) :
    cmd_list (encode_header H R ++ encode_chunks cs)
      = .ok (Line.Header (some H) :: Line.Separator :: chunk_lines 0 cs) := by
  obtain ⟨r0, r1, r2, hd⟩ := read_header H R (encode_chunks cs) hH hR
  have hl := list_loop_encoded cs ((encode_header H R ++ encode_chunks cs).length + 1)
    { data := encode_header H R ++ encode_chunks cs, pos := 12 } 0 hfit hd
    (by have := encode_chunks_length_ge cs
        simp only [List.length_append]; omega)
  simp only [cmd_list, r0, r1, r2, hl]
  simp

theorem printf_s_terminated (t : List Nat) (h : 0 ∉ t) : printf_s (t ++ [0]) = t := by
  induction t with
  | nil => simp [printf_s]
  | cons a t ih =>
    have ha : a ≠ 0 := fun e => h (by simp [e])
    have ht : 0 ∉ t := fun e => h (List.mem_cons_of_mem _ e)
    have := ih ht
    have hb : (a != 0) = true := by simpa using ha
    simp only [printf_s] at this ⊢
    simp only [List.cons_append, List.takeWhile_cons, hb, if_true, this]

theorem create_eq_encoded (t : List Nat) (h : t.length ≤ 0xFFFFFFEB) :
    cmd_create t
      = .ok (encode_header (12 + 8 + t.length) 0 ++ encode_chunks [{ type := 1, payload := t }]) := by
  have hg : ¬ t.length > 0xFFFFFFEB := by omega
  have h1 : uadd 8 t.length = 8 + t.length := uadd_eq 8 _ (by omega)
  have h2 : uadd 12 (8 + t.length) = 12 + 8 + t.length := by
    rw [uadd_eq 12 _ (by omega)]; omega
  have h0 : fopen_wb = { data := [], pos := ([] : List Nat).length } := rfl
  unfold cmd_create
  simp only [require_write_u32, hg, if_false, h1, h2, h0, write_u32_be_at_end,
    require_fwrite_at_end]
  simp only [MAGIC_NUMBER, RESERVED, TYPE_TEXT, List.nil_append, encode_header_eq,
    encode_chunks, encode_chunk, List.append_assoc, List.append_nil]

/-- Above the display ceiling the listing of a freshly created archive shows
the chunk line and the warning, and no content. -/
theorem list_above_ceiling (t : List Nat) (hlo : 0x10000000 < t.length)
    (hhi : t.length ≤ 0xFFFFFFEB) :
    ∃ f lines, cmd_create t = .ok f ∧ cmd_list f = .ok lines
      ∧ listed_chunks lines = [(1, TYPE_TEXT, t.length)]
      ∧ listed_contents lines = []
      ∧ Line.TextTooLarge t.length ∈ lines := by
  have h1 : (t.length = 0xFFFFFFFF ∨ t.length > 0x10000000) := by omega
  refine ⟨_, _, create_eq_encoded t hhi,
    cmd_list_encoded _ 0 _ (by omega) (by norm_num) ?_, ?_, ?_, ?_⟩
  · intro c hc
    simp only [List.mem_singleton] at hc
    subst hc
    exact ⟨by norm_num, by simp only; omega⟩
  · simp only [chunk_lines, chunk_body_line, TYPE_TEXT, if_true, h1, listed_chunks]
  · simp only [chunk_lines, chunk_body_line, TYPE_TEXT, if_true, h1, listed_contents]
  · simp only [chunk_lines, chunk_body_line, TYPE_TEXT, if_true, h1]
    simp

/-! ## Writing inside a file -/

theorem fwrite_eq_overwrite (fp : FILE) (buf : List Nat) (h : fp.pos ≤ fp.data.length) :
    fwrite fp buf = { data := overwrite fp.data fp.pos buf, pos := fp.pos + buf.length } := by
  simp [fwrite, overwrite, Nat.sub_eq_zero_of_le h]

theorem overwrite_length (d : List Nat) (p : Nat) (buf : List Nat) (h : p ≤ d.length) :
    (overwrite d p buf).length = max d.length (p + buf.length) := by
  simp only [overwrite, List.length_append, List.length_take, List.length_drop]
  omega

theorem overwrite_eof (d buf : List Nat) : overwrite d d.length buf = d ++ buf := by
  simp [overwrite]

theorem overwrite_drop (d : List Nat) (p : Nat) (buf : List Nat) (h : p ≤ d.length) :
    (overwrite d p buf).drop p = buf ++ d.drop (p + buf.length) := by
  have hl : (d.take p).length = p := by simp; omega
  simp only [overwrite, List.append_assoc]
  rw [List.drop_append_eq_append_drop, hl, List.drop_of_length_le (by omega)]
  simp

theorem overwrite_take (d : List Nat) (p : Nat) (buf : List Nat) (h : p ≤ d.length) :
    (overwrite d p buf).take p = d.take p := by
  have hl : (d.take p).length = p := by simp; omega
  simp only [overwrite, List.append_assoc]
  rw [List.take_append_eq_append_take, hl]
  simp

theorem overwrite_adjacent (d : List Nat) (p : Nat) (a b : List Nat) (h : p ≤ d.length) :
    overwrite (overwrite d p a) (p + a.length) b = overwrite d p (a ++ b) := by
  have hl : (d.take p).length = p := by simp; omega
  have e1 : (overwrite d p a).take (p + a.length) = d.take p ++ a := by
    simp only [overwrite]
    rw [List.take_append_eq_append_take,
      List.take_of_length_le (by simp only [List.length_append, hl]; omega)]
    simp [hl]
  have e2 : (overwrite d p a).drop (p + a.length + b.length)
      = d.drop (p + (a ++ b).length) := by
    simp only [overwrite]
    rw [List.drop_append_eq_append_drop,
      List.drop_of_length_le (by simp only [List.length_append, hl]; omega)]
    simp only [List.length_append, hl, List.nil_append, List.drop_drop]
    congr 1
    omega
  rw [overwrite, e1, e2, overwrite]
  simp

theorem overwrite_inside (pre old post buf : List Nat) (h : old.length = buf.length) :
    overwrite (pre ++ old ++ post) pre.length buf = pre ++ buf ++ post := by
  simp [overwrite, h]

theorem require_fwrite_eq (fp : FILE) (buf : List Nat) (h : fp.pos ≤ fp.data.length) :
    require_fwrite fp buf buf.length
      = { data := overwrite fp.data fp.pos buf, pos := fp.pos + buf.length } := by
  unfold require_fwrite
  split
  · rename_i h0
    have : buf = [] := List.length_eq_zero.mp h0
    subst this
    cases fp
    simp [overwrite]
  · rw [List.take_length, fwrite_eq_overwrite _ _ h]

theorem write_u32_be_eq (fp : FILE) (v : Nat) (h : fp.pos ≤ fp.data.length) :
    write_u32_be fp v = { data := overwrite fp.data fp.pos (be32 v), pos := fp.pos + 4 } := by
  rw [write_u32_be, fwrite_eq_overwrite _ _ h, u32_be_buf_eq_be32]
  rfl

theorem read_u32_be_some (fp q : FILE) (v : Nat) (h : read_u32_be fp = (some v, q)) :
    q = { data := fp.data, pos := fp.pos + 4 } ∧ fp.pos + 4 ≤ fp.data.length := by
  have hn : ¬ (fp.data.length - fp.pos < 4) := by
    rw [← read_u32_be_none_iff, h]; simp
  have hl : ((fp.data.drop fp.pos).take 4).length = 4 := by simp; omega
  refine ⟨?_, by omega⟩
  have : (read_u32_be fp).2 = { data := fp.data, pos := fp.pos + 4 } := by
    simp only [read_u32_be, fread]
    split <;> simp [hl]
  rw [h] at this
  exact this

/-- The bytes of a chunk that an append writes, as one block. -/
theorem chunk_write (fp : FILE) (ty : Nat) (payload : List Nat) (h : fp.pos ≤ fp.data.length) :
    require_fwrite
        (require_write_u32 (require_write_u32 fp ty) payload.length) payload payload.length
      = { data := overwrite fp.data fp.pos (be32 ty ++ be32 payload.length ++ payload),
          pos := fp.pos + (8 + payload.length) } := by
  have h1 : fp.pos + 4 ≤ (overwrite fp.data fp.pos (be32 ty)).length := by
    rw [overwrite_length _ _ _ h, be32_length]; omega
  have h2 : fp.pos + 4 + 4
      ≤ (overwrite (overwrite fp.data fp.pos (be32 ty)) (fp.pos + 4) (be32 payload.length)).length := by
    rw [overwrite_length _ _ _ h1, be32_length]; omega
  simp only [require_write_u32]
  rw [write_u32_be_eq _ _ h, write_u32_be_eq _ _ h1, require_fwrite_eq _ _ h2]
  simp only
  have e1 := overwrite_adjacent fp.data fp.pos (be32 ty) (be32 payload.length) h
  rw [be32_length] at e1
  rw [e1]
  have e2 := overwrite_adjacent fp.data fp.pos (be32 ty ++ be32 payload.length) payload h
  simp only [List.length_append, be32_length] at e2
  rw [show fp.pos + 4 + 4 = fp.pos + (4 + 4) by omega, e2]
  simp only [FILE.mk.injEq, true_and]
  omega

/-! ## Opening and appending -/

/-- What a successful `validate_and_open` tells about the file and what it
hands back: in the healthy and in the repaired case alike the write position
and the baseline are the recorded total size. -/
theorem validate_and_open_ok (archive : List Nat) (o : Opened)
    (h : validate_and_open archive = .ok o) :
    header_magic archive = some MAGIC_NUMBER ∧ 12 ≤ archive.length
    ∧ archive.length ≤ 0xFFFFFFFF
    ∧ ∃ H, header_total_size archive = some H ∧ H ≤ archive.length
        ∧ o.fp = { data := archive, pos := H } ∧ o.current_size = H := by
  unfold validate_and_open at h
  cases h1 : read_u32_be (fopen_existing archive) with
  | mk a q1 =>
    cases a with
    | none => simp [h1] at h
    | some magic =>
      obtain ⟨hq1, hl1⟩ := read_u32_be_some _ _ _ h1
      simp only [fopen_existing] at hq1 hl1
      subst hq1
      simp only [h1] at h
      by_cases hm : magic ≠ MAGIC_NUMBER
      · simp [hm] at h
      · simp only [hm, if_false] at h
        have hm2 : magic = MAGIC_NUMBER := by simpa using hm
        cases h2 : read_u32_be { data := archive, pos := 0 + 4 } with
        | mk b q2 =>
          cases b with
          | none => simp [h2] at h
          | some H =>
            obtain ⟨hq2, hl2⟩ := read_u32_be_some _ _ _ h2
            simp only at hq2 hl2
            subst hq2
            simp only [h2] at h
            cases h3 : read_u32_be { data := archive, pos := 0 + 4 + 4 } with
            | mk c q3 =>
              cases c with
              | none => simp [h3] at h
              | some R =>
                obtain ⟨hq3, hl3⟩ := read_u32_be_some _ _ _ h3
                simp only at hq3 hl3
                subst hq3
                simp only [h3, get_file_size_u32_or_die, fseek_end] at h
                by_cases hbig : archive.length > 0xFFFFFFFF
                · simp [hbig] at h
                · simp only [hbig, if_false] at h
                  have hmag : header_magic archive = some MAGIC_NUMBER := by
                    simp only [header_magic, h1, hm2]
                  have hsz : header_total_size archive = some H := by
                    simp only [header_total_size]
                    simp only [Nat.zero_add] at h2
                    rw [h2]
                  refine ⟨hmag, by omega, by omega, H, hsz, ?_⟩
                  by_cases hne : H ≠ archive.length
                  · rw [if_pos hne] at h
                    by_cases hgt : archive.length > H
                    · simp only [hgt, if_true, Except.ok.injEq] at h
                      subst h
                      exact ⟨by omega, rfl, rfl⟩
                    · simp [hgt] at h
                  · have he : H = archive.length := by simpa using hne
                    rw [if_neg hne] at h
                    simp only [Except.ok.injEq] at h
                    subst h
                    simp only [fseek_end, he]
                    exact ⟨Nat.le_refl _, trivial, trivial⟩

/-- Shape of a successful `cmd_append`: the chunk is stored at the recorded
total size `H` and the size field at offset 4 then receives `H + 8 + len`. -/
theorem cmd_append_ok (archive t : List Nat) (h : (cmd_append archive t).error = none) :
    ∃ H, header_total_size archive = some H ∧ H ≤ archive.length
      ∧ 12 ≤ archive.length ∧ H + (8 + t.length) ≤ 0xFFFFFFFF
      ∧ (cmd_append archive t).archive
          = overwrite (overwrite archive H (be32 TYPE_TEXT ++ be32 t.length ++ t)) 4
              (be32 (H + (8 + t.length)))
      ∧ archive.length ≤ 0xFFFFFFFF := by
  unfold cmd_append at h ⊢
  by_cases hbig : t.length > 0xFFFFFFF7
  · simp [hbig] at h
  · simp only [hbig, if_false] at h ⊢
    have h8 : uadd 8 t.length = 8 + t.length := uadd_eq _ _ (by omega)
    cases hv : validate_and_open archive with
    | error e => simp [hv] at h
    | ok o =>
      obtain ⟨_, h12, hmax, H, hH, hle, hfp, hcur⟩ := validate_and_open_ok archive o hv
      simp only [hv, h8] at h ⊢
      rw [hfp, hcur] at h ⊢
      rw [chunk_write { data := archive, pos := H } TYPE_TEXT t hle] at h ⊢
      simp only [update_total_size] at h ⊢
      have hs : usub 0xFFFFFFFF (8 + t.length) = 0xFFFFFFFF - (8 + t.length) :=
        usub_eq _ _ (by omega) (by norm_num)
      rw [hs] at h ⊢
      by_cases hov : H > 0xFFFFFFFF - (8 + t.length)
      · simp [hov] at h
      · simp only [hov, if_false] at h ⊢
        refine ⟨H, hH, hle, h12, by omega, ?_, hmax⟩
        rw [uadd_eq _ _ (by omega)]
        simp only [require_write_u32, fseek_set, fseek_end]
        rw [write_u32_be_eq _ _ (by
          simp only
          rw [overwrite_length _ _ _ hle]
          omega)]

theorem overwrite_nil (d : List Nat) (p : Nat) : overwrite d p [] = d := by
  simp [overwrite]

theorem drop_take_length (l : List Nat) (n : Nat) : l.drop (l.take n).length = l.drop n := by
  rw [List.length_take]
  by_cases h : n ≤ l.length
  · rw [Nat.min_eq_left h]
  · rw [Nat.min_eq_right (by omega), List.drop_of_length_le (Nat.le_refl _),
      List.drop_of_length_le (by omega)]

theorem append_file_copy_loop_eq : ∀ (fuel : Nat) (target : List Nat) (p : Nat) (fa : FILE),
    target.length - p < fuel → fa.pos ≤ fa.data.length →
    (append_file_copy_loop fuel { data := target, pos := p } fa).2
      = { data := overwrite fa.data fa.pos (target.drop p),
          pos := fa.pos + (target.drop p).length }
  | 0, _, _, _, h, _ => by omega
  | fuel + 1, target, p, fa, h, hfa => by
    unfold append_file_copy_loop
    simp only [fread]
    by_cases hg : ((target.drop p).take 4096).length > 0
    · rw [if_pos hg]
      rw [require_fwrite_eq _ _ hfa]
      have hlt : ((target.drop p).take 4096).length ≤ target.length - p := by
        simp only [List.length_take, List.length_drop]; omega
      rw [append_file_copy_loop_eq fuel target _ _ (by omega) (by
        simp only
        rw [overwrite_length _ _ _ hfa]
        omega)]
      simp only
      rw [overwrite_adjacent _ _ _ _ hfa]
      have e : target.drop (p + ((target.drop p).take 4096).length)
          = (target.drop p).drop 4096 := by
        rw [← List.drop_drop, drop_take_length]
      rw [e, List.take_append_drop]
      simp only [FILE.mk.injEq, true_and]
      have := congrArg List.length (List.take_append_drop 4096 (target.drop p))
      rw [List.length_append] at this
      omega
    · rw [if_neg hg]
      have hnil : (target.drop p).take 4096 = [] := by
        apply List.length_eq_zero.mp
        omega
      have hd : target.drop p = [] := by
        cases hx : target.drop p with
        | nil => rfl
        | cons x xs => rw [hx] at hnil; simp at hnil
      rw [hd, overwrite_nil]
      simp

theorem require_fwrite_take (fp : FILE) (buf : List Nat) (len : Nat) (h : len ≤ buf.length) :
    require_fwrite fp buf len = require_fwrite fp (buf.take len) (buf.take len).length := by
  have hl : (buf.take len).length = len := by
    rw [List.length_take]; exact Nat.min_eq_left h
  rw [hl]
  unfold require_fwrite
  rw [List.take_take, Nat.min_self]

theorem strlen_le (buf : List Nat) : strlen buf ≤ buf.length := by
  unfold strlen
  exact (List.takeWhile_sublist _).length_le

theorem get_file_size_ok (fp : FILE) (h : fp.data.length ≤ 0xFFFFFFFF) :
    get_file_size_u32_or_die fp
      = .ok (fp.data.length, { data := fp.data, pos := fp.data.length }) := by
  have : ¬ fp.data.length > 0xFFFFFFFF := by omega
  simp only [get_file_size_u32_or_die, fseek_end, this, if_false]

theorem get_file_size_big (fp : FILE) (h : fp.data.length > 0xFFFFFFFF) :
    get_file_size_u32_or_die fp = .error .FileTooLarge := by
  simp only [get_file_size_u32_or_die, fseek_end, h, if_true]

/-- The text that `cmd_append_file` stores in the metadata chunk. -/
theorem metadata_text_length (target_file description : List Nat) (n : Nat) :
    ((format_metadata target_file description n).1.take
      (strlen (format_metadata target_file description n).1)).length
      = strlen (format_metadata target_file description n).1 := by
  rw [List.length_take]
  exact Nat.min_eq_left (strlen_le _)

/-- Shape of a successful `cmd_append_file`: the metadata chunk and the binary
chunk are stored one after the other at the recorded total size `H` and the
size field at offset 4 then receives `H` plus the sizes of both chunks. -/
theorem cmd_append_file_ok (archive target_file target description : List Nat)
    (h : (cmd_append_file archive target_file target description).error = none) :
    ∃ H M, header_total_size archive = some H ∧ H ≤ archive.length
      ∧ 12 ≤ archive.length
      ∧ M = (format_metadata target_file description target.length).1.take
              (strlen (format_metadata target_file description target.length).1)
      ∧ H + ((8 + M.length) + (8 + target.length)) ≤ 0xFFFFFFFF
      ∧ (cmd_append_file archive target_file target description).archive
          = overwrite
              (overwrite archive H
                ((be32 TYPE_TEXT ++ be32 M.length ++ M)
                  ++ (be32 TYPE_BINARY ++ be32 target.length ++ target))) 4
              (be32 (H + ((8 + M.length) + (8 + target.length)))) := by
  unfold cmd_append_file at h ⊢
  by_cases hbig : target.length > 0xFFFFFFFF
  · have hb := get_file_size_big (fopen_existing target) (by simpa [fopen_existing] using hbig)
    simp only [fopen_existing] at hb
    simp [fopen_existing, hb] at h
  · have hsz := get_file_size_ok (fopen_existing target) (by simp only [fopen_existing]; omega)
    simp only [fopen_existing] at hsz
    simp only [fopen_existing, hsz] at h ⊢
    cases hv : validate_and_open archive with
    | error e => simp [fopen_existing, hv] at h
    | ok o =>
      obtain ⟨_, h12, hmax, H, hH, hle, hfp, hcur⟩ := validate_and_open_ok archive o hv
      simp only [hv] at h ⊢
      rw [hfp, hcur] at h ⊢
      generalize hmeta : (format_metadata target_file description target.length).1 = metadata
        at h ⊢
      have hml := strlen_le metadata
      have hM : (metadata.take (strlen metadata)).length = strlen metadata := by
        rw [List.length_take]; exact Nat.min_eq_left hml
      rw [require_fwrite_take _ metadata _ hml] at h ⊢
      have hcw := chunk_write { data := archive, pos := H } TYPE_TEXT
        (metadata.take (strlen metadata)) hle
      rw [hM] at hcw
      rw [hM, hcw] at h ⊢
      by_cases hmb : strlen metadata > 0xFFFFFFF7
      · simp [hmb] at h
      · simp only [hmb, if_false] at h ⊢
        have hp1 : H + (8 + strlen metadata)
            ≤ (overwrite archive H (be32 TYPE_TEXT ++ be32 (strlen metadata)
                ++ metadata.take (strlen metadata))).length := by
          rw [overwrite_length _ _ _ hle]
          simp only [List.length_append, be32_length, hM]
          omega
        simp only [require_write_u32, fseek_set] at h ⊢
        rw [write_u32_be_eq (FILE.mk (overwrite archive H (be32 TYPE_TEXT
          ++ be32 (strlen metadata) ++ metadata.take (strlen metadata)))
          (H + (8 + strlen metadata))) TYPE_BINARY hp1] at h ⊢
        have hp2 : H + (8 + strlen metadata) + 4
            ≤ (overwrite (overwrite archive H (be32 TYPE_TEXT ++ be32 (strlen metadata)
                ++ metadata.take (strlen metadata))) (H + (8 + strlen metadata))
                (be32 TYPE_BINARY)).length := by
          rw [overwrite_length _ _ _ hp1, be32_length]
          omega
        rw [write_u32_be_eq _ _ hp2] at h ⊢
        have hp3 : H + (8 + strlen metadata) + 4 + 4
            ≤ (overwrite (overwrite (overwrite archive H (be32 TYPE_TEXT
                ++ be32 (strlen metadata) ++ metadata.take (strlen metadata)))
                (H + (8 + strlen metadata)) (be32 TYPE_BINARY))
                (H + (8 + strlen metadata) + 4) (be32 target.length)).length := by
          rw [overwrite_length _ _ _ hp2, be32_length]
          omega
        rw [append_file_copy_loop_eq _ target 0 _ (by omega) hp3] at h ⊢
        simp only [List.drop_zero] at h ⊢
        have hu1 : uadd 0 (uadd 8 (strlen metadata)) = 8 + strlen metadata := by
          rw [uadd_eq 8 _ (by omega), uadd_eq 0 _ (by omega)]; omega
        have hu2 : uadd 8 target.length = 8 + target.length := uadd_eq _ _ (by omega)
        rw [hu1, hu2] at h ⊢
        by_cases hov : target.length > 0xFFFFFFF7
            ∨ 8 + strlen metadata > usub 0xFFFFFFFF (8 + target.length)
        · simp [hov] at h
        · rw [if_neg hov] at h ⊢
          have hov1 : ¬ target.length > 0xFFFFFFF7 := fun x => hov (Or.inl x)
          have hs : usub 0xFFFFFFFF (8 + target.length) = 0xFFFFFFFF - (8 + target.length) :=
            usub_eq _ _ (by omega) (by norm_num)
          rw [hs] at hov
          have hov2 : ¬ 8 + strlen metadata > 0xFFFFFFFF - (8 + target.length) :=
            fun x => hov (Or.inr x)
          have hu3 : uadd (8 + strlen metadata) (8 + target.length)
              = (8 + strlen metadata) + (8 + target.length) := uadd_eq _ _ (by omega)
          rw [hu3] at h ⊢
          simp only [update_total_size] at h ⊢
          have hs2 : usub 0xFFFFFFFF ((8 + strlen metadata) + (8 + target.length))
              = 0xFFFFFFFF - ((8 + strlen metadata) + (8 + target.length)) :=
            usub_eq _ _ (by omega) (by norm_num)
          rw [hs2] at h ⊢
          by_cases hov3 : H > 0xFFFFFFFF - ((8 + strlen metadata) + (8 + target.length))
          · simp [hov3] at h
          · rw [if_neg hov3] at h ⊢
            refine ⟨H, metadata.take (strlen metadata), hH, hle, h12, rfl, by
              rw [hM]; omega, ?_⟩
            rw [hM, uadd_eq _ _ (by omega)]
            simp only [require_write_u32, fseek_set, fseek_end]
            have e1 := overwrite_adjacent
              (overwrite archive H (be32 TYPE_TEXT ++ be32 (strlen metadata)
                ++ metadata.take (strlen metadata)))
              (H + (8 + strlen metadata)) (be32 TYPE_BINARY) (be32 target.length) hp1
            rw [be32_length] at e1
            have e2 := overwrite_adjacent
              (overwrite archive H (be32 TYPE_TEXT ++ be32 (strlen metadata)
                ++ metadata.take (strlen metadata)))
              (H + (8 + strlen metadata)) (be32 TYPE_BINARY ++ be32 target.length) target hp1
            simp only [List.length_append, be32_length] at e2
            have e3 := overwrite_adjacent archive H
              (be32 TYPE_TEXT ++ be32 (strlen metadata) ++ metadata.take (strlen metadata))
              (be32 TYPE_BINARY ++ be32 target.length ++ target) hle
            simp only [List.length_append, be32_length, hM] at e3
            rw [show H + (4 + 4 + strlen metadata) = H + (8 + strlen metadata) by omega] at e3
            rw [e1, show H + (8 + strlen metadata) + 4 + 4
              = H + (8 + strlen metadata) + (4 + 4) by omega, e2, e3]
            rw [write_u32_be_eq _ _ (by
              simp only
              rw [overwrite_length _ _ _ hle]
              omega)]

/-- The file an append leaves behind: its size field and its length. -/
theorem appended_size_and_length (archive : List Nat) (H : Nat) (chunk : List Nat) (new : Nat)
    (hle : H ≤ archive.length) (h12 : 12 ≤ archive.length) (hnew : new < 2 ^ 32) :
    header_total_size (overwrite (overwrite archive H chunk) 4 (be32 new)) = some new
    ∧ (overwrite (overwrite archive H chunk) 4 (be32 new)).length
        = max archive.length (H + chunk.length) := by
  have h4 : 4 ≤ (overwrite archive H chunk).length := by
    rw [overwrite_length _ _ _ hle]; omega
  constructor
  · have hd := overwrite_drop (overwrite archive H chunk) 4 (be32 new) h4
    have := read_u32_be_of_drop
      { data := overwrite (overwrite archive H chunk) 4 (be32 new), pos := 4 } new _ hnew hd
    simp only [header_total_size, this]
  · rw [overwrite_length _ _ _ h4, overwrite_length _ _ _ hle, be32_length]
    omega

theorem listed_chunks_chunk_lines (cs : List Chunk) : ∀ k,
    listed_chunks (chunk_lines k cs) = numbered k cs := by
  induction cs with
  | nil => intro k; rfl
  | cons c cs ih =>
    intro k
    simp only [chunk_lines, numbered, listed_chunks, chunk_body_line]
    split_ifs <;> simp only [listed_chunks, ih]

theorem numbered_append (xs : List Chunk) : ∀ (k : Nat) (c : Chunk),
    numbered k (xs ++ [c]) = numbered k xs ++ [(k + xs.length + 1, c.type, c.payload.length)] := by
  induction xs with
  | nil => intro k c; rfl
  | cons x xs ih =>
    intro k c
    show (k + 1, x.type, x.payload.length) :: numbered (k + 1) (xs ++ [c]) = _
    rw [ih (k + 1) c, show k + 1 + xs.length + 1 = k + (xs.length + 1) + 1 by omega]
    rfl

theorem header_total_size_encoded (H R : Nat) (body : List Nat) (hH : H < 2 ^ 32)
    (hR : R < 2 ^ 32) : header_total_size (encode_header H R ++ body) = some H := by
  simp only [header_total_size, (read_header H R body hH hR).2.1]

theorem healthy_archive_length (R : Nat) (cs : List Chunk) :
    (healthy_archive R cs).length = 12 + (encode_chunks cs).length := by
  simp only [healthy_archive, List.length_append, encode_header_length]

theorem overwrite_header_size (H R new : Nat) (body : List Nat) :
    overwrite (encode_header H R ++ body) 4 (be32 new) = encode_header new R ++ body := by
  have e : ∀ x, encode_header x R ++ body = be32 MAGIC_NUMBER ++ be32 x ++ (be32 R ++ body) := by
    intro x; rw [encode_header_eq]; simp
  rw [e H, e new]
  exact overwrite_inside (be32 MAGIC_NUMBER) (be32 H) (be32 R ++ body) (be32 new) rfl

/-- Appending to a healthy archive gives the healthy archive of the old chunks
followed by the new TEXT chunk. -/
theorem append_healthy (R : Nat) (cs : List Chunk) (t : List Nat) (hR : R < 2 ^ 32)
    (h : (cmd_append (healthy_archive R cs) t).error = none) :
    (cmd_append (healthy_archive R cs) t).archive
      = healthy_archive R (cs ++ [{ type := TYPE_TEXT, payload := t }])
    ∧ (healthy_archive R (cs ++ [{ type := TYPE_TEXT, payload := t }])).length ≤ 0xFFFFFFFF := by
  obtain ⟨H, hH, hle, h12, hmax, heq, hA⟩ := cmd_append_ok _ t h
  have hlen := healthy_archive_length R cs
  have hH2 : header_total_size (healthy_archive R cs) = some (12 + (encode_chunks cs).length) :=
    header_total_size_encoded _ R _ (by omega) hR
  rw [hH2] at hH
  injection hH with hH
  subst hH
  have hnew : (encode_chunks (cs ++ [{ type := TYPE_TEXT, payload := t }])).length
      = (encode_chunks cs).length + (8 + t.length) := by
    simp only [encode_chunks_append, encode_chunks, encode_chunk, List.length_append,
      be32_length, List.length_nil]
    omega
  constructor
  · rw [heq, ← hlen, overwrite_eof]
    simp only [healthy_archive, List.append_assoc]
    rw [overwrite_header_size, hnew, encode_chunks_append]
    simp only [encode_chunks, encode_chunk, List.append_assoc, List.append_nil,
      List.length_append, encode_header_length]
    congr 2
    omega
  · rw [healthy_archive_length, hnew]
    omega

/-! ## Extraction -/

theorem extract_copy_loop_eq : ∀ (fuel : Nat) (fp_in fp_out : FILE) (payload rest : List Nat),
    payload.length ≤ fuel → payload.length < 2 ^ 64 →
    fp_in.data.drop fp_in.pos = payload ++ rest → fp_out.pos = fp_out.data.length →
    (extract_copy_loop fuel fp_in fp_out payload.length).2.1.data = fp_out.data ++ payload
    ∧ (extract_copy_loop fuel fp_in fp_out payload.length).2.2 = true
  | 0, fp_in, fp_out, payload, rest, h, _, _, _ => by
    have : payload = [] := List.length_eq_zero.mp (by omega)
    subst this
    simp [extract_copy_loop]
  | fuel + 1, fp_in, fp_out, payload, rest, h, h64, hd, ho => by
    unfold extract_copy_loop
    by_cases h0 : payload.length > 0
    · rw [if_pos h0]
      have hto : (if payload.length > 4096 then 4096 else payload.length)
          = (payload.take 4096).length := by
        rw [List.length_take]
        split_ifs <;> omega
      rw [hto]
      have hsplit : fp_in.data.drop fp_in.pos
          = payload.take 4096 ++ (payload.drop 4096 ++ rest) := by
        rw [hd, ← List.append_assoc, List.take_append_drop]
      have hr := fread_payload fp_in (payload.take 4096) (payload.drop 4096 ++ rest) hsplit
      simp only [hr, ne_eq, not_true_eq_false, if_false]
      have hlt : (payload.take 4096).length ≤ payload.length := by
        rw [List.length_take]; omega
      have hpos : 0 < (payload.take 4096).length := by
        rw [List.length_take]; omega
      have hrem : usub payload.length (payload.take 4096).length = (payload.drop 4096).length := by
        rw [usub_eq _ _ hlt h64, List.length_take, List.length_drop]
        omega
      rw [hrem]
      have hnext : (FILE.mk fp_in.data (fp_in.pos + (payload.take 4096).length)).data.drop
          (FILE.mk fp_in.data (fp_in.pos + (payload.take 4096).length)).pos
          = payload.drop 4096 ++ rest := drop_add_of_drop_eq _ _ _ _ hsplit
      have hout : (fwrite fp_out (payload.take 4096)).pos
          = (fwrite fp_out (payload.take 4096)).data.length := by
        rw [fwrite_eof _ _ ho]
        simp
      have ih := extract_copy_loop_eq fuel
        (FILE.mk fp_in.data (fp_in.pos + (payload.take 4096).length))
        (fwrite fp_out (payload.take 4096)) (payload.drop 4096) rest
        (by rw [List.length_drop]; rw [List.length_take] at hpos; omega)
        (by rw [List.length_drop]; omega) hnext hout
      refine ⟨?_, ih.2⟩
      rw [ih.1, fwrite_data_eof _ _ ho, List.append_assoc, List.take_append_drop]
    · rw [if_neg h0]
      have : payload = [] := List.length_eq_zero.mp (by omega)
      subst this
      simp

theorem extract_loop_encoded (cs : List Chunk) : ∀ (fuel : Nat) (fp : FILE) (k target : Nat),
    (∀ c ∈ cs, c.fits) → fp.data.drop fp.pos = encode_chunks cs → cs.length < fuel →
    k < target →
    extract_loop fuel fp k target
      = match cs.get? (target - k - 1) with
        | some c => { output := some c.payload, error := none,
                      found := some (target, c.type, c.payload.length), warnings := [] }
        | none => { output := none, error := some .ChunkNotFound, found := none,
                    warnings := [] } := by
  induction cs with
  | nil =>
    intro fuel fp k target _ hd hf _
    obtain ⟨n, rfl⟩ : ∃ n, fuel = n + 1 := ⟨fuel - 1, by simp at hf; omega⟩
    obtain ⟨q, hq⟩ := read_u32_be_eof_eq fp (by simpa [encode_chunks] using hd)
    simp only [extract_loop, hq, List.get?_nil]
  | cons c cs ih =>
    intro fuel fp k target hfit hd hf hk
    obtain ⟨n, rfl⟩ : ∃ n, fuel = n + 1 := ⟨fuel - 1, by simp at hf; omega⟩
    have hc : c.fits := hfit c (List.mem_cons_self _ _)
    have hrest : ∀ c ∈ cs, c.fits := fun x hx => hfit x (List.mem_cons_of_mem _ hx)
    have hd1 : fp.data.drop fp.pos
        = be32 c.type ++ (be32 c.payload.length ++ (c.payload ++ encode_chunks cs)) := by
      rw [hd]; simp [encode_chunks, encode_chunk]
    have r1 := read_u32_be_of_drop fp c.type _ hc.1 hd1
    have hd2 : (FILE.mk fp.data (fp.pos + 4)).data.drop (FILE.mk fp.data (fp.pos + 4)).pos
        = be32 c.payload.length ++ (c.payload ++ encode_chunks cs) :=
      drop_add_of_drop_eq _ _ (be32 c.type) _ hd1
    have r2 := read_u32_be_of_drop _ c.payload.length _ hc.2 hd2
    have hd3 : (FILE.mk fp.data (fp.pos + 4 + 4)).data.drop (FILE.mk fp.data (fp.pos + 4 + 4)).pos
        = c.payload ++ encode_chunks cs :=
      drop_add_of_drop_eq _ _ (be32 c.payload.length) _ hd2
    have hd4 : fp.data.drop (fp.pos + 4 + 4 + c.payload.length) = encode_chunks cs :=
      drop_add_of_drop_eq _ _ c.payload _ hd3
    have hseek : seek_forward { data := fp.data, pos := fp.pos + 4 + 4 } c.payload.length
        = { data := fp.data, pos := fp.pos + 4 + 4 + c.payload.length } :=
      seek_forward_eq _ _ (by have := hc.2; omega)
    have hcopy := extract_copy_loop_eq c.payload.length (FILE.mk fp.data (fp.pos + 4 + 4))
      fopen_wb c.payload (encode_chunks cs) (Nat.le_refl _) (by have := hc.2; omega) hd3 rfl
    simp only [fopen_wb, List.nil_append] at hcopy
    simp only [extract_loop, r1, r2, fopen_wb]
    by_cases heq : k + 1 = target
    · have hidx : target - k - 1 = 0 := by omega
      rw [if_pos heq, hidx]
      simp only [hcopy.2, if_true, hcopy.1, List.get?_cons_zero]
    · have hidx : target - k - 1 = (target - (k + 1) - 1) + 1 := by omega
      rw [if_neg heq, hseek, hidx, List.get?_cons_succ]
      exact ih n _ (k + 1) target hrest hd4 (by simp at hf; omega) (by omega)

/-- The function `cmd_extract` on a well-formed archive, once the index string
has passed the check: the scan for the chunk numbered `i`. -/
theorem cmd_extract_encoded (H R : Nat) (cs : List Chunk) (s : List Nat) (i : Nat)
    (hH : H < 2 ^ 32) (hR : R < 2 ^ 32) (hfit : ∀ c ∈ cs, c.fits)
    (hs : strtol s = ((i : Int), s.length)) (hne : s ≠ []) (h1 : 1 ≤ i)
    (hmax : i ≤ 2147483647) :
    cmd_extract (encode_header H R ++ encode_chunks cs) s
      = match cs.get? (i - 1) with
        | some c => { output := some c.payload, error := none,
                      found := some (i, c.type, c.payload.length), warnings := [] }
        | none => { output := none, error := some .ChunkNotFound, found := none,
                    warnings := [] } := by
  obtain ⟨r0, r1, r2, hd⟩ := read_header H R (encode_chunks cs) hH hR
  have hl := extract_loop_encoded cs ((encode_header H R ++ encode_chunks cs).length + 1)
    { data := encode_header H R ++ encode_chunks cs, pos := 12 } 0 i hfit hd
    (by have := encode_chunks_length_ge cs
        simp only [List.length_append]; omega) (by omega)
  have hlen : s.length ≠ 0 := fun h => hne (List.length_eq_zero.mp h)
  have hguard : ¬ (s.length ≠ s.length ∨ s.length = 0 ∨ (i : Int) ≤ 0
      ∨ (i : Int) > 2147483647) := by
    omega
  simp only [cmd_extract, hs, hguard, if_false, r0, r1, r2, Int.toNat_ofNat]
  simpa using hl

/-! ## Opening an archive that starts with a header -/

/-- The function `validate_and_open` on a file of at least 12 bytes that starts
with the magic: the three outcomes of the size reconciliation. -/
theorem validate_and_open_encoded (H R : Nat) (body : List Nat) (hH : H < 2 ^ 32)
    (hR : R < 2 ^ 32) :
    validate_and_open (encode_header H R ++ body)
      = if 12 + body.length > 0xFFFFFFFF then .error .FileTooLarge
        else if H ≠ 12 + body.length then
          if 12 + body.length > H then
            .ok { fp := { data := encode_header H R ++ body, pos := H },
                  current_size := H,
                  warnings := (if R ≠ RESERVED then [Warning.ReservedNonZero R] else [])
                    ++ [Warning.SizeMismatch H (12 + body.length), Warning.FixingGarbage] }
          else .error .Truncated
        else
          .ok { fp := { data := encode_header H R ++ body, pos := 12 + body.length },
                current_size := 12 + body.length,
                warnings := if R ≠ RESERVED then [Warning.ReservedNonZero R] else [] } := by
  obtain ⟨r0, r1, r2, _⟩ := read_header H R body hH hR
  have hl : (encode_header H R ++ body).length = 12 + body.length := by
    simp only [List.length_append, encode_header_length]
  simp only [validate_and_open, r0, r1, r2, get_file_size_u32_or_die, fseek_end, fseek_set, hl]
  simp only [ne_eq, not_true_eq_false, if_false]
  by_cases hbig : 12 + body.length > 0xFFFFFFFF
  · simp only [hbig, if_true]
  · simp only [hbig, if_false]
    by_cases hne : H = 12 + body.length
    · subst hne
      simp only [not_true_eq_false, if_false]
      have hl2 : (encode_header (12 + body.length) R ++ body).length = 12 + body.length := by
        simp only [List.length_append, encode_header_length]
      rw [hl2]
    · simp only [hne, not_false_eq_true, if_true]

theorem drop_overwrite_after (d : List Nat) (p q : Nat) (buf : List Nat)
    (hp : p ≤ d.length) (hq : p + buf.length ≤ q) :
    (overwrite d p buf).drop q = d.drop q := by
  have hl : (d.take p ++ buf).length = p + buf.length := by
    simp only [List.length_append, List.length_take]; omega
  simp only [overwrite]
  rw [List.drop_append_eq_append_drop, List.drop_of_length_le (by omega), hl,
    List.nil_append, List.drop_drop]
  congr 1
  omega

/-! ## The index string -/

theorem isdigit_not_isspace (d : Nat) (h : isdigit d = true) : ¬ (isspace d = true) := by
  simp only [isdigit, Bool.and_eq_true, decide_eq_true_eq] at h
  simp only [isspace, Bool.or_eq_true, beq_iff_eq, Bool.and_eq_true, decide_eq_true_eq]
  omega

theorem strtol_unsigned (ws ds : List Nat) (hws : ∀ c ∈ ws, isspace c = true)
    (hds : ds ≠ []) (hdig : ∀ c ∈ ds, isdigit c = true) :
    strtol (ws ++ ds)
      = ((if digits_value ds > LONG_MAX then (LONG_MAX : Int) else (digits_value ds : Int)),
         ws.length + ds.length) := by
  obtain ⟨d, ds1, rfl⟩ := List.exists_cons_of_ne_nil hds
  have hd : isdigit d = true := hdig d (List.mem_cons_self _ _)
  have hsp : ¬ (isspace d = true) := isdigit_not_isspace d hd
  have hd2 : 48 ≤ d ∧ d ≤ 57 := by
    simpa only [isdigit, Bool.and_eq_true, decide_eq_true_eq] using hd
  have htw : (ws ++ d :: ds1).takeWhile isspace = ws := by
    rw [List.takeWhile_append_of_pos hws, List.takeWhile_cons_of_neg hsp, List.append_nil]
  have hdw : (ws ++ d :: ds1).dropWhile isspace = d :: ds1 := by
    rw [List.dropWhile_append_of_pos hws, List.dropWhile_cons_of_neg hsp]
  have h45 : (some d == some 45) = false := by
    simp only [beq_eq_false_iff_ne, ne_eq, Option.some.injEq]; omega
  have h43 : (some d == some 43) = false := by
    simp only [beq_eq_false_iff_ne, ne_eq, Option.some.injEq]; omega
  have htd : (d :: ds1).takeWhile isdigit = d :: ds1 := List.takeWhile_eq_self_iff.mpr hdig
  simp only [strtol, htw, hdw, List.head?_cons, h45, h43, Bool.or_self, Bool.false_eq_true,
    if_false, htd, List.length_cons, Nat.add_one_ne_zero, Nat.add_zero]

theorem strtol_plus (ws ds : List Nat) (hws : ∀ c ∈ ws, isspace c = true)
    (hds : ds ≠ []) (hdig : ∀ c ∈ ds, isdigit c = true) :
    strtol (ws ++ [43] ++ ds)
      = ((if digits_value ds > LONG_MAX then (LONG_MAX : Int) else (digits_value ds : Int)),
         ws.length + 1 + ds.length) := by
  have hsp : ¬ (isspace 43 = true) := by decide
  have htw : (ws ++ [43] ++ ds).takeWhile isspace = ws := by
    rw [List.append_assoc, List.takeWhile_append_of_pos hws]
    simp only [List.singleton_append, List.takeWhile_cons_of_neg hsp, List.append_nil]
  have hdw : (ws ++ [43] ++ ds).dropWhile isspace = 43 :: ds := by
    rw [List.append_assoc, List.dropWhile_append_of_pos hws]
    simp only [List.singleton_append, List.dropWhile_cons_of_neg hsp]
  have htd : ds.takeWhile isdigit = ds := List.takeWhile_eq_self_iff.mpr hdig
  have hl : ds.length ≠ 0 := fun h => hds (List.length_eq_zero.mp h)
  have h45 : (some 43 == some 45) = false := by decide
  have h43 : (some 43 == some 43) = true := by decide
  simp only [strtol, htw, hdw, List.head?_cons, h45, h43, Bool.false_or, if_true,
    List.drop_succ_cons, List.drop_zero, htd, hl, if_false, Bool.false_eq_true]

theorem takeWhile_of_length_eq (p : Nat → Bool) (l : List Nat)
    (h : (l.takeWhile p).length = l.length) : l.takeWhile p = l := by
  have hsplit := List.takeWhile_append_dropWhile p l
  have hl := congrArg List.length hsplit
  rw [List.length_append, h] at hl
  have hnil : l.dropWhile p = [] := List.length_eq_zero.mp (by omega)
  rw [hnil, List.append_nil] at hsplit
  exact hsplit

theorem positive_of_accepted (s : List Nat) (h1 : (strtol s).2 = s.length)
    (h2 : (strtol s).2 ≠ 0) (h3 : 0 < (strtol s).1) (h4 : (strtol s).1 ≤ 2147483647) :
    ∃ i, positive_index s i ∧ (strtol s).1 = (i : Int) := by
  have hsplit := List.takeWhile_append_dropWhile isspace s
  have hws : ∀ c ∈ s.takeWhile isspace, isspace c = true :=
    fun c hc => List.mem_takeWhile_imp hc
  have hlen : s.length = (s.takeWhile isspace).length + (s.dropWhile isspace).length := by
    rw [← List.length_append, hsplit]
  have hLM : LONG_MAX = 9223372036854775807 := by decide
  cases hrest : s.dropWhile isspace with
  | nil =>
    simp [strtol, hrest] at h2
  | cons c r =>
    rw [hrest] at hlen hsplit
    by_cases c45 : c = 45
    · subst c45
      exfalso
      have h45 : (some 45 == some 45) = true := by decide
      simp only [strtol, hrest, List.head?_cons, h45, Bool.true_or, if_true,
        List.drop_succ_cons, List.drop_zero] at h2 h3
      by_cases hd : (r.takeWhile isdigit).length = 0
      · simp [hd] at h2
      · simp only [hd, if_false] at h3
        split_ifs at h3 <;> omega
    · by_cases c43 : c = 43
      · subst c43
        have h45 : (some 43 == some 45) = false := by decide
        have h43 : (some 43 == some 43) = true := by decide
        simp only [strtol, hrest, List.head?_cons, h45, h43, Bool.false_or, if_true,
          List.drop_succ_cons, List.drop_zero, Bool.false_eq_true, if_false] at h1 h2 h3 h4 ⊢
        by_cases hd : (r.takeWhile isdigit).length = 0
        · simp [hd] at h2
        · simp only [hd, if_false] at h1 h3 h4 ⊢
          have hr : r.takeWhile isdigit = r :=
            takeWhile_of_length_eq _ _ (by simp only [List.length_cons] at hlen; omega)
          rw [hr] at h3 h4 hd ⊢
          have hv : ¬ digits_value r > LONG_MAX := by
            intro hgt
            rw [if_pos hgt, hLM] at h4
            omega
          rw [if_neg hv] at h3 h4 ⊢
          refine ⟨digits_value r, ⟨s.takeWhile isspace, [43], r, ?_, hws, Or.inr rfl, ?_,
            List.takeWhile_eq_self_iff.mp hr, rfl, by omega, by omega⟩, rfl⟩
          · rw [List.append_assoc]; exact hsplit.symm
          · intro hnil; rw [hnil] at hd; exact hd rfl
      · have h45 : (some c == some 45) = false := by
          simp only [beq_eq_false_iff_ne, ne_eq, Option.some.injEq]; exact c45
        have h43 : (some c == some 43) = false := by
          simp only [beq_eq_false_iff_ne, ne_eq, Option.some.injEq]; exact c43
        simp only [strtol, hrest, List.head?_cons, h45, h43, Bool.or_self,
          Bool.false_eq_true, if_false] at h1 h2 h3 h4 ⊢
        by_cases hd : ((c :: r).takeWhile isdigit).length = 0
        · simp [hd] at h2
        · simp only [hd, if_false] at h1 h3 h4 ⊢
          have hr : (c :: r).takeWhile isdigit = c :: r :=
            takeWhile_of_length_eq _ _ (by omega)
          rw [hr] at h3 h4 ⊢
          have hv : ¬ digits_value (c :: r) > LONG_MAX := by
            intro hgt
            rw [if_pos hgt, hLM] at h4
            omega
          rw [if_neg hv] at h3 h4 ⊢
          refine ⟨digits_value (c :: r), ⟨s.takeWhile isspace, [], c :: r, ?_, hws, Or.inl rfl,
            List.cons_ne_nil _ _, List.takeWhile_eq_self_iff.mp hr, rfl, by omega, by omega⟩,
            rfl⟩
          rw [List.append_nil]; exact hsplit.symm

theorem strtol_positive (s : List Nat) (i : Nat) (h : positive_index s i) :
    strtol s = ((i : Int), s.length) ∧ s ≠ [] := by
  obtain ⟨ws, sign, ds, rfl, hws, hsign, hds, hdig, hv, h1, hmax⟩ := h
  have hLM : LONG_MAX = 9223372036854775807 := by decide
  have hnot : ¬ digits_value ds > LONG_MAX := by rw [hLM, hv]; omega
  have hne : ds.length ≠ 0 := fun h => hds (List.length_eq_zero.mp h)
  rcases hsign with rfl | rfl
  · rw [List.append_nil, strtol_unsigned ws ds hws hds hdig, if_neg hnot, hv]
    refine ⟨by rw [List.length_append], ?_⟩
    intro hnil
    have := congrArg List.length hnil
    rw [List.length_append, List.length_nil] at this
    omega
  · rw [strtol_plus ws ds hws hds hdig, if_neg hnot, hv]
    refine ⟨by simp only [List.length_append, List.length_singleton], ?_⟩
    intro hnil
    have := congrArg List.length hnil
    simp only [List.length_append, List.length_nil] at this
    omega

theorem extract_loop_error : ∀ (fuel : Nat) (fp : FILE) (k target : Nat),
    (extract_loop fuel fp k target).error ≠ some .InvalidIndex
    ∧ (extract_loop fuel fp k target).error ≠ some .InvalidMagic
  | 0, _, _, _ => by simp [extract_loop]
  | fuel + 1, fp, k, target => by
    unfold extract_loop
    cases h1 : read_u32_be fp with
    | mk a q1 =>
      cases a with
      | none => simp
      | some ty =>
        simp only
        cases h2 : read_u32_be q1 with
        | mk b q2 =>
          cases b with
          | none => simp
          | some len =>
            simp only
            split_ifs
            · simp
            · simp
            · exact extract_loop_error fuel _ _ _

/-- The index check of `cmd_extract` in terms of the index string. -/
theorem index_guard_iff (s : List Nat) :
    ((strtol s).2 ≠ s.length ∨ (strtol s).2 = 0 ∨ (strtol s).1 ≤ 0
        ∨ (strtol s).1 > 2147483647)
      ↔ ¬ ∃ i, positive_index s i := by
  constructor
  · rintro hg ⟨i, hi⟩
    obtain ⟨i1, i2, i3, rfl, i4, i5, i6, i7, i8, i9, i10⟩ := id hi
    obtain ⟨hs, hne⟩ := strtol_positive _ i hi
    rw [hs] at hg
    simp only [ne_eq, not_true_eq_false, false_or] at hg
    rcases hg with hg | hg | hg
    · exact hne (List.length_eq_zero.mp hg)
    · omega
    · omega
  · intro hno
    by_contra hg
    simp only [not_or, ne_eq, not_not, not_le, not_lt, gt_iff_lt] at hg
    obtain ⟨g1, g2, g3, g4⟩ := hg
    obtain ⟨i, hi, _⟩ := positive_of_accepted s g1 g2 g3 g4
    exact hno ⟨i, hi⟩

theorem cmd_extract_rejected (archive s : List Nat) (h : ¬ ∃ i, positive_index s i) :
    cmd_extract archive s
      = { output := none, error := some .InvalidIndex, found := none, warnings := [] } := by
  have hg := (index_guard_iff s).mpr h
  simp only [cmd_extract, hg, if_true]

theorem cmd_extract_accepted (archive s : List Nat) (i : Nat) (h : positive_index s i) :
    cmd_extract archive s
      = match read_u32_be (fopen_existing archive) with
        | (none, _) =>
          { output := none, error := some .InvalidMagic, found := none, warnings := [] }
        | (some magic, fp_in) =>
          if magic ≠ MAGIC_NUMBER then
            { output := none, error := some .InvalidMagic, found := none, warnings := [] }
          else
            extract_loop (archive.length + 1) (read_u32_be (read_u32_be fp_in).2).2 0 i := by
  have hg : ¬ ((strtol s).2 ≠ s.length ∨ (strtol s).2 = 0 ∨ (strtol s).1 ≤ 0
        ∨ (strtol s).1 > 2147483647) := by
    rw [index_guard_iff]
    exact fun hno => hno ⟨i, h⟩
  have hs := (strtol_positive s i h).1
  simp only [cmd_extract, hg, if_false]
  rw [hs]
  simp only [Int.toNat_ofNat]

theorem header_magic_iff (f : List Nat) (hb : ∀ b ∈ f, b < 256) :
    header_magic f = some MAGIC_NUMBER ↔ ¬ bad_magic f := by
  match f, hb with
  | [], _ => simp [header_magic, bad_magic, read_u32_be, fread, fopen_existing]
  | [_], _ => simp [header_magic, bad_magic, read_u32_be, fread, fopen_existing]
  | [_, _], _ => simp [header_magic, bad_magic, read_u32_be, fread, fopen_existing]
  | [_, _, _], _ => simp [header_magic, bad_magic, read_u32_be, fread, fopen_existing]
  | b0 :: b1 :: b2 :: b3 :: rest, hb =>
    have h1 : b1 < 256 := hb b1 (by simp)
    have h2 : b2 < 256 := hb b2 (by simp)
    have h3 : b3 < 256 := hb b3 (by simp)
    have hd := decode_eq_be32_value b0 b1 b2 b3 h1 h2 h3
    have hr : header_magic (b0 :: b1 :: b2 :: b3 :: rest) = some (be32_value b0 b1 b2 b3) := by
      simp only [header_magic, read_u32_be, fread, fopen_existing, List.drop_zero,
        List.take_succ_cons, List.take_zero, hd]
    rw [hr]
    simp only [bad_magic, List.length_cons, MAGIC_NUMBER]
    constructor
    · intro h hbad
      rcases hbad with hbad | ⟨c0, c1, c2, c3, r, he, hne⟩
      · omega
      · simp only [List.cons.injEq] at he
        obtain ⟨rfl, rfl, rfl, rfl, _⟩ := he
        injection h with h
        exact hne h
    · intro h
      by_contra hne
      apply h
      right
      exact ⟨b0, b1, b2, b3, rest, rfl, fun he => hne (by rw [he])⟩

/-! ## The iteration bounds are never what stops a loop -/

theorem seek_forward_loop_frame : ∀ (fuel : Nat) (fp : FILE) (offset : Nat),
    (seek_forward_loop fuel fp offset).data = fp.data
    ∧ fp.pos ≤ (seek_forward_loop fuel fp offset).pos
  | 0, fp, _ => ⟨rfl, Nat.le_refl _⟩
  | fuel + 1, fp, offset => by
    unfold seek_forward_loop
    by_cases h0 : offset > 0
    · rw [if_pos h0]
      have ih := seek_forward_loop_frame fuel
        (fseek_cur fp (if offset > MAX_STEP then MAX_STEP else offset))
        (usub offset (if offset > MAX_STEP then MAX_STEP else offset))
      simp only [fseek_cur] at ih ⊢
      exact ⟨ih.1, by omega⟩
    · rw [if_neg h0]
      exact ⟨rfl, Nat.le_refl _⟩

theorem seek_forward_frame (fp : FILE) (offset : Nat) :
    (seek_forward fp offset).data = fp.data ∧ fp.pos ≤ (seek_forward fp offset).pos :=
  seek_forward_loop_frame offset fp offset

theorem fread_frame (fp : FILE) (n : Nat) :
    (fread fp n).2.data = fp.data ∧ fp.pos ≤ (fread fp n).2.pos := by
  simp only [fread]
  exact ⟨trivial, by omega⟩

/-- Any bound above the number of bytes left gives the same listing: the
bound passed by `cmd_list` is never what ends the loop. -/
theorem list_loop_fuel : ∀ (fuel fuel2 : Nat) (fp : FILE) (k : Nat),
    fp.data.length - fp.pos < fuel → fp.data.length - fp.pos < fuel2 →
    list_loop fuel fp k = list_loop fuel2 fp k
  | 0, _, _, _, h, _ => by omega
  | _ + 1, 0, _, _, _, h => by omega
  | fuel + 1, fuel2 + 1, fp, k, h, h2 => by
    unfold list_loop
    cases h1 : read_u32_be fp with
    | mk a q1 =>
      cases a with
      | none => rfl
      | some ty =>
        obtain ⟨hq1, hl1⟩ := read_u32_be_some _ _ _ h1
        subst hq1
        simp only
        cases hr2 : read_u32_be { data := fp.data, pos := fp.pos + 4 } with
        | mk b q2 =>
          cases b with
          | none => rfl
          | some len =>
            obtain ⟨hq2, hl2⟩ := read_u32_be_some _ _ _ hr2
            subst hq2
            simp only at hl2 ⊢
            have hs := seek_forward_frame { data := fp.data, pos := fp.pos + 4 + 4 } len
            have hf := fread_frame { data := fp.data, pos := fp.pos + 4 + 4 } len
            simp only at hs hf
            have ihs := list_loop_fuel fuel fuel2
              (seek_forward { data := fp.data, pos := fp.pos + 4 + 4 } len) (k + 1)
              (by rw [hs.1]; omega) (by rw [hs.1]; omega)
            have ihf := list_loop_fuel fuel fuel2
              (fread { data := fp.data, pos := fp.pos + 4 + 4 } len).2 (k + 1)
              (by rw [hf.1]; omega) (by rw [hf.1]; omega)
            rw [ihs, ihf]

/-- Any bound above the number of bytes left gives the same scan: the bound
passed by `cmd_extract` is never what ends the loop. -/
theorem extract_loop_fuel : ∀ (fuel fuel2 : Nat) (fp : FILE) (k target : Nat),
    fp.data.length - fp.pos < fuel → fp.data.length - fp.pos < fuel2 →
    extract_loop fuel fp k target = extract_loop fuel2 fp k target
  | 0, _, _, _, _, h, _ => by omega
  | _ + 1, 0, _, _, _, _, h => by omega
  | fuel + 1, fuel2 + 1, fp, k, target, h, h2 => by
    unfold extract_loop
    cases h1 : read_u32_be fp with
    | mk a q1 =>
      cases a with
      | none => rfl
      | some ty =>
        obtain ⟨hq1, hl1⟩ := read_u32_be_some _ _ _ h1
        subst hq1
        simp only
        cases hr2 : read_u32_be { data := fp.data, pos := fp.pos + 4 } with
        | mk b q2 =>
          cases b with
          | none => rfl
          | some len =>
            obtain ⟨hq2, hl2⟩ := read_u32_be_some _ _ _ hr2
            subst hq2
            simp only at hl2 ⊢
            have hs := seek_forward_frame { data := fp.data, pos := fp.pos + 4 + 4 } len
            simp only at hs
            have ihs := extract_loop_fuel fuel fuel2
              (seek_forward { data := fp.data, pos := fp.pos + 4 + 4 } len) (k + 1) target
              (by rw [hs.1]; omega) (by rw [hs.1]; omega)
            rw [ihs]

/-- Any bound of at least `bytes_remaining` gives the same copy: the bound
passed by `cmd_extract` is never what ends the copy loop. -/
theorem extract_copy_loop_fuel : ∀ (fuel fuel2 : Nat) (fp_in fp_out : FILE) (n : Nat),
    n ≤ fuel → n ≤ fuel2 → n < 2 ^ 64 →
    extract_copy_loop fuel fp_in fp_out n = extract_copy_loop fuel2 fp_in fp_out n
  | 0, 0, _, _, _, _, _, _ => rfl
  | 0, fuel2 + 1, _, _, n, h, _, _ => by
    have : n = 0 := by omega
    subst this
    simp [extract_copy_loop]
  | fuel + 1, 0, _, _, n, _, h, _ => by
    have : n = 0 := by omega
    subst this
    simp [extract_copy_loop]
  | fuel + 1, fuel2 + 1, fp_in, fp_out, n, h, h2, h64 => by
    unfold extract_copy_loop
    by_cases h0 : n > 0
    · rw [if_pos h0, if_pos h0]
      have hto : (if n > 4096 then 4096 else n) ≤ n := by split_ifs <;> omega
      have hpos : 0 < (if n > 4096 then 4096 else n) := by split_ifs <;> omega
      have hsub : usub n (if n > 4096 then 4096 else n)
          = n - (if n > 4096 then 4096 else n) := usub_eq _ _ hto h64
      simp only [hsub]
      rw [extract_copy_loop_fuel fuel fuel2 _ _ (n - (if n > 4096 then 4096 else n))
        (by omega) (by omega) (by omega)]
    · rw [if_neg h0, if_neg h0]

/-! ## The bounded seeks -/

theorem seek_forward_loop_steps : ∀ (fuel : Nat) (fp : FILE) (offset : Nat),
    seek_forward_loop fuel fp offset = (seek_forward_steps fuel offset).foldl fseek_cur fp
  | 0, _, _ => rfl
  | fuel + 1, fp, offset => by
    unfold seek_forward_loop seek_forward_steps
    by_cases h0 : offset > 0
    · rw [if_pos h0, if_pos h0]
      simp only [List.foldl_cons]
      exact seek_forward_loop_steps fuel _ _
    · rw [if_neg h0, if_neg h0]
      rfl

theorem seek_forward_steps_spec : ∀ (fuel offset : Nat), offset ≤ fuel → offset < 2 ^ 64 →
    (seek_forward_steps fuel offset).sum = offset
    ∧ ∀ s ∈ seek_forward_steps fuel offset, 0 < s ∧ s ≤ 0x70000000
  | 0, offset, h, _ => by
    have : offset = 0 := by omega
    subst this
    simp [seek_forward_steps]
  | fuel + 1, offset, h, h64 => by
    unfold seek_forward_steps
    by_cases h0 : offset > 0
    · rw [if_pos h0]
      simp only [MAX_STEP]
      by_cases hs : offset > 0x70000000
      · simp only [hs, if_true]
        have hsub : usub offset 0x70000000 = offset - 0x70000000 := usub_eq _ _ (by omega) h64
        rw [hsub]
        obtain ⟨i1, i2⟩ := seek_forward_steps_spec fuel (offset - 0x70000000) (by omega) (by omega)
        refine ⟨by rw [List.sum_cons, i1]; omega, ?_⟩
        intro s hsm
        rcases List.mem_cons.mp hsm with rfl | hsm
        · exact ⟨by norm_num, Nat.le_refl _⟩
        · exact i2 s hsm
      · simp only [hs, if_false]
        have hsub : usub offset offset = offset - offset := usub_eq _ _ (Nat.le_refl _) h64
        rw [hsub]
        obtain ⟨i1, i2⟩ := seek_forward_steps_spec fuel (offset - offset) (by omega) (by omega)
        refine ⟨by rw [List.sum_cons, i1]; omega, ?_⟩
        intro s hsm
        rcases List.mem_cons.mp hsm with rfl | hsm
        · exact ⟨h0, by omega⟩
        · exact i2 s hsm
    · rw [if_neg h0]
      have : offset = 0 := by omega
      subst this
      simp

theorem seek_forward_steps_length : ∀ (fuel offset k : Nat), offset ≤ k * 0x70000000 →
    offset < 2 ^ 64 → (seek_forward_steps fuel offset).length ≤ k
  | 0, _, _, _, _ => by simp [seek_forward_steps]
  | fuel + 1, offset, k, h, h64 => by
    unfold seek_forward_steps
    by_cases h0 : offset > 0
    · rw [if_pos h0]
      obtain ⟨j, rfl⟩ : ∃ j, k = j + 1 := ⟨k - 1, by
        rcases Nat.eq_zero_or_pos k with hk | hk
        · subst hk; omega
        · omega⟩
      simp only [MAX_STEP]
      by_cases hs : offset > 0x70000000
      · simp only [hs, if_true, List.length_cons]
        have hsub : usub offset 0x70000000 = offset - 0x70000000 := usub_eq _ _ (by omega) h64
        rw [hsub]
        have := seek_forward_steps_length fuel (offset - 0x70000000) j (by omega) (by omega)
        omega
      · simp only [hs, if_false, List.length_cons]
        have hsub : usub offset offset = offset - offset := usub_eq _ _ (Nat.le_refl _) h64
        rw [hsub]
        have := seek_forward_steps_length fuel (offset - offset) j (by omega) (by omega)
        omega
    · rw [if_neg h0]
      simp

/-! ## The bounded writer -/

theorem set_after_prefix (a : List Nat) (x : Nat) (b : List Nat) (v : Nat) :
    (a ++ x :: b).set a.length v = a ++ v :: b := by
  induction a with
  | nil => rfl
  | cons y a ih => simp [ih]

/-- The function `append_str` on a buffer of `cap` bytes with `u < cap`: the
part of `src` that fits is stored at `u` and a zero byte right after it. -/
theorem append_str_normal (dst src : List Nat) (cap u : Nat) (hlen : dst.length = cap)
    (hu : u ≤ cap - 1) (hcap : 0 < cap) (h64 : cap < 2 ^ 64) :
    append_str dst cap u src
      = ((if src.length > cap - 1 - u then -1 else 0),
         dst.take u ++ src.take (cap - 1 - u)
           ++ 0 :: dst.drop (u + (src.take (cap - 1 - u)).length + 1),
         u + (src.take (cap - 1 - u)).length) := by
  have hc0 : ¬ cap = 0 := by omega
  have hnu : ¬ u ≥ cap := by omega
  have ha : usub (usub cap 1) u = cap - 1 - u := by
    rw [usub_eq cap 1 (by omega) h64, usub_eq _ _ hu (by omega)]
  have key : ∀ piece : List Nat, u + piece.length ≤ cap - 1 →
      (memcpy_at dst u piece).set (u + piece.length) 0
        = dst.take u ++ piece ++ 0 :: dst.drop (u + piece.length + 1) := by
    intro piece hp
    obtain ⟨x, hd⟩ : ∃ x, dst.drop (u + piece.length) = x :: dst.drop (u + piece.length + 1) :=
      ⟨dst.get ⟨u + piece.length, by omega⟩, List.drop_eq_getElem_cons (by omega)⟩
    have hl : (dst.take u ++ piece).length = u + piece.length := by
      simp only [List.length_append, List.length_take]; omega
    have hset := set_after_prefix (dst.take u ++ piece) x (dst.drop (u + piece.length + 1)) 0
    rw [hl] at hset
    rw [memcpy_at, hd]
    exact hset
  have hpl : (src.take (cap - 1 - u)).length ≤ cap - 1 - u := by
    rw [List.length_take]; omega
  unfold append_str
  rw [if_neg hc0, if_neg hnu]
  simp only [ha]
  by_cases hgt : src.length > cap - 1 - u
  · rw [if_pos hgt, if_pos hgt]
    have hl2 : (src.take (cap - 1 - u)).length = cap - 1 - u := by
      rw [List.length_take]; omega
    have hk := key (src.take (cap - 1 - u)) (by omega)
    rw [hl2] at hk
    rw [uadd_eq u _ (by omega), hk, hl2]
  · rw [if_neg hgt, if_neg hgt]
    have ht : src.take src.length = src := List.take_length _
    have ht2 : src.take (cap - 1 - u) = src := List.take_of_length_le (by omega)
    rw [ht, ht2, uadd_eq u _ (by omega), key src (by omega)]

/-- A buffer that holds `content` followed by a zero byte. -/
theorem append_str_holds (content tail src : List Nat) (cap : Nat)
    (hlen : (content ++ 0 :: tail).length = cap) (hcap : 0 < cap) (h64 : cap < 2 ^ 64) :
    ∃ tail2, append_str (content ++ 0 :: tail) cap content.length src
      = ((if content.length + src.length > cap - 1 then -1 else 0),
         (content ++ src).take (cap - 1) ++ 0 :: tail2,
         ((content ++ src).take (cap - 1)).length)
      ∧ ((content ++ src).take (cap - 1) ++ 0 :: tail2).length = cap := by
  have hu : content.length ≤ cap - 1 := by
    simp only [List.length_append, List.length_cons] at hlen; omega
  have hn := append_str_normal (content ++ 0 :: tail) src cap content.length hlen hu hcap h64
  have htk : (content ++ src).take (cap - 1) = content ++ src.take (cap - 1 - content.length) := by
    rw [List.take_append_eq_append_take, List.take_of_length_le hu]
  have hcond : (src.length > cap - 1 - content.length) ↔ (content.length + src.length > cap - 1) := by
    omega
  refine ⟨(content ++ 0 :: tail).drop
    (content.length + (src.take (cap - 1 - content.length)).length + 1), ?_, ?_⟩
  · rw [hn, htk]
    simp only [hcond, List.take_left, List.length_append]
  · rw [htk]
    simp only [List.length_append, List.length_cons, List.length_drop, List.length_take] at hlen ⊢
    omega

theorem take_take_append (n : Nat) (a b : List Nat) :
    ((a.take n) ++ b).take n = (a ++ b).take n := by
  by_cases h : n ≤ a.length
  · rw [List.take_append_of_le_length (by rw [List.length_take]; omega),
      List.take_append_of_le_length h, List.take_take, Nat.min_self]
  · rw [List.take_of_length_le (show a.length ≤ n by omega)]

/-- A sequence of calls of `append_str` on a buffer that holds `content`: the
buffer then holds the first `cap - 1` bytes of `content` followed by all the
sources, and some call returned non-zero exactly when they do not all fit. -/
theorem append_str_all_holds (srcs : List (List Nat)) : ∀ (content tail : List Nat) (cap : Nat),
    (content ++ 0 :: tail).length = cap → 0 < cap → cap < 2 ^ 64 →
    ∃ tail2, append_str_all (content ++ 0 :: tail) cap content.length srcs
      = ((content ++ srcs.flatten).take (cap - 1) ++ 0 :: tail2,
         ((content ++ srcs.flatten).take (cap - 1)).length,
         decide (content.length + srcs.flatten.length > cap - 1))
      ∧ ((content ++ srcs.flatten).take (cap - 1) ++ 0 :: tail2).length = cap := by
  induction srcs with
  | nil =>
    intro content tail cap hlen hcap h64
    have hu : content.length ≤ cap - 1 := by
      simp only [List.length_append, List.length_cons] at hlen; omega
    refine ⟨tail, ?_, ?_⟩
    · have hno : ¬ content.length > cap - 1 := by omega
      simp only [append_str_all, List.flatten_nil, List.append_nil, List.length_nil, Nat.add_zero,
        List.take_of_length_le hu, hno, decide_False]
    · simp only [List.flatten_nil, List.append_nil, List.take_of_length_le hu]
      exact hlen
  | cons src rest ih =>
    intro content tail cap hlen hcap h64
    obtain ⟨t1, h1, hl1⟩ := append_str_holds content tail src cap hlen hcap h64
    obtain ⟨t2, h2, hl2⟩ := ih ((content ++ src).take (cap - 1)) t1 cap hl1 hcap h64
    refine ⟨t2, ?_, ?_⟩
    · simp only [append_str_all, h1, h2, List.flatten_cons]
      rw [take_take_append, List.append_assoc]
      simp only [Prod.mk.injEq, true_and]
      have hlt : ((content ++ src).take (cap - 1)).length
          = min (cap - 1) (content.length + src.length) := by
        rw [List.length_take, List.length_append]
      by_cases hc : content.length + src.length > cap - 1
      · have : content.length + (src.length + rest.flatten.length) > cap - 1 := by omega
        simp only [hc, if_true, List.length_append, this, decide_True, Bool.or_eq_true]
        left
        decide
      · simp only [hc, if_false, List.length_append, hlt]
        rw [Nat.min_eq_right (by omega)]
        simp only [bne_self_eq_false, Bool.false_or, Nat.add_assoc]
    · simp only [List.flatten_cons]
      rw [take_take_append, List.append_assoc] at hl2
      exact hl2

theorem get?_after_prefix (a : List Nat) (x : Nat) (b : List Nat) :
    (a ++ x :: b).get? a.length = some x := by
  induction a with
  | nil => rfl
  | cons y a ih => simpa using ih

/-- A sequence of calls of `append_str` from `used = 0` on any buffer of `cap`
bytes. -/
theorem append_str_all_from_start (dst : List Nat) (cap : Nat) (srcs : List (List Nat))
    (hlen : dst.length = cap) (hcap : 0 < cap) (h64 : cap < 2 ^ 64) :
    (append_str_all dst cap 0 srcs).1.take (append_str_all dst cap 0 srcs).2.1
        = srcs.flatten.take (cap - 1)
    ∧ (append_str_all dst cap 0 srcs).2.1 = min srcs.flatten.length (cap - 1)
    ∧ (append_str_all dst cap 0 srcs).2.2 = decide (srcs.flatten.length > cap - 1) := by
  cases srcs with
  | nil => simp [append_str_all]
  | cons s rest =>
    have hn := append_str_normal dst s cap 0 hlen (by omega) hcap h64
    simp only [List.take_zero, List.nil_append, Nat.zero_add, Nat.sub_zero] at hn
    have hl1 : (s.take (cap - 1) ++ 0 :: dst.drop ((s.take (cap - 1)).length + 1)).length = cap := by
      simp only [List.length_append, List.length_cons, List.length_drop, List.length_take]
      omega
    obtain ⟨t2, h2, hl2⟩ := append_str_all_holds rest (s.take (cap - 1))
      (dst.drop ((s.take (cap - 1)).length + 1)) cap hl1 hcap h64
    rw [take_take_append] at h2
    simp only [append_str_all, hn, h2, List.flatten_cons]
    refine ⟨List.take_left' rfl, ?_, ?_⟩
    · rw [List.length_take]
      exact Nat.min_comm _ _
    · by_cases hc : s.length > cap - 1
      · have : (s ++ rest.flatten).length > cap - 1 := by rw [List.length_append]; omega
        simp only [hc, if_true, this, decide_True, Bool.or_eq_true]
        left
        decide
      · have ht : s.take (cap - 1) = s := List.take_of_length_le (by omega)
        simp only [hc, if_false, ht, bne_self_eq_false, Bool.false_or, List.length_append]

/-! ## The metadata text -/

theorem digitChar_toNat (d : Nat) (h : d < 10) : (Nat.digitChar d).toNat = 48 + d := by
  interval_cases d <;> rfl

theorem digits_value_foldl (ds : List Nat) : ∀ a : Nat,
    ds.foldl (fun acc c => acc * 10 + (c - 48)) a = a * 10 ^ ds.length + digits_value ds := by
  induction ds with
  | nil => intro a; simp [digits_value]
  | cons c ds ih =>
    intro a
    simp only [List.foldl_cons, digits_value, List.length_cons]
    rw [ih (a * 10 + (c - 48)), ih (0 * 10 + (c - 48))]
    ring

theorem toDigitsCore_spec : ∀ (fuel n : Nat) (ds : List Char), n < fuel →
    (∀ c ∈ ds, isdigit c.toNat = true) →
    (∀ c ∈ Nat.toDigitsCore 10 fuel n ds, isdigit c.toNat = true)
    ∧ digits_value ((Nat.toDigitsCore 10 fuel n ds).map Char.toNat)
        = n * 10 ^ ds.length + digits_value (ds.map Char.toNat)
  | 0, _, _, h, _ => by omega
  | fuel + 1, n, ds, h, hds => by
    have hd : (Nat.digitChar (n % 10)).toNat = 48 + n % 10 :=
      digitChar_toNat _ (Nat.mod_lt _ (by norm_num))
    have hdig : isdigit (Nat.digitChar (n % 10)).toNat = true := by
      rw [hd]
      have : n % 10 < 10 := Nat.mod_lt _ (by norm_num)
      simp only [isdigit, Bool.and_eq_true, decide_eq_true_eq]
      omega
    have hds2 : ∀ c ∈ Nat.digitChar (n % 10) :: ds, isdigit c.toNat = true := by
      intro c hc
      rcases List.mem_cons.mp hc with rfl | hc
      · exact hdig
      · exact hds c hc
    have hval : digits_value ((Nat.digitChar (n % 10) :: ds).map Char.toNat)
        = (n % 10) * 10 ^ ds.length + digits_value (ds.map Char.toNat) := by
      simp only [List.map_cons, digits_value, List.foldl_cons, hd]
      rw [digits_value_foldl, List.length_map]
      simp only [digits_value]
      congr 2
      omega
    unfold Nat.toDigitsCore
    simp only
    by_cases hz : n / 10 = 0
    · rw [if_pos hz]
      refine ⟨hds2, ?_⟩
      rw [hval]
      have : n % 10 = n := by omega
      rw [this]
    · rw [if_neg hz]
      obtain ⟨i1, i2⟩ := toDigitsCore_spec fuel (n / 10) (Nat.digitChar (n % 10) :: ds)
        (by omega) hds2
      refine ⟨i1, ?_⟩
      rw [i2, hval, List.length_cons]
      have hn : n = 10 * (n / 10) + n % 10 := (Nat.div_add_mod n 10).symm
      generalize n / 10 = q at hn ⊢
      generalize n % 10 = r at hn ⊢
      subst hn
      ring

/-- The text of `sprintf("%lu")` is the decimal rendering: digits only, with
the value of the number. -/
theorem sprintf_lu_spec (n : Nat) :
    (∀ c ∈ sprintf_lu n, isdigit c = true) ∧ digits_value (sprintf_lu n) = n := by
  obtain ⟨h1, h2⟩ := toDigitsCore_spec (n + 1) n [] (by omega) (by simp)
  constructor
  · intro c hc
    simp only [sprintf_lu, List.mem_map] at hc
    obtain ⟨ch, hch, rfl⟩ := hc
    exact h1 ch hch
  · simp only [sprintf_lu, Nat.toDigits]
    rw [h2]
    simp [digits_value]

theorem sprintf_lu_nonzero (n : Nat) : 0 ∉ sprintf_lu n := by
  intro h
  have := (sprintf_lu_spec n).1 0 h
  exact absurd this (by decide)

theorem strlen_terminated (c tail : List Nat) (h : 0 ∉ c) :
    strlen (c ++ 0 :: tail) = c.length ∧ (c ++ 0 :: tail).take c.length = c := by
  constructor
  · unfold strlen
    have hall : ∀ a ∈ c, (fun b : Nat => b != 0) a = true := by
      intro a ha
      simp only [bne_iff_ne, ne_eq]
      intro e
      exact h (e ▸ ha)
    rw [List.takeWhile_append_of_pos hall, List.takeWhile_cons_of_neg (by simp), List.append_nil]
  · exact List.take_left' rfl

theorem metadata_text_nonzero (f s : List Nat) (n : Nat) (hf : 0 ∉ f) (hs : 0 ∉ s) :
    0 ∉ metadata_text f s n := by
  have h1 : 0 ∉ lit "Filename: " := by decide
  have h2 : 0 ∉ lit "\nDescription: " := by decide
  have h3 : 0 ∉ lit "\nSize: " := by decide
  have h4 : 0 ∉ lit " bytes" := by decide
  have h5 := sprintf_lu_nonzero n
  simp only [metadata_text, List.mem_append, not_or]
  exact ⟨⟨⟨⟨⟨⟨h1, hf⟩, h2⟩, hs⟩, h3⟩, h5⟩, h4⟩

/-- The buffer that `cmd_append_file` formats: the first 1023 bytes of the
metadata text, a zero byte, and the flag set exactly when the text is longer
than 1023 bytes. -/
theorem format_metadata_spec (f s : List Nat) (n : Nat) :
    ∃ tail, (format_metadata f s n).1 = (metadata_text f s n).take 1023 ++ 0 :: tail
      ∧ ((metadata_text f s n).take 1023 ++ 0 :: tail).length = 1024
      ∧ (format_metadata f s n).2 = decide ((metadata_text f s n).length > 1023) := by
  have hbuf : (List.replicate 1024 0).set 0 0 = ([] : List Nat) ++ 0 :: List.replicate 1023 0 := by
    decide
  have hall : format_metadata f s n
      = ((append_str_all ((List.replicate 1024 0).set 0 0) 1024 0
            [lit "Filename: ", f, lit "\nDescription: ", s, lit "\nSize: ", sprintf_lu n,
             lit " bytes"]).1,
         (append_str_all ((List.replicate 1024 0).set 0 0) 1024 0
            [lit "Filename: ", f, lit "\nDescription: ", s, lit "\nSize: ", sprintf_lu n,
             lit " bytes"]).2.2) := by
    simp only [format_metadata, append_str_all, Bool.or_false, Bool.or_assoc]
  obtain ⟨tail, h1, h2⟩ := append_str_all_holds
    [lit "Filename: ", f, lit "\nDescription: ", s, lit "\nSize: ", sprintf_lu n, lit " bytes"]
    [] (List.replicate 1023 0) 1024 (by decide) (by decide) (by decide)
  have hj : [lit "Filename: ", f, lit "\nDescription: ", s, lit "\nSize: ", sprintf_lu n,
      lit " bytes"].flatten = metadata_text f s n := by
    simp only [List.flatten, metadata_text, List.append_nil, List.append_assoc]
  rw [hj] at h1 h2
  simp only [List.nil_append, List.length_nil, Nat.zero_add] at h1 h2
  refine ⟨tail, ?_, h2, ?_⟩
  · rw [hall, hbuf]
    simp only [List.nil_append, h1]
  · rw [hall, hbuf]
    simp only [List.nil_append, h1]

/-! ## The append commands, step by step -/

/-- The archive stream of `cmd_append_file` once both chunks are written,
before the size checks that follow the copy loop. -/
theorem append_file_written (archive metadata target : List Nat) (H : Nat)
    (hle : H ≤ archive.length) :
    (append_file_copy_loop (target.length + 1) { data := target, pos := 0 }
      (write_u32_be (write_u32_be
        (require_fwrite (write_u32_be (write_u32_be { data := archive, pos := H } TYPE_TEXT)
          (strlen metadata)) metadata (strlen metadata))
        TYPE_BINARY) target.length)).2
      = { data := overwrite archive H
            ((be32 TYPE_TEXT ++ be32 (strlen metadata) ++ metadata.take (strlen metadata))
              ++ (be32 TYPE_BINARY ++ be32 target.length ++ target)),
          pos := H + (8 + strlen metadata) + 4 + 4 + target.length } := by
  have hml := strlen_le metadata
  have hM : (metadata.take (strlen metadata)).length = strlen metadata := by
    rw [List.length_take]; exact Nat.min_eq_left hml
  rw [require_fwrite_take _ metadata _ hml]
  have hcw := chunk_write { data := archive, pos := H } TYPE_TEXT
    (metadata.take (strlen metadata)) hle
  simp only [require_write_u32] at hcw
  rw [hM] at hcw
  rw [hM, hcw]
  have hp1 : H + (8 + strlen metadata)
      ≤ (overwrite archive H (be32 TYPE_TEXT ++ be32 (strlen metadata)
          ++ metadata.take (strlen metadata))).length := by
    rw [overwrite_length _ _ _ hle]
    simp only [List.length_append, be32_length, hM]
    omega
  rw [write_u32_be_eq (FILE.mk (overwrite archive H (be32 TYPE_TEXT
    ++ be32 (strlen metadata) ++ metadata.take (strlen metadata)))
    (H + (8 + strlen metadata))) TYPE_BINARY hp1]
  have hp2 : H + (8 + strlen metadata) + 4
      ≤ (overwrite (overwrite archive H (be32 TYPE_TEXT ++ be32 (strlen metadata)
          ++ metadata.take (strlen metadata))) (H + (8 + strlen metadata))
          (be32 TYPE_BINARY)).length := by
    rw [overwrite_length _ _ _ hp1, be32_length]
    omega
  rw [write_u32_be_eq _ _ hp2]
  have hp3 : H + (8 + strlen metadata) + 4 + 4
      ≤ (overwrite (overwrite (overwrite archive H (be32 TYPE_TEXT
          ++ be32 (strlen metadata) ++ metadata.take (strlen metadata)))
          (H + (8 + strlen metadata)) (be32 TYPE_BINARY))
          (H + (8 + strlen metadata) + 4) (be32 target.length)).length := by
    rw [overwrite_length _ _ _ hp2, be32_length]
    omega
  rw [append_file_copy_loop_eq _ target 0 _ (by omega) hp3]
  simp only [List.drop_zero]
  have e1 := overwrite_adjacent
    (overwrite archive H (be32 TYPE_TEXT ++ be32 (strlen metadata)
      ++ metadata.take (strlen metadata)))
    (H + (8 + strlen metadata)) (be32 TYPE_BINARY) (be32 target.length) hp1
  rw [be32_length] at e1
  have e2 := overwrite_adjacent
    (overwrite archive H (be32 TYPE_TEXT ++ be32 (strlen metadata)
      ++ metadata.take (strlen metadata)))
    (H + (8 + strlen metadata)) (be32 TYPE_BINARY ++ be32 target.length) target hp1
  simp only [List.length_append, be32_length] at e2
  have e3 := overwrite_adjacent archive H
    (be32 TYPE_TEXT ++ be32 (strlen metadata) ++ metadata.take (strlen metadata))
    (be32 TYPE_BINARY ++ be32 target.length ++ target) hle
  simp only [List.length_append, be32_length, hM] at e3
  rw [show H + (4 + 4 + strlen metadata) = H + (8 + strlen metadata) by omega] at e3
  rw [e1, show H + (8 + strlen metadata) + 4 + 4
    = H + (8 + strlen metadata) + (4 + 4) by omega, e2, e3]

/-- The function `cmd_append_file` on an archive that `validate_and_open`
accepts, with a source file of at most `0xFFFFFFFF` bytes and a metadata
text of at most `0xFFFFFFF7` bytes: both chunks are written at the baseline
`H`, and only then the sizes are checked. -/
theorem cmd_append_file_eval (archive target_file target description : List Nat) (o : Opened)
    (hv : validate_and_open archive = .ok o) (ht : target.length ≤ 0xFFFFFFFF)
    (hm : strlen (format_metadata target_file description target.length).1 ≤ 0xFFFFFFF7) :
    cmd_append_file archive target_file target description
      = if target.length > 0xFFFFFFF7
            ∨ o.current_size + ((8 + strlen (format_metadata target_file description
                target.length).1) + (8 + target.length)) > 0xFFFFFFFF then
          { archive := overwrite archive o.current_size
              ((be32 TYPE_TEXT
                  ++ be32 (strlen (format_metadata target_file description target.length).1)
                  ++ (format_metadata target_file description target.length).1.take
                      (strlen (format_metadata target_file description target.length).1))
                ++ (be32 TYPE_BINARY ++ be32 target.length ++ target)),
            error := some .SizeOverflow,
            warnings := (if (format_metadata target_file description target.length).2
              then [Warning.MetadataTruncated] else []) ++ o.warnings }
        else
          { archive := overwrite (overwrite archive o.current_size
              ((be32 TYPE_TEXT
                  ++ be32 (strlen (format_metadata target_file description target.length).1)
                  ++ (format_metadata target_file description target.length).1.take
                      (strlen (format_metadata target_file description target.length).1))
                ++ (be32 TYPE_BINARY ++ be32 target.length ++ target))) 4
              (be32 (o.current_size + ((8 + strlen (format_metadata target_file description
                target.length).1) + (8 + target.length)))),
            error := none,
            warnings := (if (format_metadata target_file description target.length).2
              then [Warning.MetadataTruncated] else []) ++ o.warnings } := by
  obtain ⟨_, h12, hmax, H, hH, hle, hfp, hcur⟩ := validate_and_open_ok archive o hv
  have hsz := get_file_size_ok (fopen_existing target) (by simp only [fopen_existing]; omega)
  simp only [fopen_existing] at hsz
  unfold cmd_append_file
  simp only [fopen_existing, hsz, hv]
  rw [hfp, hcur]
  generalize (format_metadata target_file description target.length).1 = metadata at hm ⊢
  generalize (format_metadata target_file description target.length).2 = flag
  have hmb : ¬ strlen metadata > 0xFFFFFFF7 := by omega
  simp only [hmb, if_false, require_write_u32, fseek_set]
  rw [append_file_written archive metadata target H hle]
  have hu1 : uadd 0 (uadd 8 (strlen metadata)) = 8 + strlen metadata := by
    rw [uadd_eq 8 _ (by omega), uadd_eq 0 _ (by omega)]; omega
  have hu2 : uadd 8 target.length = 8 + target.length := uadd_eq _ _ (by omega)
  rw [hu1, hu2]
  by_cases hbig : target.length > 0xFFFFFFF7
  · have hc : target.length > 0xFFFFFFF7
        ∨ H + ((8 + strlen metadata) + (8 + target.length)) > 0xFFFFFFFF := Or.inl hbig
    rw [if_pos (Or.inl hbig), if_pos hc]
  · have hs : usub 0xFFFFFFFF (8 + target.length) = 0xFFFFFFFF - (8 + target.length) :=
      usub_eq _ _ (by omega) (by norm_num)
    rw [hs]
    by_cases hov2 : 8 + strlen metadata > 0xFFFFFFFF - (8 + target.length)
    · have hc : target.length > 0xFFFFFFF7
          ∨ H + ((8 + strlen metadata) + (8 + target.length)) > 0xFFFFFFFF := by omega
      rw [if_pos (Or.inr hov2), if_pos hc]
    · have hov : ¬ (target.length > 0xFFFFFFF7
          ∨ 8 + strlen metadata > 0xFFFFFFFF - (8 + target.length)) := by
        intro hx
        rcases hx with hx | hx
        · exact hbig hx
        · exact hov2 hx
      rw [if_neg hov]
      have hu3 : uadd (8 + strlen metadata) (8 + target.length)
          = (8 + strlen metadata) + (8 + target.length) := uadd_eq _ _ (by omega)
      rw [hu3]
      simp only [update_total_size]
      have hs2 : usub 0xFFFFFFFF ((8 + strlen metadata) + (8 + target.length))
          = 0xFFFFFFFF - ((8 + strlen metadata) + (8 + target.length)) :=
        usub_eq _ _ (by omega) (by norm_num)
      rw [hs2]
      by_cases hov3 : H > 0xFFFFFFFF - ((8 + strlen metadata) + (8 + target.length))
      · have hc : target.length > 0xFFFFFFF7
            ∨ H + ((8 + strlen metadata) + (8 + target.length)) > 0xFFFFFFFF := by omega
        rw [if_pos hov3, if_pos hc]
      · have hc : ¬ (target.length > 0xFFFFFFF7
            ∨ H + ((8 + strlen metadata) + (8 + target.length)) > 0xFFFFFFFF) := by omega
        have hu4 : uadd H ((8 + strlen metadata) + (8 + target.length))
            = H + ((8 + strlen metadata) + (8 + target.length)) := uadd_eq _ _ (by omega)
        rw [if_neg hov3, if_neg hc, hu4]
        simp only [require_write_u32, fseek_set, fseek_end]
        rw [write_u32_be_eq _ _ (by
          simp only
          rw [overwrite_length _ _ _ hle]
          omega)]

/-- The function `cmd_append` on an archive that `validate_and_open` accepts:
the text length is checked first, then the chunk is written at the baseline
`H`, then the new total size is checked. -/
theorem cmd_append_eval (archive t : List Nat) (o : Opened)
    (hv : validate_and_open archive = .ok o) :
    cmd_append archive t
      = if t.length > 0xFFFFFFF7 then
          { archive := archive, error := some .TextTooLarge, warnings := [] }
        else if o.current_size + (8 + t.length) > 0xFFFFFFFF then
          { archive := overwrite archive o.current_size (be32 TYPE_TEXT ++ be32 t.length ++ t),
            error := some .SizeOverflow, warnings := o.warnings }
        else
          { archive := overwrite (overwrite archive o.current_size
              (be32 TYPE_TEXT ++ be32 t.length ++ t)) 4 (be32 (o.current_size + (8 + t.length))),
            error := none, warnings := o.warnings } := by
  obtain ⟨_, h12, hmax, H, hH, hle, hfp, hcur⟩ := validate_and_open_ok archive o hv
  unfold cmd_append
  by_cases hbig : t.length > 0xFFFFFFF7
  · rw [if_pos hbig, if_pos hbig]
  · rw [if_neg hbig, if_neg hbig]
    have h8 : uadd 8 t.length = 8 + t.length := uadd_eq _ _ (by omega)
    simp only [hv, h8]
    rw [hfp, hcur, chunk_write { data := archive, pos := H } TYPE_TEXT t hle]
    simp only [update_total_size]
    have hs : usub 0xFFFFFFFF (8 + t.length) = 0xFFFFFFFF - (8 + t.length) :=
      usub_eq _ _ (by omega) (by norm_num)
    rw [hs]
    by_cases hov : H > 0xFFFFFFFF - (8 + t.length)
    · have hc : H + (8 + t.length) > 0xFFFFFFFF := by omega
      rw [if_pos hov, if_pos hc]
    · have hc : ¬ H + (8 + t.length) > 0xFFFFFFFF := by omega
      have hu4 : uadd H (8 + t.length) = H + (8 + t.length) := uadd_eq _ _ (by omega)
      rw [if_neg hov, if_neg hc, hu4]
      simp only [require_write_u32, fseek_set, fseek_end]
      rw [write_u32_be_eq _ _ (by
        simp only
        rw [overwrite_length _ _ _ hle]
        omega)]

theorem validate_and_open_healthy (R : Nat) (cs : List Chunk) (hR : R < 2 ^ 32)
    (hS : 12 + (encode_chunks cs).length ≤ 0xFFFFFFFF) :
    validate_and_open (healthy_archive R cs)
      = .ok { fp := { data := healthy_archive R cs, pos := 12 + (encode_chunks cs).length },
              current_size := 12 + (encode_chunks cs).length,
              warnings := if R ≠ RESERVED then [Warning.ReservedNonZero R] else [] } := by
  have hv := validate_and_open_encoded (12 + (encode_chunks cs).length) R (encode_chunks cs)
    (by omega) hR
  rw [if_neg (by omega), if_neg (by simp)] at hv
  exact hv

theorem healthy_archive_append (R : Nat) (cs : List Chunk) (extra : List Nat) :
    overwrite (healthy_archive R cs ++ extra) 4
        (be32 (12 + (encode_chunks cs).length + extra.length))
      = encode_header (12 + (encode_chunks cs).length + extra.length) R
          ++ (encode_chunks cs ++ extra) := by
  simp only [healthy_archive, List.append_assoc]
  rw [overwrite_header_size]

/-- The function `cmd_append_file` on a healthy archive: the metadata chunk
holds the first 1023 bytes of the metadata text, the binary chunk the source
file, and the warning tells whether the text was cut. -/
theorem append_file_healthy (R : Nat) (cs : List Chunk) (f d s : List Nat) (hR : R < 2 ^ 32)
    (hf : 0 ∉ f) (hs : 0 ∉ s)
    (hfit : 12 + (encode_chunks cs).length
      + ((8 + ((metadata_text f s d.length).take 1023).length) + (8 + d.length)) ≤ 0xFFFFFFFF) :
    cmd_append_file (healthy_archive R cs) f d s
      = { archive := healthy_archive R
            (cs ++ [{ type := TYPE_TEXT, payload := (metadata_text f s d.length).take 1023 },
                    { type := TYPE_BINARY, payload := d }]),
          error := none,
          warnings := (if (metadata_text f s d.length).length > 1023
              then [Warning.MetadataTruncated] else [])
            ++ (if R ≠ RESERVED then [Warning.ReservedNonZero R] else []) } := by
  obtain ⟨tail, hbuf, hbl, hflag⟩ := format_metadata_spec f s d.length
  have hnz : 0 ∉ (metadata_text f s d.length).take 1023 :=
    fun h => metadata_text_nonzero f s d.length hf hs (List.mem_of_mem_take h)
  obtain ⟨hsl, htk⟩ := strlen_terminated ((metadata_text f s d.length).take 1023) tail hnz
  rw [← hbuf] at hsl htk
  have hv := validate_and_open_healthy R cs hR (by omega)
  have hev := cmd_append_file_eval (healthy_archive R cs) f d s _ hv (by omega)
    (by rw [hsl]; omega)
  simp only [hsl] at hev
  rw [htk] at hev
  rw [hev, if_neg (by omega)]
  have hw : (if (format_metadata f s d.length).2 = true then [Warning.MetadataTruncated] else [])
      = (if (metadata_text f s d.length).length > 1023 then [Warning.MetadataTruncated]
          else []) := by
    rw [hflag]
    simp only [decide_eq_true_eq]
  rw [hw]
  have hlen := healthy_archive_length R cs
  have hchunks : encode_chunks
      (cs ++ [{ type := TYPE_TEXT, payload := (metadata_text f s d.length).take 1023 },
              { type := TYPE_BINARY, payload := d }])
      = encode_chunks cs
        ++ ((be32 TYPE_TEXT ++ be32 ((metadata_text f s d.length).take 1023).length
              ++ (metadata_text f s d.length).take 1023)
            ++ (be32 TYPE_BINARY ++ be32 d.length ++ d)) := by
    simp only [encode_chunks_append, encode_chunks, encode_chunk, List.append_nil,
      List.append_assoc]
  have hxl : ((be32 TYPE_TEXT ++ be32 ((metadata_text f s d.length).take 1023).length
              ++ (metadata_text f s d.length).take 1023)
            ++ (be32 TYPE_BINARY ++ be32 d.length ++ d)).length
      = (8 + ((metadata_text f s d.length).take 1023).length) + (8 + d.length) := by
    simp only [List.length_append, be32_length]
  have happ := healthy_archive_append R cs
    ((be32 TYPE_TEXT ++ be32 ((metadata_text f s d.length).take 1023).length
        ++ (metadata_text f s d.length).take 1023)
      ++ (be32 TYPE_BINARY ++ be32 d.length ++ d))
  rw [hxl] at happ
  have hov : overwrite (healthy_archive R cs) (12 + (encode_chunks cs).length)
      ((be32 TYPE_TEXT ++ be32 ((metadata_text f s d.length).take 1023).length
          ++ (metadata_text f s d.length).take 1023)
        ++ (be32 TYPE_BINARY ++ be32 d.length ++ d))
      = healthy_archive R cs
        ++ ((be32 TYPE_TEXT ++ be32 ((metadata_text f s d.length).take 1023).length
              ++ (metadata_text f s d.length).take 1023)
            ++ (be32 TYPE_BINARY ++ be32 d.length ++ d)) := by
    rw [← hlen, overwrite_eof]
  have harch : healthy_archive R
      (cs ++ [{ type := TYPE_TEXT, payload := (metadata_text f s d.length).take 1023 },
              { type := TYPE_BINARY, payload := d }])
      = encode_header (12 + (encode_chunks cs).length
          + ((8 + ((metadata_text f s d.length).take 1023).length) + (8 + d.length))) R
        ++ (encode_chunks cs
          ++ ((be32 TYPE_TEXT ++ be32 ((metadata_text f s d.length).take 1023).length
                ++ (metadata_text f s d.length).take 1023)
              ++ (be32 TYPE_BINARY ++ be32 d.length ++ d))) := by
    rw [healthy_archive, hchunks, List.length_append, hxl, ← Nat.add_assoc]
  rw [hov, happ, harch]

/-- The metadata text is longer than its description by at least the 37 bytes
of the fixed words. -/
theorem metadata_text_length_ge (f s : List Nat) (n : Nat) :
    s.length + 37 ≤ (metadata_text f s n).length := by
  have h1 : (lit "Filename: ").length = 10 := by decide
  have h2 : (lit "\nDescription: ").length = 14 := by decide
  have h3 : (lit "\nSize: ").length = 7 := by decide
  have h4 : (lit " bytes").length = 6 := by decide
  simp only [metadata_text, List.length_append, h1, h2, h3, h4]
  omega

/-- The function `cmd_append_file` on a healthy archive when its last guard
fires: both chunks are in the file by then, and the header is as before. -/
theorem append_file_late_guard (R : Nat) (cs : List Chunk) (f d s : List Nat) (hR : R < 2 ^ 32)
    (hf : 0 ∉ f) (hs : 0 ∉ s) (hS : 12 + (encode_chunks cs).length ≤ 0xFFFFFFFF)
    (hd : d.length ≤ 0xFFFFFFFF)
    (hov : d.length > 0xFFFFFFF7 ∨ 12 + (encode_chunks cs).length
      + ((8 + ((metadata_text f s d.length).take 1023).length) + (8 + d.length)) > 0xFFFFFFFF) :
    cmd_append_file (healthy_archive R cs) f d s
      = { archive := healthy_archive R cs
            ++ ((be32 TYPE_TEXT ++ be32 ((metadata_text f s d.length).take 1023).length
                  ++ (metadata_text f s d.length).take 1023)
                ++ (be32 TYPE_BINARY ++ be32 d.length ++ d)),
          error := some .SizeOverflow,
          warnings := (if (metadata_text f s d.length).length > 1023
              then [Warning.MetadataTruncated] else [])
            ++ (if R ≠ RESERVED then [Warning.ReservedNonZero R] else []) } := by
  obtain ⟨tail, hbuf, hbl, hflag⟩ := format_metadata_spec f s d.length
  have hnz : 0 ∉ (metadata_text f s d.length).take 1023 :=
    fun h => metadata_text_nonzero f s d.length hf hs (List.mem_of_mem_take h)
  obtain ⟨hsl, htk⟩ := strlen_terminated ((metadata_text f s d.length).take 1023) tail hnz
  rw [← hbuf] at hsl htk
  have htl : ((metadata_text f s d.length).take 1023).length ≤ 1023 := by
    rw [List.length_take]; omega
  have hv := validate_and_open_healthy R cs hR hS
  have hev := cmd_append_file_eval (healthy_archive R cs) f d s _ hv hd
    (by rw [hsl]; omega)
  simp only [hsl] at hev
  rw [htk] at hev
  rw [hev, if_pos hov]
  have hw : (if (format_metadata f s d.length).2 = true then [Warning.MetadataTruncated] else [])
      = (if (metadata_text f s d.length).length > 1023 then [Warning.MetadataTruncated]
          else []) := by
    rw [hflag]
    simp only [decide_eq_true_eq]
  rw [hw, ← healthy_archive_length R cs, overwrite_eof]

/-! ## What a write leaves alone -/

/-- The total-size field is read from the first eight bytes of the file. -/
theorem header_total_size_take (f g : List Nat) (h : f.take 8 = g.take 8) :
    header_total_size f = header_total_size g := by
  have hd : ∀ l : List Nat, (l.drop 4).take 4 = (l.take 8).drop 4 := by
    intro l
    rw [List.drop_take]
  unfold header_total_size read_u32_be fread
  simp only
  rw [hd f, hd g, h]
  split <;> rfl

/-- A write at offset `p` leaves the first `n <= p` bytes as they were. -/
theorem overwrite_take_le (d : List Nat) (p n : Nat) (buf : List Nat) (hp : p ≤ d.length)
    (hn : n ≤ p) : (overwrite d p buf).take n = d.take n := by
  have h := congrArg (List.take n) (overwrite_take d p buf hp)
  rw [List.take_take, List.take_take, Nat.min_eq_left hn] at h
  exact h

/-- A write at offset `p` leaves every byte before `p` as it was. -/
theorem overwrite_get?_before (d : List Nat) (p i : Nat) (buf : List Nat) (hp : p ≤ d.length)
    (hi : i < p) : (overwrite d p buf).get? i = d.get? i := by
  have h := congrArg (fun l => l.get? i) (overwrite_take_le d p (i + 1) buf hp hi)
  simp only [List.get?_eq_getElem?, List.getElem?_take] at h
  simpa [List.get?_eq_getElem?] using h

/-- A write of `buf` at offset `p` leaves every byte from `p + len(buf)` on as
it was. -/
theorem overwrite_get?_after (d : List Nat) (p i : Nat) (buf : List Nat) (hp : p ≤ d.length)
    (hi : p + buf.length ≤ i) : (overwrite d p buf).get? i = d.get? i := by
  have h := congrArg (fun l => l.get? 0) (drop_overwrite_after d p i buf hp hi)
  simpa [List.get?_eq_getElem?, List.getElem?_drop] using h

/-- A successful append keeps every byte before the baseline that is not in the
size field. -/
theorem append_frame (archive chunk : List Nat) (B new i : Nat) (hB : B ≤ archive.length)
    (h12 : 12 ≤ archive.length) (hi : i < B) (hout : ¬ (4 ≤ i ∧ i < 8)) :
    (overwrite (overwrite archive B chunk) 4 (be32 new)).get? i = archive.get? i := by
  have hl : 4 ≤ (overwrite archive B chunk).length := by
    rw [overwrite_length archive B chunk hB]
    omega
  by_cases h4 : i < 4
  · rw [overwrite_get?_before _ 4 i _ hl h4, overwrite_get?_before archive B i chunk hB hi]
  · rw [overwrite_get?_after _ 4 i _ hl (by rw [be32_length]; omega),
      overwrite_get?_before archive B i chunk hB hi]

/-- A successful append at a baseline of at least 12 keeps the magic, the
reserved field and the committed chunk bytes. -/
theorem append_frame_header (archive chunk : List Nat) (B new : Nat) (hB : B ≤ archive.length)
    (h12 : 12 ≤ B) :
    (overwrite (overwrite archive B chunk) 4 (be32 new)).take 4 = archive.take 4
    ∧ ((overwrite (overwrite archive B chunk) 4 (be32 new)).drop 8).take 4
        = (archive.drop 8).take 4
    ∧ ((overwrite (overwrite archive B chunk) 4 (be32 new)).drop 12).take (B - 12)
        = (archive.drop 12).take (B - 12) := by
  have hl : 4 ≤ (overwrite archive B chunk).length := by
    rw [overwrite_length archive B chunk hB]
    omega
  have h8 : (overwrite (overwrite archive B chunk) 4 (be32 new)).drop 8
      = (overwrite archive B chunk).drop 8 :=
    drop_overwrite_after _ 4 8 _ hl (by rw [be32_length])
  have h := congrArg (List.drop 8) (overwrite_take archive B chunk hB)
  rw [List.drop_take, List.drop_take, ← h8] at h
  refine ⟨?_, ?_, ?_⟩
  · rw [overwrite_take_le _ 4 4 _ hl (Nat.le_refl 4), overwrite_take_le archive B 4 chunk hB
      (by omega)]
  · have h4 := congrArg (List.take 4) h
    rw [List.take_take, List.take_take, Nat.min_eq_left (by omega)] at h4
    exact h4
  · have h4 := congrArg (List.drop 4) h
    rw [List.drop_take, List.drop_take, List.drop_drop, List.drop_drop] at h4
    have e : B - 8 - 4 = B - 12 := by omega
    rw [e] at h4
    exact h4

/-- The size field after a chunk is written at offset 7 of a 12-byte header
that records 7: its last byte is the first byte of the chunk. -/
theorem size_field_overlap (t : List Nat) :
    header_total_size (overwrite (encode_header 7 0) 7 (be32 TYPE_TEXT ++ be32 t.length ++ t))
      = some 0 := by
  have h : (overwrite (encode_header 7 0) 7 (be32 TYPE_TEXT ++ be32 t.length ++ t)).take 8
      = [0x5A, 0x5A, 0x4B, 0x31, 0, 0, 0, 0].take 8 := by
    simp [overwrite, encode_header, be32, TYPE_TEXT]
  rw [header_total_size_take _ _ h]
  decide

/-- The function `cmd_append` on the 12-byte header that records 7, with a
payload of `0xFFFFFFF7` bytes: it fails in `update_total_size`, after the
chunk is written at offset 7. -/
theorem append_at_overlap (t : List Nat) (hl : t.length = 0xFFFFFFF7) :
    (∃ o, validate_and_open (encode_header 7 0) = .ok o ∧ o.current_size = 7)
    ∧ (cmd_append (encode_header 7 0) t).error = some .SizeOverflow
    ∧ header_total_size (encode_header 7 0) = some 7
    ∧ header_total_size (cmd_append (encode_header 7 0) t).archive = some 0 := by
  have hv : validate_and_open (encode_header 7 0)
      = .ok { fp := { data := encode_header 7 0, pos := 7 }, current_size := 7,
              warnings := [Warning.SizeMismatch 7 12, Warning.FixingGarbage] } := by decide
  have hev := cmd_append_eval (encode_header 7 0) t _ hv
  have h1 : ¬ t.length > 0xFFFFFFF7 := by omega
  have h2 : 7 + (8 + t.length) > 0xFFFFFFFF := by omega
  rw [if_neg h1] at hev
  have hres : cmd_append (encode_header 7 0) t
      = { archive := overwrite (encode_header 7 0) 7 (be32 TYPE_TEXT ++ be32 t.length ++ t),
          error := some .SizeOverflow,
          warnings := [Warning.SizeMismatch 7 12, Warning.FixingGarbage] } :=
    hev.trans (if_pos h2)
  rw [hres]
  exact ⟨⟨_, hv, rfl⟩, rfl, by decide, size_field_overlap t⟩

/-! ## The listing of a sequence of chunks -/

/-- The ordinals of a numbered sequence are consecutive. -/
theorem numbered_ordinals (cs : List Chunk) : ∀ k,
    (numbered k cs).map Prod.fst = List.range' (k + 1) cs.length := by
  induction cs with
  | nil => intro k; rfl
  | cons c cs ih =>
    intro k
    simp only [numbered, List.map_cons, List.length_cons, List.range'_succ, ih (k + 1)]

theorem numbered_length (cs : List Chunk) : ∀ k, (numbered k cs).length = cs.length := by
  induction cs with
  | nil => intro k; rfl
  | cons c cs ih =>
    intro k
    simp only [numbered, List.length_cons, ih (k + 1)]

/-- The lines of a sequence of chunks are the lines of its parts. -/
theorem chunk_lines_append (xs ys : List Chunk) : ∀ k,
    chunk_lines k (xs ++ ys) = chunk_lines k xs ++ chunk_lines (k + xs.length) ys := by
  induction xs with
  | nil => intro k; rfl
  | cons x xs ih =>
    intro k
    have e : k + 1 + xs.length = k + (x :: xs).length := by
      rw [List.length_cons]; omega
    show Line.Chunk (k + 1) x.type x.payload.length :: chunk_body_line x :: Line.Separator
        :: chunk_lines (k + 1) (xs ++ ys)
      = (Line.Chunk (k + 1) x.type x.payload.length :: chunk_body_line x :: Line.Separator
        :: chunk_lines (k + 1) xs) ++ chunk_lines (k + (x :: xs).length) ys
    rw [ih (k + 1), e]
    rfl

/-- The line under the "Chunk #n" line of a chunk that is not a TEXT chunk is
one of the three skip labels. -/
theorem chunk_body_line_other (c : Chunk) (h : c.type ≠ TYPE_TEXT) :
    chunk_body_line c
      = if c.type = TYPE_BINARY then Line.BinarySkipped
        else if c.type = TYPE_PADDING then Line.PaddingSkipped
        else Line.UnknownSkipped := by
  unfold chunk_body_line
  rw [if_neg h]

/-- The line under the "Chunk #n" line of a TEXT chunk. -/
theorem chunk_body_line_text (c : Chunk) (h : c.type = TYPE_TEXT) :
    chunk_body_line c
      = if c.payload.length ≤ 0x10000000 then Line.Content (printf_s (c.payload ++ [0]))
        else Line.TextTooLarge c.payload.length := by
  unfold chunk_body_line
  rw [if_pos h]
  by_cases hl : c.payload.length ≤ 0x10000000
  · rw [if_pos hl, if_neg (by omega)]
  · rw [if_neg hl, if_pos (by omega)]

/-- The texts displayed in the lines of a sequence of chunks. -/
theorem listed_contents_chunk_lines (cs : List Chunk) : ∀ k,
    listed_contents (chunk_lines k cs) = displayed_texts cs := by
  induction cs with
  | nil => intro k; rfl
  | cons c cs ih =>
    intro k
    show listed_contents (Line.Chunk (k + 1) c.type c.payload.length :: chunk_body_line c
        :: Line.Separator :: chunk_lines (k + 1) cs) = displayed_texts (c :: cs)
    by_cases ht : c.type = TYPE_TEXT
    · rw [chunk_body_line_text c ht]
      by_cases hl : c.payload.length ≤ 0x10000000
      · have hd : displayed_texts (c :: cs) = printf_s (c.payload ++ [0]) :: displayed_texts cs :=
          if_pos ⟨ht, by omega⟩
        rw [if_pos hl, hd]
        simp only [listed_contents, ih (k + 1)]
      · have hd : displayed_texts (c :: cs) = displayed_texts cs :=
          if_neg (fun h => h.2 (by omega))
        rw [if_neg hl, hd]
        simp only [listed_contents, ih (k + 1)]
    · have hd : displayed_texts (c :: cs) = displayed_texts cs := if_neg (fun h => ht h.1)
      rw [chunk_body_line_other c ht, hd]
      split_ifs <;> simp only [listed_contents, ih (k + 1)]

/-- The listing of an archive whose only chunk is a TEXT chunk of exactly
`0x10000000` bytes without a zero byte: the text is displayed. -/
theorem list_at_ceiling (t : List Nat) (hl : t.length = 0x10000000) (h0 : 0 ∉ t) :
    cmd_list (encode_header 0x10000014 0 ++ encode_chunks [{ type := TYPE_TEXT, payload := t }])
      = .ok [Line.Header (some 0x10000014), Line.Separator,
             Line.Chunk 1 TYPE_TEXT t.length, Line.Content t, Line.Separator] := by
  have hfit : ∀ c ∈ [({ type := TYPE_TEXT, payload := t } : Chunk)], c.fits := by
    intro c hc
    rw [List.mem_singleton] at hc
    subst hc
    exact ⟨show TYPE_TEXT < 2 ^ 32 by decide, by show t.length < 2 ^ 32; omega⟩
  rw [cmd_list_encoded 0x10000014 0 _ (by norm_num) (by norm_num) hfit]
  have hb : chunk_body_line { type := TYPE_TEXT, payload := t } = Line.Content t := by
    rw [chunk_body_line_text _ rfl, if_pos (by show t.length ≤ 0x10000000; omega)]
    show Line.Content (printf_s (t ++ [0])) = Line.Content t
    rw [printf_s_terminated t h0]
  simp only [chunk_lines, hb]

/-! ## Streams with the same bytes ahead -/

theorem fread_pos (fp : FILE) (n : Nat) :
    (fread fp n).2.pos = fp.pos + min n (fp.data.length - fp.pos) := by
  simp only [fread, List.length_take, List.length_drop]

theorem read_u32_be_snd (fp : FILE) : (read_u32_be fp).2 = (fread fp 4).2 := by
  unfold read_u32_be
  simp only
  split <;> rfl

/-- What `fread` returns and leaves ahead depends on the bytes ahead only. -/
theorem fread_congr (fp fq : FILE) (n : Nat) (h : fp.data.drop fp.pos = fq.data.drop fq.pos) :
    (fread fp n).1 = (fread fq n).1
    ∧ (fread fp n).2.data.drop (fread fp n).2.pos
        = (fread fq n).2.data.drop (fread fq n).2.pos := by
  simp only [fread]
  rw [← List.drop_drop, ← List.drop_drop, h]
  exact ⟨rfl, rfl⟩

theorem read_u32_be_congr (fp fq : FILE) (h : fp.data.drop fp.pos = fq.data.drop fq.pos) :
    (read_u32_be fp).1 = (read_u32_be fq).1
    ∧ (read_u32_be fp).2.data.drop (read_u32_be fp).2.pos
        = (read_u32_be fq).2.data.drop (read_u32_be fq).2.pos := by
  have hc := fread_congr fp fq 4 h
  refine ⟨?_, by rw [read_u32_be_snd, read_u32_be_snd]; exact hc.2⟩
  unfold read_u32_be
  simp only
  rw [hc.1]
  split <;> rfl

/-- The loop of `seek_forward` moves every stream by the same distance. -/
theorem seek_forward_loop_shift : ∀ (fuel offset : Nat), ∃ delta, ∀ fp : FILE,
    seek_forward_loop fuel fp offset = { data := fp.data, pos := fp.pos + delta }
  | 0, _ => ⟨0, fun _ => rfl⟩
  | fuel + 1, offset => by
    by_cases h0 : offset > 0
    · obtain ⟨delta, hd⟩ := seek_forward_loop_shift fuel
        (usub offset (if offset > MAX_STEP then MAX_STEP else offset))
      refine ⟨(if offset > MAX_STEP then MAX_STEP else offset) + delta, fun fp => ?_⟩
      unfold seek_forward_loop
      rw [if_pos h0]
      simp only
      rw [hd]
      simp only [fseek_cur, FILE.mk.injEq, true_and]
      omega
    · refine ⟨0, fun fp => ?_⟩
      unfold seek_forward_loop
      rw [if_neg h0]
      rfl

theorem seek_forward_congr (fp fq : FILE) (offset : Nat)
    (h : fp.data.drop fp.pos = fq.data.drop fq.pos) :
    (seek_forward fp offset).data.drop (seek_forward fp offset).pos
      = (seek_forward fq offset).data.drop (seek_forward fq offset).pos := by
  obtain ⟨delta, hd⟩ := seek_forward_loop_shift offset offset
  unfold seek_forward
  rw [hd fp, hd fq]
  simp only
  rw [← List.drop_drop, ← List.drop_drop, h]

/-- The listing from a stream depends on the bytes ahead only. -/
theorem list_loop_congr : ∀ (fuel : Nat) (fp fq : FILE) (k : Nat),
    fp.data.drop fp.pos = fq.data.drop fq.pos → list_loop fuel fp k = list_loop fuel fq k
  | 0, _, _, _, _ => rfl
  | fuel + 1, fp, fq, k, h => by
    have hc1 := read_u32_be_congr fp fq h
    unfold list_loop
    cases h1 : read_u32_be fp with
    | mk a q1 =>
      cases h1q : read_u32_be fq with
      | mk a2 q1q =>
        rw [h1, h1q] at hc1
        obtain ⟨ha, hq1⟩ := hc1
        simp only at ha hq1
        subst ha
        cases a with
        | none => rfl
        | some ty =>
          simp only
          have hc2 := read_u32_be_congr q1 q1q hq1
          cases h2 : read_u32_be q1 with
          | mk b q2 =>
            cases h2q : read_u32_be q1q with
            | mk b2 q2q =>
              rw [h2, h2q] at hc2
              obtain ⟨hb, hq2⟩ := hc2
              simp only at hb hq2
              subst hb
              cases b with
              | none => rfl
              | some len =>
                simp only
                have hf := fread_congr q2 q2q len hq2
                have ihs := list_loop_congr fuel (seek_forward q2 len) (seek_forward q2q len)
                  (k + 1) (seek_forward_congr q2 q2q len hq2)
                have ihf := list_loop_congr fuel (fread q2 len).2 (fread q2q len).2 (k + 1) hf.2
                rw [ihs, ihf, hf.1]

/-- The bytes that the copy loop of `cmd_extract` writes, and whether it reads
every block in full, depend on the bytes ahead only. -/
theorem extract_copy_loop_congr : ∀ (fuel : Nat) (fp fq fo : FILE) (n : Nat),
    fp.data.drop fp.pos = fq.data.drop fq.pos →
    (extract_copy_loop fuel fp fo n).2 = (extract_copy_loop fuel fq fo n).2
  | 0, _, _, _, _, _ => rfl
  | fuel + 1, fp, fq, fo, n, h => by
    unfold extract_copy_loop
    by_cases h0 : n > 0
    · rw [if_pos h0, if_pos h0]
      simp only
      have hf := fread_congr fp fq (if n > 4096 then 4096 else n) h
      rw [hf.1]
      by_cases hs : (fread fq (if n > 4096 then 4096 else n)).1.length
          ≠ (if n > 4096 then 4096 else n)
      · rw [if_pos hs, if_pos hs]
      · rw [if_neg hs, if_neg hs]
        exact extract_copy_loop_congr fuel _ _ _ _ hf.2
    · rw [if_neg h0, if_neg h0]

/-- The outcome of the chunk scan of `cmd_extract` depends on the bytes ahead
only. -/
theorem extract_loop_congr : ∀ (fuel : Nat) (fp fq : FILE) (k target : Nat),
    fp.data.drop fp.pos = fq.data.drop fq.pos →
    extract_loop fuel fp k target = extract_loop fuel fq k target
  | 0, _, _, _, _, _ => rfl
  | fuel + 1, fp, fq, k, target, h => by
    have hc1 := read_u32_be_congr fp fq h
    unfold extract_loop
    cases h1 : read_u32_be fp with
    | mk a q1 =>
      cases h1q : read_u32_be fq with
      | mk a2 q1q =>
        rw [h1, h1q] at hc1
        obtain ⟨ha, hq1⟩ := hc1
        simp only at ha hq1
        subst ha
        cases a with
        | none => rfl
        | some ty =>
          simp only
          have hc2 := read_u32_be_congr q1 q1q hq1
          cases h2 : read_u32_be q1 with
          | mk b q2 =>
            cases h2q : read_u32_be q1q with
            | mk b2 q2q =>
              rw [h2, h2q] at hc2
              obtain ⟨hb, hq2⟩ := hc2
              simp only at hb hq2
              subst hb
              cases b with
              | none => rfl
              | some len =>
                simp only
                have hcp := extract_copy_loop_congr len q2 q2q fopen_wb len hq2
                have ihs := extract_loop_congr fuel (seek_forward q2 len) (seek_forward q2q len)
                  (k + 1) target (seek_forward_congr q2 q2q len hq2)
                rw [ihs, hcp]

/-! ## The header reads of the read-side commands -/

/-- The stream with which the chunk loops of `cmd_list` and `cmd_extract`
start: the archive after the three header reads. -/
theorem header_reads (archive : List Nat) (hm : header_magic archive = some MAGIC_NUMBER) :
    read_u32_be (fopen_existing archive) = (some MAGIC_NUMBER, { data := archive, pos := 4 })
    ∧ (read_u32_be (read_u32_be { data := archive, pos := 4 }).2).2.data = archive
    ∧ (12 ≤ archive.length →
        (read_u32_be (read_u32_be { data := archive, pos := 4 }).2).2
          = { data := archive, pos := 12 })
    ∧ (archive.length < 12 →
        (read_u32_be (read_u32_be { data := archive, pos := 4 }).2).2.pos = archive.length) := by
  have h1 : read_u32_be (fopen_existing archive)
      = (some MAGIC_NUMBER, (read_u32_be (fopen_existing archive)).2) := by
    rw [← hm]
    rfl
  obtain ⟨hq, hl⟩ := read_u32_be_some _ _ _ h1
  rw [hq] at h1
  simp only [fopen_existing] at hl
  have hd : (read_u32_be (read_u32_be { data := archive, pos := 4 }).2).2.data = archive := by
    rw [read_u32_be_data, read_u32_be_data]
  have hp1 : (read_u32_be { data := archive, pos := 4 }).2.pos
      = 4 + min 4 (archive.length - 4) := by
    rw [read_u32_be_snd, fread_pos]
  have hd1 : (read_u32_be { data := archive, pos := 4 }).2.data = archive := by
    rw [read_u32_be_data]
  have hp2 : (read_u32_be (read_u32_be { data := archive, pos := 4 }).2).2.pos
      = 4 + min 4 (archive.length - 4)
        + min 4 (archive.length - (4 + min 4 (archive.length - 4))) := by
    rw [read_u32_be_snd, fread_pos, hp1, hd1]
  refine ⟨h1, hd, fun h12 => ?_, fun h12 => ?_⟩
  · have e : (read_u32_be (read_u32_be { data := archive, pos := 4 }).2).2
        = { data := (read_u32_be (read_u32_be { data := archive, pos := 4 }).2).2.data,
            pos := (read_u32_be (read_u32_be { data := archive, pos := 4 }).2).2.pos } := rfl
    rw [e, hd, hp2]
    simp only [FILE.mk.injEq, true_and]
    omega
  · rw [hp2]
    omega

/-- The magic field is read from the first four bytes of the file. -/
theorem header_magic_take (f g : List Nat) (h : f.take 4 = g.take 4) :
    header_magic f = header_magic g := by
  unfold header_magic read_u32_be fread fopen_existing
  simp only [List.drop_zero]
  rw [h]
  split <;> rfl

/-- The function `cmd_list` on a file that starts with the magic. -/
theorem cmd_list_eval (archive : List Nat) (hm : header_magic archive = some MAGIC_NUMBER) :
    cmd_list archive
      = .ok (Line.Header (header_total_size archive) :: Line.Separator
          :: list_loop (archive.length + 1)
              (read_u32_be (read_u32_be { data := archive, pos := 4 }).2).2 0) := by
  unfold cmd_list
  simp only
  rw [(header_reads archive hm).1]
  simp only [ne_eq, not_true_eq_false, if_false]
  rfl

/-- The function `cmd_extract` with a positive index on a file that starts
with the magic. -/
theorem cmd_extract_eval (archive s : List Nat) (i : Nat)
    (hm : header_magic archive = some MAGIC_NUMBER) (hi : positive_index s i) :
    cmd_extract archive s
      = extract_loop (archive.length + 1)
          (read_u32_be (read_u32_be { data := archive, pos := 4 }).2).2 0 i := by
  rw [cmd_extract_accepted archive s i hi, (header_reads archive hm).1]
  simp only [ne_eq, not_true_eq_false, if_false]

/-! ## The scan of the format description -/

/-- The function `read_u32_be` on a stream of bytes returns the field at the
position. -/
theorem read_field (fp : FILE) (hb : ∀ b ∈ fp.data, b < 256) :
    (read_u32_be fp).1 = field_at fp.data fp.pos := by
  have hg : ∀ x ∈ (fp.data.drop fp.pos).take 4, x < 256 :=
    fun x hx => hb x (List.mem_of_mem_drop (List.mem_of_mem_take hx))
  unfold read_u32_be field_at fread
  simp only
  generalize (fp.data.drop fp.pos).take 4 = g at hg
  rcases g with _ | ⟨b0, _ | ⟨b1, _ | ⟨b2, _ | ⟨b3, _ | ⟨b4, rest⟩⟩⟩⟩⟩
  · rfl
  · rfl
  · rfl
  · rfl
  · simp only
    rw [decode_eq_be32_value b0 b1 b2 b3 (hg b1 (by simp)) (hg b2 (by simp)) (hg b3 (by simp))]
  · rfl

theorem field_at_lt (d : List Nat) (p v : Nat) (hb : ∀ b ∈ d, b < 256)
    (h : field_at d p = some v) : v < 2 ^ 32 ∧ p + 4 ≤ d.length := by
  have hg : ∀ x ∈ (d.drop p).take 4, x < 256 :=
    fun x hx => hb x (List.mem_of_mem_drop (List.mem_of_mem_take hx))
  have hl : ((d.drop p).take 4).length ≤ d.length - p := by
    rw [List.length_take, List.length_drop]
    omega
  unfold field_at at h
  generalize (d.drop p).take 4 = g at hg hl h
  rcases g with _ | ⟨b0, _ | ⟨b1, _ | ⟨b2, _ | ⟨b3, _ | ⟨b4, rest⟩⟩⟩⟩⟩
  · simp at h
  · simp at h
  · simp at h
  · simp at h
  · simp only [Option.some.injEq] at h
    subst h
    simp only [List.length_cons, List.length_nil] at hl
    exact ⟨be32_value_lt b0 b1 b2 b3 (hg b0 (by simp)) (hg b1 (by simp)) (hg b2 (by simp))
      (hg b3 (by simp)), by omega⟩
  · simp at h

theorem field_at_eof (d : List Nat) (p : Nat) (h : d.length < p + 4) : field_at d p = none := by
  have hl : ((d.drop p).take 4).length < 4 := by
    rw [List.length_take, List.length_drop]
    omega
  unfold field_at
  generalize (d.drop p).take 4 = g at hl
  rcases g with _ | ⟨b0, _ | ⟨b1, _ | ⟨b2, _ | ⟨b3, _ | ⟨b4, rest⟩⟩⟩⟩⟩
  · rfl
  · rfl
  · rfl
  · rfl
  · simp only [List.length_cons, List.length_nil] at hl
    omega
  · rfl

/-- The scan finds nothing where fewer than four bytes are left. -/
theorem scan_chunks_eof (fuel : Nat) (d : List Nat) (p k : Nat) (h : d.length < p + 4) :
    scan_chunks fuel d p k = [] := by
  cases fuel with
  | zero => rfl
  | succ fuel =>
    unfold scan_chunks
    rw [field_at_eof d p h]

/-- The chunks that the loop of `cmd_list` reports are those of the scan. -/
theorem list_scan : ∀ (fuel : Nat) (fp : FILE) (k : Nat), (∀ b ∈ fp.data, b < 256) →
    listed_chunks (list_loop fuel fp k) = scan_chunks fuel fp.data fp.pos k
  | 0, _, _, _ => rfl
  | fuel + 1, fp, k, hb => by
    have hf1 := read_field fp hb
    unfold list_loop scan_chunks
    cases h1 : read_u32_be fp with
    | mk a q1 =>
      rw [h1] at hf1
      simp only at hf1
      rw [← hf1]
      cases a with
      | none => rfl
      | some ty =>
        obtain ⟨hq1, hl1⟩ := read_u32_be_some _ _ _ h1
        subst hq1
        simp only
        have hf2 := read_field { data := fp.data, pos := fp.pos + 4 } hb
        cases h2 : read_u32_be { data := fp.data, pos := fp.pos + 4 } with
        | mk b q2 =>
          rw [h2] at hf2
          simp only at hf2
          rw [← hf2]
          cases b with
          | none => rfl
          | some len =>
            obtain ⟨hq2, hl2⟩ := read_u32_be_some _ _ _ h2
            subst hq2
            simp only at hl2 ⊢
            have hlen := (field_at_lt fp.data (fp.pos + 4) len hb hf2.symm).1
            have hseek : seek_forward { data := fp.data, pos := fp.pos + 4 + 4 } len
                = { data := fp.data, pos := fp.pos + 8 + len } := by
              rw [seek_forward_eq _ len (Nat.lt_of_lt_of_le hlen (by norm_num))]
            have ihs := list_scan fuel { data := fp.data, pos := fp.pos + 8 + len } (k + 1) hb
            simp only at ihs
            have ihf := list_scan fuel (fread { data := fp.data, pos := fp.pos + 4 + 4 } len).2
              (k + 1) (by rw [fread_data]; exact hb)
            rw [fread_data, fread_pos] at ihf
            simp only at ihf
            have hrl : (fread { data := fp.data, pos := fp.pos + 4 + 4 } len).1.length
                = min len (fp.data.length - (fp.pos + 4 + 4)) := by
              simp only [fread, List.length_take, List.length_drop]
            have hfull : (fread { data := fp.data, pos := fp.pos + 4 + 4 } len).1.length = len →
                listed_chunks (list_loop fuel
                  (fread { data := fp.data, pos := fp.pos + 4 + 4 } len).2 (k + 1))
                = scan_chunks fuel fp.data (fp.pos + 8 + len) (k + 1) := by
              intro hfl
              rw [ihf]
              have e : fp.pos + 4 + 4 + min len (fp.data.length - (fp.pos + 4 + 4))
                  = fp.pos + 8 + len := by omega
              rw [e]
            have hshort : (fread { data := fp.data, pos := fp.pos + 4 + 4 } len).1.length ≠ len →
                listed_chunks (list_loop fuel
                  (fread { data := fp.data, pos := fp.pos + 4 + 4 } len).2 (k + 1))
                = scan_chunks fuel fp.data (fp.pos + 8 + len) (k + 1) := by
              intro hfl
              rw [ihf, scan_chunks_eof fuel fp.data _ (k + 1) (by omega),
                scan_chunks_eof fuel fp.data _ (k + 1) (by omega)]
            rw [hseek]
            split_ifs with c1 c2 c3 c4 c5
            · simp only [listed_chunks, ihs]
            · simp only [listed_chunks, hfull c3]
            · simp only [listed_chunks, hshort c3]
            · simp only [listed_chunks, ihs]
            · simp only [listed_chunks, ihs]
            · simp only [listed_chunks, ihs]

/-- The chunk that the loop of `cmd_extract` announces is the entry of the scan
at the place of the target. -/
theorem extract_scan : ∀ (fuel : Nat) (fp : FILE) (k target : Nat), (∀ b ∈ fp.data, b < 256) →
    k < target →
    (extract_loop fuel fp k target).found
      = (scan_chunks fuel fp.data fp.pos k).get? (target - k - 1)
  | 0, _, _, _, _, _ => rfl
  | fuel + 1, fp, k, target, hb, hk => by
    have hf1 := read_field fp hb
    unfold extract_loop scan_chunks
    cases h1 : read_u32_be fp with
    | mk a q1 =>
      rw [h1] at hf1
      simp only at hf1
      rw [← hf1]
      cases a with
      | none => rfl
      | some ty =>
        obtain ⟨hq1, hl1⟩ := read_u32_be_some _ _ _ h1
        subst hq1
        simp only
        have hf2 := read_field { data := fp.data, pos := fp.pos + 4 } hb
        cases h2 : read_u32_be { data := fp.data, pos := fp.pos + 4 } with
        | mk b q2 =>
          rw [h2] at hf2
          simp only at hf2
          rw [← hf2]
          cases b with
          | none => rfl
          | some len =>
            obtain ⟨hq2, hl2⟩ := read_u32_be_some _ _ _ h2
            subst hq2
            simp only at hl2 ⊢
            have hlen := (field_at_lt fp.data (fp.pos + 4) len hb hf2.symm).1
            have hseek : seek_forward { data := fp.data, pos := fp.pos + 4 + 4 } len
                = { data := fp.data, pos := fp.pos + 8 + len } := by
              rw [seek_forward_eq _ len (Nat.lt_of_lt_of_le hlen (by norm_num))]
            by_cases ht : k + 1 = target
            · rw [if_pos ht]
              have e : target - k - 1 = 0 := by omega
              rw [e, ← ht]
              split_ifs <;> rfl
            · rw [if_neg ht, hseek]
              have ih := extract_scan fuel { data := fp.data, pos := fp.pos + 8 + len } (k + 1)
                target hb (by omega)
              simp only at ih
              have e : target - k - 1 = (target - (k + 1) - 1) + 1 := by omega
              rw [ih, e, List.get?_cons_succ]

/-- An entry of the scan stands at the place of its ordinal. -/
theorem mem_scan_iff : ∀ (fuel : Nat) (d : List Nat) (p k : Nat) (x : Nat × Nat × Nat),
    x ∈ scan_chunks fuel d p k
      ↔ k < x.1 ∧ (scan_chunks fuel d p k).get? (x.1 - k - 1) = some x
  | 0, _, _, _, _ => by simp [scan_chunks]
  | fuel + 1, d, p, k, x => by
    unfold scan_chunks
    cases field_at d p with
    | none => simp
    | some ty =>
      simp only
      cases field_at d (p + 4) with
      | none => simp
      | some len =>
        simp only
        have ih := mem_scan_iff fuel d (p + 8 + len) (k + 1) x
        constructor
        · intro hx
          rcases List.mem_cons.mp hx with h | h
          · subst h
            refine ⟨Nat.lt_succ_self k, ?_⟩
            have e : k + 1 - k - 1 = 0 := by omega
            simp only [e, List.get?_cons_zero]
          · obtain ⟨hlt, hget⟩ := ih.mp h
            have e : x.1 - k - 1 = (x.1 - (k + 1) - 1) + 1 := by omega
            exact ⟨by omega, by rw [e, List.get?_cons_succ]; exact hget⟩
        · rintro ⟨hlt, hget⟩
          by_cases h1 : x.1 = k + 1
          · have e : x.1 - k - 1 = 0 := by omega
            rw [e, List.get?_cons_zero] at hget
            exact List.mem_cons.mpr (Or.inl (Option.some.inj hget).symm)
          · have e : x.1 - k - 1 = (x.1 - (k + 1) - 1) + 1 := by omega
            rw [e, List.get?_cons_succ] at hget
            exact List.mem_cons.mpr (Or.inr (ih.mpr ⟨by omega, hget⟩))

/-- Every entry of the scan has eight bytes of header for itself and for each
entry before it. -/
theorem scan_chunks_bound : ∀ (fuel : Nat) (d : List Nat) (p k : Nat) (x : Nat × Nat × Nat),
    (∀ b ∈ d, b < 256) → x ∈ scan_chunks fuel d p k → k < x.1 ∧ p + 8 * (x.1 - k) ≤ d.length
  | 0, _, _, _, _, _, h => by simp [scan_chunks] at h
  | fuel + 1, d, p, k, x, hb, h => by
    unfold scan_chunks at h
    cases h1 : field_at d p with
    | none => simp [h1] at h
    | some ty =>
      cases h2 : field_at d (p + 4) with
      | none => simp [h1, h2] at h
      | some len =>
        rw [h1, h2] at h
        simp only at h
        have hl := (field_at_lt d (p + 4) len hb h2).2
        rcases List.mem_cons.mp h with hx | hx
        · subst hx
          simp only
          omega
        · obtain ⟨hlt, hle⟩ := scan_chunks_bound fuel d (p + 8 + len) (k + 1) x hb hx
          omega

/-! ## Claims -/

/-- C1: for every value `v` below `2^32`, `write_u32_be` emits exactly the four
bytes `v>>24 & 0xFF`, `v>>16 & 0xFF`, `v>>8 & 0xFF`, `v & 0xFF` (at the end of
the file they are appended to it), and `read_u32_be` at the place they were
written returns `v`; for every four bytes, writing the value read from them
reproduces them; `read_u32_be` returns `-1` exactly when fewer than four bytes
remain in the stream. -/
theorem C1_u32_be_roundtrip :
    (∀ (fp : FILE) (v : Nat), v < 2 ^ 32 →
      write_u32_be fp v
          = fwrite fp [(v >>> 24) &&& 0xFF, (v >>> 16) &&& 0xFF, (v >>> 8) &&& 0xFF, v &&& 0xFF]
        ∧ (fp.pos = fp.data.length →
            (write_u32_be fp v).data
              = fp.data ++ [(v >>> 24) &&& 0xFF, (v >>> 16) &&& 0xFF, (v >>> 8) &&& 0xFF,
                            v &&& 0xFF])
        ∧ read_u32_be (fseek_set (write_u32_be fp v) fp.pos) = (some v, write_u32_be fp v))
    ∧ (∀ (fp : FILE) (b0 b1 b2 b3 : Nat) (rest : List Nat),
        b0 < 256 → b1 < 256 → b2 < 256 → b3 < 256 →
        fp.data.drop fp.pos = [b0, b1, b2, b3] ++ rest →
        ∃ v, (read_u32_be fp).1 = some v ∧ v < 2 ^ 32 ∧
          ∀ out : FILE, write_u32_be out v = fwrite out [b0, b1, b2, b3])
    ∧ (∀ fp : FILE, (read_u32_be fp).1 = none ↔ fp.data.length - fp.pos < 4) := by
  refine ⟨?_, ?_, read_u32_be_none_iff⟩
  · intro fp v hv
    have hb : u32_be_buf v
        = [(v >>> 24) &&& 0xFF, (v >>> 16) &&& 0xFF, (v >>> 8) &&& 0xFF, v &&& 0xFF] := by
      have h : (0xFF : Nat) = 2 ^ 8 - 1 := by norm_num
      simp only [u32_be_buf, h, Nat.and_pow_two_sub_one_eq_mod]
      norm_num
    refine ⟨?_, ?_, ?_⟩
    · simp only [write_u32_be, hb]
    · intro hp
      simp only [write_u32_be]
      rw [fwrite_data_eof _ _ hp, hb]
    · have hdrop := fwrite_data_drop fp (u32_be_buf v)
      rw [u32_be_buf_eq_be32] at hdrop
      have := read_u32_be_of_drop (fseek_set (write_u32_be fp v) fp.pos) v _ hv
        (by simpa [fseek_set, write_u32_be, u32_be_buf_eq_be32] using hdrop)
      rw [this]
      simp [fseek_set, write_u32_be, fwrite, u32_be_buf_length]
  · intro fp b0 b1 b2 b3 rest h0 h1 h2 h3 hd
    refine ⟨be32_value b0 b1 b2 b3, ?_, be32_value_lt b0 b1 b2 b3 h0 h1 h2 h3, ?_⟩
    · have := read_u32_be_of_drop fp (be32_value b0 b1 b2 b3) rest
        (be32_value_lt b0 b1 b2 b3 h0 h1 h2 h3)
        (by rw [be32_of_be32_value b0 b1 b2 b3 h0 h1 h2 h3]; exact hd)
      rw [this]
    · intro out
      simp only [write_u32_be, u32_be_buf_eq_be32, be32_of_be32_value b0 b1 b2 b3 h0 h1 h2 h3]

/-- Witness for C1 at the value `0x5A5A4B31` written to an empty file and at
the bytes `1, 2, 3, 4`. -/
theorem C1_u32_be_roundtrip_witness :
    (write_u32_be fopen_wb 0x5A5A4B31).data = [0x5A, 0x5A, 0x4B, 0x31]
    ∧ read_u32_be (fseek_set (write_u32_be fopen_wb 0x5A5A4B31) 0)
        = (some 0x5A5A4B31, write_u32_be fopen_wb 0x5A5A4B31)
    ∧ (∃ v, (read_u32_be (fopen_existing [1, 2, 3, 4])).1 = some v ∧ v < 2 ^ 32 ∧
          ∀ out : FILE, write_u32_be out v = fwrite out [1, 2, 3, 4])
    ∧ (read_u32_be (fopen_existing [1, 2, 3])).1 = none :=
  ⟨((C1_u32_be_roundtrip.1 fopen_wb 0x5A5A4B31 (by decide)).2.1 rfl).trans (by decide),
   (C1_u32_be_roundtrip.1 fopen_wb 0x5A5A4B31 (by decide)).2.2,
   C1_u32_be_roundtrip.2.1 (fopen_existing [1, 2, 3, 4]) 1 2 3 4 [] (by decide) (by decide)
     (by decide) (by decide) rfl,
   (C1_u32_be_roundtrip.2.2 (fopen_existing [1, 2, 3])).2 (by decide)⟩

/-- C2: for every text `t` of at most `0xFFFFFFEB` bytes, `cmd_create` produces
the file made of big-endian `0x5A5A4B31`, big-endian `12 + 8 + len(t)`,
big-endian `0`, big-endian `1` (TEXT), big-endian `len(t)` and the bytes of
`t`; the magic bytes are `5A 5A 4B 31`, the file is `20 + len(t)` bytes long
and the size field read back from offset 4 equals that length. -/
theorem C2_create_layout (t : List Nat) (h : t.length ≤ 0xFFFFFFEB) :
    cmd_create t
        = .ok (be32 0x5A5A4B31 ++ be32 (12 + 8 + t.length) ++ be32 0 ++ be32 1
                ++ be32 t.length ++ t)
    ∧ be32 0x5A5A4B31 = [0x5A, 0x5A, 0x4B, 0x31]
    ∧ (∀ f, cmd_create t = .ok f →
        f.length = 20 + t.length
        ∧ (read_u32_be { data := f, pos := 4 }).1 = some f.length) := by
  have hc : cmd_create t
        = .ok (be32 0x5A5A4B31 ++ be32 (12 + 8 + t.length) ++ be32 0 ++ be32 1
                ++ be32 t.length ++ t) := by
    have hg : ¬ t.length > 0xFFFFFFEB := by omega
    have h1 : uadd 8 t.length = 8 + t.length := uadd_eq 8 _ (by omega)
    have h2 : uadd 12 (8 + t.length) = 12 + 8 + t.length := by
      rw [uadd_eq 12 _ (by omega)]; omega
    unfold cmd_create
    have h0 : fopen_wb = { data := [], pos := ([] : List Nat).length } := rfl
    simp only [require_write_u32, hg, if_false, h1, h2, h0, write_u32_be_at_end,
      require_fwrite_at_end]
    simp only [MAGIC_NUMBER, RESERVED, TYPE_TEXT, List.nil_append]
  refine ⟨hc, by decide, ?_⟩
  intro f hf
  rw [hc] at hf
  injection hf with hf
  subst hf
  refine ⟨by simp [be32_length]; omega, ?_⟩
  have hlen : (be32 0x5A5A4B31 ++ be32 (12 + 8 + t.length) ++ be32 0 ++ be32 1
                ++ be32 t.length ++ t).length = 12 + 8 + t.length := by
    simp [be32_length]; omega
  rw [hlen]
  have := read_u32_be_of_drop
    { data := be32 0x5A5A4B31 ++ be32 (12 + 8 + t.length) ++ be32 0 ++ be32 1
                ++ be32 t.length ++ t, pos := 4 } (12 + 8 + t.length)
    (be32 0 ++ be32 1 ++ be32 t.length ++ t) (by omega)
    (by simp only [List.append_assoc]
        rw [List.drop_append_of_le_length (by simp [be32_length])]
        simp [be32])
  rw [this]

/-- Witness for C2: `create` with the text "hello" gives a 25-byte file whose
size field is 25. -/
theorem C2_create_layout_witness :
    cmd_create [104, 101, 108, 108, 111]
      = .ok [0x5A, 0x5A, 0x4B, 0x31, 0, 0, 0, 25, 0, 0, 0, 0, 0, 0, 0, 1, 0, 0, 0, 5,
             104, 101, 108, 108, 111] :=
  (C2_create_layout [104, 101, 108, 108, 111] (by decide)).1.trans (by decide)

/-- C3, as amended: for every text `t` (a C string, so without a zero byte) of
at most `0x10000000` bytes, the display ceiling of the listing, `cmd_create`
succeeds and `cmd_list` on the file created reports exactly one chunk, with
ordinal 1, type TEXT and length `len(t)`, and displays exactly one content,
equal to `t`. -/
theorem C3_create_list_roundtrip (t : List Nat) (hlen : t.length ≤ 0x10000000)
    (hz : 0 ∉ t) :
    ∃ f lines, cmd_create t = .ok f ∧ cmd_list f = .ok lines
      ∧ listed_chunks lines = [(1, TYPE_TEXT, t.length)]
      ∧ listed_contents lines = [t] := by
  refine ⟨_, _, create_eq_encoded t (by omega),
    cmd_list_encoded _ 0 _ (by omega) (by norm_num) ?_, ?_, ?_⟩
  · intro c hc
    simp only [List.mem_singleton] at hc
    subst hc
    exact ⟨by norm_num, by simp only; omega⟩
  · simp [listed_chunks, chunk_lines, chunk_body_line, TYPE_TEXT]
    split_ifs <;> simp [listed_chunks]
  · have h1 : ¬ (t.length = 0xFFFFFFFF ∨ t.length > 0x10000000) := by omega
    simp only [chunk_lines, chunk_body_line, TYPE_TEXT, if_true, h1, if_false,
      listed_contents, printf_s_terminated t hz]

/-- Witness for C3: the text "hello". -/
theorem C3_create_list_roundtrip_witness :
    ∃ f lines, cmd_create [104, 101, 108, 108, 111] = .ok f ∧ cmd_list f = .ok lines
      ∧ listed_chunks lines = [(1, TYPE_TEXT, 5)]
      ∧ listed_contents lines = [[104, 101, 108, 108, 111]] :=
  C3_create_list_roundtrip [104, 101, 108, 108, 111] (by decide) (by decide)

/-- C3 as stated fails above the display ceiling: for the text made of
`0x10000001` letters "A", `cmd_create` succeeds and `cmd_list` reports the
chunk with its length but displays no content, only the warning that the
text chunk is too large. -/
theorem C3_counterexample :
    (∃ f lines, cmd_create (List.replicate 0x10000001 65) = .ok f ∧ cmd_list f = .ok lines
      ∧ listed_chunks lines = [(1, TYPE_TEXT, (List.replicate 0x10000001 65).length)]
      ∧ (List.replicate 0x10000001 65).length = 0x10000001
      ∧ listed_contents lines = []
      ∧ Line.TextTooLarge (List.replicate 0x10000001 65).length ∈ lines)
    ∧ ¬ (∃ f lines, cmd_create (List.replicate 0x10000001 65) = .ok f ∧ cmd_list f = .ok lines
      ∧ listed_contents lines = [List.replicate 0x10000001 65]) :=
  have hl : (List.replicate 0x10000001 65).length = 0x10000001 := List.length_replicate _ _
  let ⟨f, lines, h1, h2, h3, h4, h5⟩ :=
    list_above_ceiling (List.replicate 0x10000001 65) (by rw [hl]; norm_num)
      (by rw [hl]; norm_num)
  ⟨⟨f, lines, h1, h2, h3, hl, h4, h5⟩,
   fun ⟨g, ls, g1, g2, g3⟩ => by
     rw [h1] at g1
     injection g1 with g1
     subst g1
     rw [h2] at g2
     injection g2 with g2
     subst g2
     rw [h4] at g3
     exact List.noConfusion g3⟩

/-- C4, as amended: after a successful `cmd_append` or `cmd_append_file` on any
archive, with `H` the total size recorded before and `k` the bytes of chunk
header plus payload written (`8 + len(t)`, or both chunks of an append-file),
the recorded total size is `H + k`; the file is then
`max (previous length) (H + k)` bytes long, so it equals the recorded total
size when the archive was healthy, or repaired with at most `k` bytes of
trailing garbage. -/
theorem C4_size_invariant :
    (∀ archive t : List Nat, (cmd_append archive t).error = none →
      ∃ H, header_total_size archive = some H
        ∧ header_total_size (cmd_append archive t).archive = some (H + (8 + t.length))
        ∧ (cmd_append archive t).archive.length = max archive.length (H + (8 + t.length))
        ∧ (archive.length ≤ H + (8 + t.length) →
            header_total_size (cmd_append archive t).archive
              = some (cmd_append archive t).archive.length))
    ∧ (∀ archive target_file target description : List Nat,
        (cmd_append_file archive target_file target description).error = none →
        ∃ H M, header_total_size archive = some H
          ∧ M = (format_metadata target_file description target.length).1.take
                  (strlen (format_metadata target_file description target.length).1)
          ∧ header_total_size (cmd_append_file archive target_file target description).archive
              = some (H + ((8 + M.length) + (8 + target.length)))
          ∧ (cmd_append_file archive target_file target description).archive.length
              = max archive.length (H + ((8 + M.length) + (8 + target.length)))
          ∧ (archive.length ≤ H + ((8 + M.length) + (8 + target.length)) →
              header_total_size (cmd_append_file archive target_file target description).archive
                = some (cmd_append_file archive target_file target description).archive.length)) := by
  constructor
  · intro archive t h
    obtain ⟨H, hH, hle, h12, hmax, heq, _⟩ := cmd_append_ok archive t h
    obtain ⟨f1, f2⟩ := appended_size_and_length archive H
      (be32 TYPE_TEXT ++ be32 t.length ++ t) (H + (8 + t.length)) hle h12 (by omega)
    have hl : (be32 TYPE_TEXT ++ be32 t.length ++ t).length = 8 + t.length := by
      simp only [List.length_append, be32_length]
    rw [hl] at f2
    rw [heq]
    refine ⟨H, hH, f1, f2, ?_⟩
    intro hA
    rw [f1, f2, Nat.max_eq_right hA]
  · intro archive target_file target description h
    obtain ⟨H, M, hH, hle, h12, hM, hmax, heq⟩ :=
      cmd_append_file_ok archive target_file target description h
    obtain ⟨f1, f2⟩ := appended_size_and_length archive H
      ((be32 TYPE_TEXT ++ be32 M.length ++ M) ++ (be32 TYPE_BINARY ++ be32 target.length ++ target))
      (H + ((8 + M.length) + (8 + target.length))) hle h12 (by omega)
    have hl : ((be32 TYPE_TEXT ++ be32 M.length ++ M)
        ++ (be32 TYPE_BINARY ++ be32 target.length ++ target)).length
        = (8 + M.length) + (8 + target.length) := by
      simp only [List.length_append, be32_length]
    rw [hl] at f2
    rw [heq]
    refine ⟨H, M, hH, hM, f1, f2, ?_⟩
    intro hA
    rw [f1, f2, Nat.max_eq_right hA]

/-- Witness for C4: appending "world" to the archive created from "hello", and
appending the three-byte file `a` with description `b` to it. -/
theorem C4_size_invariant_witness :
    ((cmd_append
        [90, 90, 75, 49, 0, 0, 0, 25, 0, 0, 0, 0, 0, 0, 0, 1, 0, 0, 0, 5, 104, 101, 108, 108, 111]
        [119, 111, 114, 108, 100]).error = none
      ∧ ∃ H, header_total_size
            [90, 90, 75, 49, 0, 0, 0, 25, 0, 0, 0, 0, 0, 0, 0, 1, 0, 0, 0, 5,
             104, 101, 108, 108, 111] = some H
        ∧ header_total_size (cmd_append
            [90, 90, 75, 49, 0, 0, 0, 25, 0, 0, 0, 0, 0, 0, 0, 1, 0, 0, 0, 5,
             104, 101, 108, 108, 111] [119, 111, 114, 108, 100]).archive = some (H + (8 + 5)))
    ∧ ((cmd_append_file
        [90, 90, 75, 49, 0, 0, 0, 25, 0, 0, 0, 0, 0, 0, 0, 1, 0, 0, 0, 5, 104, 101, 108, 108, 111]
        [97] [1, 2, 3] [98]).error = none
      ∧ ∃ H, header_total_size
            [90, 90, 75, 49, 0, 0, 0, 25, 0, 0, 0, 0, 0, 0, 0, 1, 0, 0, 0, 5,
             104, 101, 108, 108, 111] = some H
        ∧ (cmd_append_file
            [90, 90, 75, 49, 0, 0, 0, 25, 0, 0, 0, 0, 0, 0, 0, 1, 0, 0, 0, 5,
             104, 101, 108, 108, 111] [97] [1, 2, 3] [98]).archive.length
          = max 25 (H + ((8 + ((format_metadata [97] [98] 3).1.take
                (strlen (format_metadata [97] [98] 3).1)).length) + (8 + 3)))) :=
  ⟨⟨by decide, (C4_size_invariant.1
      [90, 90, 75, 49, 0, 0, 0, 25, 0, 0, 0, 0, 0, 0, 0, 1, 0, 0, 0, 5, 104, 101, 108, 108, 111]
      [119, 111, 114, 108, 100] (by decide)).imp (fun _ hx => ⟨hx.1, hx.2.1⟩)⟩,
   ⟨by decide,
    let ⟨H, _, h1, h2, _, h4, _⟩ := C4_size_invariant.2
      [90, 90, 75, 49, 0, 0, 0, 25, 0, 0, 0, 0, 0, 0, 0, 1, 0, 0, 0, 5, 104, 101, 108, 108, 111]
      [97] [1, 2, 3] [98] (by decide)
    ⟨H, h1, h2 ▸ h4⟩⟩⟩

/-- C4 as stated fails on the repair path: the archive created from "hello"
followed by twenty garbage bytes records 25 and is 45 bytes long; after the
successful append of "x" it records `25 + 9 = 34` and is still 45 bytes long. -/
theorem C4_counterexample :
    (cmd_append
        ([90, 90, 75, 49, 0, 0, 0, 25, 0, 0, 0, 0, 0, 0, 0, 1, 0, 0, 0, 5, 104, 101, 108, 108, 111]
          ++ List.replicate 20 7) [120]).error = none
    ∧ header_total_size (cmd_append
        ([90, 90, 75, 49, 0, 0, 0, 25, 0, 0, 0, 0, 0, 0, 0, 1, 0, 0, 0, 5, 104, 101, 108, 108, 111]
          ++ List.replicate 20 7) [120]).archive = some 34
    ∧ (cmd_append
        ([90, 90, 75, 49, 0, 0, 0, 25, 0, 0, 0, 0, 0, 0, 0, 1, 0, 0, 0, 5, 104, 101, 108, 108, 111]
          ++ List.replicate 20 7) [120]).archive.length = 45 := by
  decide

/-- C5: for every healthy archive (valid magic, total size equal to the file
length, then the complete chunks `c1..cn`) and every text `t` for which
`cmd_append` succeeds, the archive afterwards is the healthy archive whose
chunks are `c1..cn`, with unchanged type, length and payload, followed by the
chunk (TEXT, `len(t)`, `t`), and the scan of `cmd_list` over it reports
exactly these `n + 1` chunks in order. -/
theorem C5_append_preserves_chunks (R : Nat) (cs : List Chunk) (t : List Nat)
    (hR : R < 2 ^ 32) (hfit : ∀ c ∈ cs, c.fits)
    (h : (cmd_append (healthy_archive R cs) t).error = none) :
    (cmd_append (healthy_archive R cs) t).archive
      = healthy_archive R (cs ++ [{ type := TYPE_TEXT, payload := t }])
    ∧ header_total_size (cmd_append (healthy_archive R cs) t).archive
        = some (cmd_append (healthy_archive R cs) t).archive.length
    ∧ ∃ lines, cmd_list (cmd_append (healthy_archive R cs) t).archive = .ok lines
        ∧ listed_chunks lines = numbered 0 cs ++ [(cs.length + 1, TYPE_TEXT, t.length)]
        ∧ lines = Line.Header (some (cmd_append (healthy_archive R cs) t).archive.length)
            :: Line.Separator :: chunk_lines 0 (cs ++ [{ type := TYPE_TEXT, payload := t }]) := by
  obtain ⟨heq, hmax⟩ := append_healthy R cs t hR h
  have hlen := healthy_archive_length R (cs ++ [{ type := TYPE_TEXT, payload := t }])
  have hfit2 : ∀ c ∈ cs ++ [{ type := TYPE_TEXT, payload := t }], c.fits := by
    intro c hc
    rcases List.mem_append.mp hc with hc | hc
    · exact hfit c hc
    · simp only [List.mem_singleton] at hc
      subst hc
      refine ⟨by simp only [TYPE_TEXT]; norm_num, ?_⟩
      simp only
      have : (encode_chunks (cs ++ [{ type := TYPE_TEXT, payload := t }])).length
          = (encode_chunks cs).length + (8 + t.length) := by
        simp only [encode_chunks_append, encode_chunks, encode_chunk, List.length_append,
          be32_length, List.length_nil]
        omega
      omega
  rw [heq]
  have hlist : cmd_list (healthy_archive R (cs ++ [{ type := TYPE_TEXT, payload := t }]))
      = .ok (Line.Header (some (12 + (encode_chunks
          (cs ++ [{ type := TYPE_TEXT, payload := t }])).length))
        :: Line.Separator :: chunk_lines 0 (cs ++ [{ type := TYPE_TEXT, payload := t }])) :=
    cmd_list_encoded _ R _ (by omega) hR hfit2
  refine ⟨rfl, ?_, ⟨_, hlist, ?_, ?_⟩⟩
  · rw [hlen]
    exact header_total_size_encoded _ R _ (by omega) hR
  · simp only [listed_chunks, listed_chunks_chunk_lines, numbered_append, Nat.zero_add]
  · rw [hlen]

/-- Witness for C5: `create` "hello" then `append` "world" gives a 38-byte file
that records 38 and lists the TEXT chunks "hello" and "world". -/
theorem C5_append_preserves_chunks_witness :
    cmd_create [104, 101, 108, 108, 111]
        = .ok (healthy_archive 0 [{ type := TYPE_TEXT, payload := [104, 101, 108, 108, 111] }])
    ∧ (cmd_append (healthy_archive 0 [{ type := TYPE_TEXT, payload := [104, 101, 108, 108, 111] }])
        [119, 111, 114, 108, 100]).archive.length = 38
    ∧ header_total_size
        (cmd_append (healthy_archive 0 [{ type := TYPE_TEXT, payload := [104, 101, 108, 108, 111] }])
          [119, 111, 114, 108, 100]).archive = some 38
    ∧ ∃ lines,
        cmd_list
          (cmd_append (healthy_archive 0 [{ type := TYPE_TEXT, payload := [104, 101, 108, 108, 111] }])
            [119, 111, 114, 108, 100]).archive = .ok lines
        ∧ listed_chunks lines = [(1, TYPE_TEXT, 5), (2, TYPE_TEXT, 5)]
        ∧ listed_contents lines = [[104, 101, 108, 108, 111], [119, 111, 114, 108, 100]] :=
  have hw := C5_append_preserves_chunks 0
    [{ type := TYPE_TEXT, payload := [104, 101, 108, 108, 111] }] [119, 111, 114, 108, 100]
    (by decide) (by decide) (by decide)
  ⟨by decide, by decide, hw.2.1.trans (by decide),
   let ⟨lines, h1, h2, h3⟩ := hw.2.2
   ⟨lines, h1, h2, by rw [h3]; decide⟩⟩

/-- C6, as amended: on an archive made of a header and the chunks `c1..cn`, for
an index string that `strtol` reads in full as the integer `i`:
if `1 <= i <= n` and `i <= 2147483647`, `cmd_extract` succeeds and the output
file is byte for byte the payload of `ci` (its `length` bytes); if
`n < i <= 2147483647` it fails with ChunkNotFound; if `i <= 0` or
`i > 2147483647` it fails with InvalidIndex; in the failing cases no output
file is created. -/
theorem C6_extract_fidelity (H R : Nat) (cs : List Chunk) (s : List Nat) (i : Int)
    (hH : H < 2 ^ 32) (hR : R < 2 ^ 32) (hfit : ∀ c ∈ cs, c.fits)
    (hs : strtol s = (i, s.length)) (hne : s ≠ []) :
    (1 ≤ i → i ≤ cs.length → i ≤ 2147483647 →
      ∃ c, cs.get? (i.toNat - 1) = some c
        ∧ cmd_extract (encode_header H R ++ encode_chunks cs) s
            = { output := some c.payload, error := none,
                found := some (i.toNat, c.type, c.payload.length), warnings := [] })
    ∧ ((cs.length : Int) < i → i ≤ 2147483647 →
        cmd_extract (encode_header H R ++ encode_chunks cs) s
          = { output := none, error := some .ChunkNotFound, found := none, warnings := [] })
    ∧ (i ≤ 0 ∨ 2147483647 < i →
        cmd_extract (encode_header H R ++ encode_chunks cs) s
          = { output := none, error := some .InvalidIndex, found := none, warnings := [] }) := by
  refine ⟨?_, ?_, ?_⟩
  · intro h1 hn hmax
    obtain ⟨k, rfl⟩ : ∃ k : Nat, i = (k : Int) := ⟨i.toNat, by omega⟩
    have hk1 : 1 ≤ k := by omega
    have hkn : k - 1 < cs.length := by omega
    have hx := cmd_extract_encoded H R cs s k hH hR hfit hs hne hk1 (by omega)
    simp only [Int.toNat_ofNat]
    cases hg : cs.get? (k - 1) with
    | none =>
      rw [List.get?_eq_none] at hg
      omega
    | some c =>
      rw [hg] at hx
      exact ⟨c, rfl, hx⟩
  · intro hn hmax
    obtain ⟨k, rfl⟩ : ∃ k : Nat, i = (k : Int) := ⟨i.toNat, by omega⟩
    have hx := cmd_extract_encoded H R cs s k hH hR hfit hs hne (by omega) (by omega)
    have hg : cs.get? (k - 1) = none := by
      rw [List.get?_eq_none]
      omega
    rw [hg] at hx
    exact hx
  · intro hbad
    have hguard : (s.length ≠ s.length ∨ s.length = 0 ∨ i ≤ 0 ∨ i > 2147483647) := by
      rcases hbad with hb | hb
      · exact Or.inr (Or.inr (Or.inl hb))
      · exact Or.inr (Or.inr (Or.inr hb))
    simp only [cmd_extract, hs, hguard, if_true]

/-- Witness for C6: index "2" on the archive holding "hello" and "world"
writes the five bytes of "world"; index "3" is not found; index "0" is
invalid. -/
theorem C6_extract_fidelity_witness :
    cmd_extract (encode_header 38 0 ++ encode_chunks
        [{ type := 1, payload := [104, 101, 108, 108, 111] },
         { type := 1, payload := [119, 111, 114, 108, 100] }]) [50]
      = { output := some [119, 111, 114, 108, 100], error := none, found := some (2, 1, 5),
          warnings := [] }
    ∧ cmd_extract (encode_header 38 0 ++ encode_chunks
        [{ type := 1, payload := [104, 101, 108, 108, 111] },
         { type := 1, payload := [119, 111, 114, 108, 100] }]) [51]
      = { output := none, error := some .ChunkNotFound, found := none, warnings := [] }
    ∧ cmd_extract (encode_header 38 0 ++ encode_chunks
        [{ type := 1, payload := [104, 101, 108, 108, 111] },
         { type := 1, payload := [119, 111, 114, 108, 100] }]) [48]
      = { output := none, error := some .InvalidIndex, found := none, warnings := [] } := by
  refine ⟨?_, ?_, ?_⟩
  · obtain ⟨c, hc, he⟩ := (C6_extract_fidelity 38 0
      [{ type := 1, payload := [104, 101, 108, 108, 111] },
       { type := 1, payload := [119, 111, 114, 108, 100] }] [50] 2
      (by decide) (by decide) (by decide) (by decide) (by decide)).1
      (by decide) (by decide) (by decide)
    have hc2 : c = { type := 1, payload := [119, 111, 114, 108, 100] } := by
      have : some c = some { type := 1, payload := [119, 111, 114, 108, 100] } := hc.symm
      injection this
    subst hc2
    exact he
  · exact (C6_extract_fidelity 38 0
      [{ type := 1, payload := [104, 101, 108, 108, 111] },
       { type := 1, payload := [119, 111, 114, 108, 100] }] [51] 3
      (by decide) (by decide) (by decide) (by decide) (by decide)).2.1
      (by decide) (by decide)
  · exact (C6_extract_fidelity 38 0
      [{ type := 1, payload := [104, 101, 108, 108, 111] },
       { type := 1, payload := [119, 111, 114, 108, 100] }] [48] 0
      (by decide) (by decide) (by decide) (by decide) (by decide)).2.2
      (Or.inl (by decide))

/-- C6 as stated fails for an index above `2147483647`: on the archive holding
"hello" and "world" the index string "2147483648", which `strtol` reads in
full as 2147483648, larger than the number of chunks, is rejected with
InvalidIndex and not with ChunkNotFound. -/
theorem C6_counterexample :
    strtol [50, 49, 52, 55, 52, 56, 51, 54, 52, 56] = (2147483648, 10)
    ∧ (cmd_extract (encode_header 38 0 ++ encode_chunks
        [{ type := 1, payload := [104, 101, 108, 108, 111] },
         { type := 1, payload := [119, 111, 114, 108, 100] }])
        [50, 49, 52, 55, 52, 56, 51, 54, 52, 56]).error = some .InvalidIndex
    ∧ (cmd_extract (encode_header 38 0 ++ encode_chunks
        [{ type := 1, payload := [104, 101, 108, 108, 111] },
         { type := 1, payload := [119, 111, 114, 108, 100] }])
        [50, 49, 52, 55, 52, 56, 51, 54, 52, 56]).error ≠ some .ChunkNotFound := by
  decide

/-- C7, as amended: for every archive of at least 12 and at most `0xFFFFFFFF`
bytes that starts with the magic and records a total size `H` with
`8 <= H` and `H` smaller than the actual size, `validate_and_open` succeeds
with write position `H` and baseline `H`; and for every text `t` with
`H + 8 + len(t) <= 0xFFFFFFFF`, `cmd_append` succeeds, the archive then
records `H + 8 + len(t)`, and the chunk (1, `len(t)`, `t`) occupies exactly
the bytes `[H, H + 8 + len(t))`, in place of the garbage. -/
theorem C7_repair (H R : Nat) (body t : List Nat) (hR : R < 2 ^ 32) (h8 : 8 ≤ H)
    (hgt : H < 12 + body.length) (hA : 12 + body.length ≤ 0xFFFFFFFF)
    (hfit : H + (8 + t.length) ≤ 0xFFFFFFFF) :
    (∃ o, validate_and_open (encode_header H R ++ body) = .ok o
        ∧ o.fp = { data := encode_header H R ++ body, pos := H } ∧ o.current_size = H)
    ∧ (cmd_append (encode_header H R ++ body) t).error = none
    ∧ header_total_size (cmd_append (encode_header H R ++ body) t).archive
        = some (H + (8 + t.length))
    ∧ ((cmd_append (encode_header H R ++ body) t).archive.drop H).take (8 + t.length)
        = be32 1 ++ be32 t.length ++ t := by
  have hv := validate_and_open_encoded H R body (by omega) hR
  rw [if_neg (by omega), if_pos (by omega), if_pos (by omega)] at hv
  have hl : (encode_header H R ++ body).length = 12 + body.length := by
    simp only [List.length_append, encode_header_length]
  have herr : (cmd_append (encode_header H R ++ body) t).error = none := by
    have hbig : ¬ t.length > 0xFFFFFFF7 := by omega
    have h8t : uadd 8 t.length = 8 + t.length := uadd_eq _ _ (by omega)
    have hs : usub 0xFFFFFFFF (8 + t.length) = 0xFFFFFFFF - (8 + t.length) :=
      usub_eq _ _ (by omega) (by norm_num)
    have hov : ¬ H > 0xFFFFFFFF - (8 + t.length) := by omega
    simp only [cmd_append, hbig, if_false, hv, h8t, update_total_size, hs, hov]
  refine ⟨⟨_, hv, rfl, rfl⟩, herr, ?_, ?_⟩
  · obtain ⟨H2, hH2, hle, h12, hmax, heq, _⟩ := cmd_append_ok _ t herr
    rw [header_total_size_encoded H R body (by omega) hR] at hH2
    injection hH2 with hH2
    subst hH2
    rw [heq]
    exact (appended_size_and_length _ H _ _ hle h12 (by omega)).1
  · obtain ⟨H2, hH2, hle, h12, hmax, heq, _⟩ := cmd_append_ok _ t herr
    rw [header_total_size_encoded H R body (by omega) hR] at hH2
    injection hH2 with hH2
    subst hH2
    rw [heq, drop_overwrite_after _ 4 H _ (by rw [overwrite_length _ _ _ hle]; omega)
      (by rw [be32_length]; omega), overwrite_drop _ _ _ hle]
    have hcl : (be32 TYPE_TEXT ++ be32 t.length ++ t).length = 8 + t.length := by
      simp only [List.length_append, be32_length]
    rw [← hcl, List.take_left]
    rfl

/-- Witness for C7: the archive created from "hello" with ten garbage bytes
after it, repaired by appending "world". -/
theorem C7_repair_witness :
    (cmd_append (encode_header 25 0
        ++ ([0, 0, 0, 1, 0, 0, 0, 5, 104, 101, 108, 108, 111] ++ List.replicate 10 7))
        [119, 111, 114, 108, 100]).error = none
    ∧ header_total_size (cmd_append (encode_header 25 0
        ++ ([0, 0, 0, 1, 0, 0, 0, 5, 104, 101, 108, 108, 111] ++ List.replicate 10 7))
        [119, 111, 114, 108, 100]).archive = some (25 + (8 + 5))
    ∧ ((cmd_append (encode_header 25 0
        ++ ([0, 0, 0, 1, 0, 0, 0, 5, 104, 101, 108, 108, 111] ++ List.replicate 10 7))
        [119, 111, 114, 108, 100]).archive.drop 25).take (8 + 5)
        = be32 1 ++ be32 5 ++ [119, 111, 114, 108, 100] :=
  (C7_repair 25 0 ([0, 0, 0, 1, 0, 0, 0, 5, 104, 101, 108, 108, 111] ++ List.replicate 10 7)
    [119, 111, 114, 108, 100] (by decide) (by decide) (by decide) (by decide) (by decide)).2

/-- C7 as stated fails when the recorded total size is below 8: on the 25-byte
archive holding "hello" whose size field is zeroed, `validate_and_open`
succeeds with write position 0, and after the successful append of "world"
the bytes `[0, 13)` are not the new chunk, because the size field written at
`[4, 8)` lies inside that range; the magic is gone as well. -/
theorem C7_counterexample :
    validate_and_open (encode_header 0 0 ++ [0, 0, 0, 1, 0, 0, 0, 5, 104, 101, 108, 108, 111])
      = .ok { fp := { data := encode_header 0 0
                        ++ [0, 0, 0, 1, 0, 0, 0, 5, 104, 101, 108, 108, 111], pos := 0 },
              current_size := 0,
              warnings := [Warning.SizeMismatch 0 25, Warning.FixingGarbage] }
    ∧ (cmd_append (encode_header 0 0 ++ [0, 0, 0, 1, 0, 0, 0, 5, 104, 101, 108, 108, 111])
        [119, 111, 114, 108, 100]).error = none
    ∧ ((cmd_append (encode_header 0 0 ++ [0, 0, 0, 1, 0, 0, 0, 5, 104, 101, 108, 108, 111])
        [119, 111, 114, 108, 100]).archive.drop 0).take (8 + 5)
        ≠ be32 1 ++ be32 5 ++ [119, 111, 114, 108, 100]
    ∧ header_magic (cmd_append
        (encode_header 0 0 ++ [0, 0, 0, 1, 0, 0, 0, 5, 104, 101, 108, 108, 111])
        [119, 111, 114, 108, 100]).archive ≠ some MAGIC_NUMBER := by
  decide

/-- C8, as amended: for every archive of at least 12 bytes that starts with the
magic and whose actual length is smaller than the recorded total size `H`,
`validate_and_open` fails with the truncated-archive error; `cmd_append` with
a text of at most `0xFFFFFFF7` bytes and `cmd_append_file` with a source file
of at most `0xFFFFFFFF` bytes fail with that error; a longer text or source
file is rejected before the archive is opened, with the text-too-large or
file-too-large error; in every case the bytes of the archive are left as
they were. -/
theorem C8_truncation (H R : Nat) (body : List Nat) (hH : H < 2 ^ 32) (hR : R < 2 ^ 32)
    (hlt : 12 + body.length < H) :
    validate_and_open (encode_header H R ++ body) = .error .Truncated
    ∧ (∀ t : List Nat, t.length ≤ 0xFFFFFFF7 →
        (cmd_append (encode_header H R ++ body) t).error = some .Truncated
        ∧ (cmd_append (encode_header H R ++ body) t).archive = encode_header H R ++ body)
    ∧ (∀ t : List Nat, 0xFFFFFFF7 < t.length →
        (cmd_append (encode_header H R ++ body) t).error = some .TextTooLarge
        ∧ (cmd_append (encode_header H R ++ body) t).archive = encode_header H R ++ body)
    ∧ (∀ target_file target description : List Nat, target.length ≤ 0xFFFFFFFF →
        (cmd_append_file (encode_header H R ++ body) target_file target description).error
          = some .Truncated
        ∧ (cmd_append_file (encode_header H R ++ body) target_file target description).archive
          = encode_header H R ++ body)
    ∧ (∀ target_file target description : List Nat, 0xFFFFFFFF < target.length →
        (cmd_append_file (encode_header H R ++ body) target_file target description).error
          = some .FileTooLarge
        ∧ (cmd_append_file (encode_header H R ++ body) target_file target description).archive
          = encode_header H R ++ body) := by
  have hv : validate_and_open (encode_header H R ++ body) = .error .Truncated := by
    rw [validate_and_open_encoded H R body hH hR, if_neg (by omega), if_pos (by omega),
      if_neg (by omega)]
  refine ⟨hv, ?_, ?_, ?_, ?_⟩
  · intro t ht
    have hbig : ¬ t.length > 0xFFFFFFF7 := by omega
    simp only [cmd_append, hbig, if_false, hv, and_self]
  · intro t ht
    have hbig : t.length > 0xFFFFFFF7 := ht
    simp only [cmd_append, hbig, if_true, and_self]
  · intro target_file target description ht
    have hsz := get_file_size_ok (fopen_existing target) (by simp only [fopen_existing]; omega)
    simp only [cmd_append_file, hsz, hv, and_self]
  · intro target_file target description ht
    have hsz := get_file_size_big (fopen_existing target) (by simp only [fopen_existing]; omega)
    simp only [cmd_append_file, hsz, and_self]

/-- Witness for C8: the header of the "hello" archive claims 25 bytes and only
the first 20 bytes of the file are left. -/
theorem C8_truncation_witness :
    validate_and_open (encode_header 25 0 ++ [0, 0, 0, 1, 0, 0, 0, 5]) = .error .Truncated
    ∧ (cmd_append (encode_header 25 0 ++ [0, 0, 0, 1, 0, 0, 0, 5]) [120]).error
        = some .Truncated
    ∧ (cmd_append (encode_header 25 0 ++ [0, 0, 0, 1, 0, 0, 0, 5]) [120]).archive
        = encode_header 25 0 ++ [0, 0, 0, 1, 0, 0, 0, 5]
    ∧ (cmd_append_file (encode_header 25 0 ++ [0, 0, 0, 1, 0, 0, 0, 5]) [97] [1, 2, 3] [98]).error
        = some .Truncated :=
  have hw := C8_truncation 25 0 [0, 0, 0, 1, 0, 0, 0, 5] (by decide) (by decide) (by decide)
  ⟨hw.1, (hw.2.1 [120] (by decide)).1, (hw.2.1 [120] (by decide)).2,
   (hw.2.2.2.1 [97] [1, 2, 3] [98] (by decide)).1⟩

/-- C8 as stated fails for a file cut inside its header: the 8-byte file made
of the magic and the size field 100 is shorter than its recorded total size,
and opening it for append fails with the error of the reserved field that
cannot be read, not with the truncated-archive error. -/
theorem C8_counterexample :
    header_magic [0x5A, 0x5A, 0x4B, 0x31, 0, 0, 0, 100] = some MAGIC_NUMBER
    ∧ header_total_size [0x5A, 0x5A, 0x4B, 0x31, 0, 0, 0, 100] = some 100
    ∧ validate_and_open [0x5A, 0x5A, 0x4B, 0x31, 0, 0, 0, 100] = .error .ReadReserved
    ∧ (cmd_append [0x5A, 0x5A, 0x4B, 0x31, 0, 0, 0, 100] [120]).error = some .ReadReserved
    ∧ (cmd_append_file [0x5A, 0x5A, 0x4B, 0x31, 0, 0, 0, 100] [97] [1, 2, 3] [98]).error
        = some .ReadReserved := by
  decide

/-- C9, as amended: for a file of bytes, `validate_and_open` and `cmd_list` fail
with the invalid-magic error if and only if the file has fewer than 4 bytes
or its first 4 bytes read as a big-endian 32-bit integer differ from
`0x5A5A4B31`, and so does `cmd_extract` when its index string is a positive
index (an invalid index string is rejected first, with InvalidIndex); on
that failure `cmd_extract` opens no output file and reports no chunk,
`cmd_list` prints nothing, and the append commands leave the archive as it
was. -/
theorem C9_bad_magic (f : List Nat) (hb : ∀ b ∈ f, b < 256) :
    (validate_and_open f = .error .InvalidMagic ↔ bad_magic f)
    ∧ (cmd_list f = .error .InvalidMagic ↔ bad_magic f)
    ∧ (∀ (s : List Nat) (i : Nat), positive_index s i →
        ((cmd_extract f s).error = some .InvalidMagic ↔ bad_magic f)
        ∧ (bad_magic f → cmd_extract f s
            = { output := none, error := some .InvalidMagic, found := none, warnings := [] }))
    ∧ (bad_magic f → (∀ t : List Nat, (cmd_append f t).archive = f)
        ∧ ∀ target_file target description : List Nat,
            (cmd_append_file f target_file target description).archive = f) := by
  have hm := header_magic_iff f hb
  have hbad : bad_magic f → ∀ a q, read_u32_be (fopen_existing f) = (a, q) →
      a ≠ some MAGIC_NUMBER := by
    intro hx a q hr hmag
    apply hm.mp _ hx
    simp only [header_magic, hr, hmag]
  have hgood : ¬ bad_magic f → ∃ q, read_u32_be (fopen_existing f) = (some MAGIC_NUMBER, q) := by
    intro hx
    have := hm.mpr hx
    simp only [header_magic] at this
    cases hr : read_u32_be (fopen_existing f) with
    | mk a q =>
      rw [hr] at this
      simp only at this
      subst this
      exact ⟨q, rfl⟩
  have hv_bad : bad_magic f → validate_and_open f = .error .InvalidMagic := by
    intro hx
    cases hr : read_u32_be (fopen_existing f) with
    | mk a q =>
      cases a with
      | none => simp only [validate_and_open, hr]
      | some magic =>
        have hne : magic ≠ MAGIC_NUMBER := fun e => hbad hx _ _ hr (by rw [e])
        simp only [validate_and_open, hr, hne, ne_eq, not_false_eq_true, if_true]
  refine ⟨⟨?_, hv_bad⟩, ⟨?_, ?_⟩, ?_, ?_⟩
  · intro hv
    by_contra hx
    obtain ⟨q, hq⟩ := hgood hx
    unfold validate_and_open at hv
    simp only [hq, ne_eq, not_true_eq_false, if_false] at hv
    cases h2 : read_u32_be q with
    | mk b q2 =>
      cases b with
      | none => simp [h2] at hv
      | some H =>
        simp only [h2] at hv
        cases h3 : read_u32_be q2 with
        | mk c q3 =>
          cases c with
          | none => simp [h3] at hv
          | some R =>
            simp only [h3, get_file_size_u32_or_die] at hv
            split_ifs at hv <;> simp at hv <;> split_ifs at hv <;> simp at hv
  · intro hl
    by_contra hx
    obtain ⟨q, hq⟩ := hgood hx
    simp [cmd_list, hq] at hl
  · intro hx
    cases hr : read_u32_be (fopen_existing f) with
    | mk a q =>
      cases a with
      | none => simp only [cmd_list, hr]
      | some magic =>
        have hne : magic ≠ MAGIC_NUMBER := fun e => hbad hx _ _ hr (by rw [e])
        simp only [cmd_list, hr, hne, ne_eq, not_false_eq_true, if_true]
  · intro s i hs
    have hacc := cmd_extract_accepted f s i hs
    have hx_bad : bad_magic f → cmd_extract f s
        = { output := none, error := some .InvalidMagic, found := none, warnings := [] } := by
      intro hx
      rw [hacc]
      cases hr : read_u32_be (fopen_existing f) with
      | mk a q =>
        cases a with
        | none => rfl
        | some magic =>
          have hne : magic ≠ MAGIC_NUMBER := fun e => hbad hx _ _ hr (by rw [e])
          simp only [hne, ne_eq, not_false_eq_true, if_true]
    refine ⟨⟨?_, fun hx => by rw [hx_bad hx]⟩, hx_bad⟩
    intro he
    by_contra hx
    obtain ⟨q, hq⟩ := hgood hx
    rw [hacc, hq] at he
    simp only [ne_eq, not_true_eq_false, if_false] at he
    exact (extract_loop_error _ _ _ _).2 he
  · intro hx
    have hv := hv_bad hx
    constructor
    · intro t
      simp only [cmd_append, hv]
      split_ifs <;> rfl
    · intro target_file target description
      simp only [cmd_append_file, hv]
      cases get_file_size_u32_or_die (fopen_existing target) with
      | error e => rfl
      | ok r => rfl

/-- Witness for C9: a four-byte file of zeros is rejected by the three
operations; the archive created from "hello" is not. -/
theorem C9_bad_magic_witness :
    validate_and_open [0, 0, 0, 0] = .error .InvalidMagic
    ∧ cmd_list [0, 0, 0, 0] = .error .InvalidMagic
    ∧ cmd_extract [0, 0, 0, 0] [49]
        = { output := none, error := some .InvalidMagic, found := none, warnings := [] }
    ∧ ¬ bad_magic [90, 90, 75, 49, 0, 0, 0, 25, 0, 0, 0, 0, 0, 0, 0, 1, 0, 0, 0, 5,
                   104, 101, 108, 108, 111] :=
  have hbad : bad_magic [0, 0, 0, 0] := Or.inr ⟨0, 0, 0, 0, [], rfl, by decide⟩
  have hidx : positive_index [49] 1 :=
    ⟨[], [], [49], rfl, by decide, Or.inl rfl, by decide, by decide, by decide, by decide,
      by decide⟩
  have hw := C9_bad_magic [0, 0, 0, 0] (by decide)
  ⟨hw.1.mpr hbad, hw.2.1.mpr hbad, (hw.2.2.1 [49] 1 hidx).2 hbad,
   fun hx => absurd ((C9_bad_magic [90, 90, 75, 49, 0, 0, 0, 25, 0, 0, 0, 0, 0, 0, 0, 1, 0, 0, 0, 5,
      104, 101, 108, 108, 111] (by decide)).1.mpr hx) (by decide)⟩

/-- C9 as stated fails for `cmd_extract` with an invalid index: on a four-byte
file of zeros, whose magic is wrong, the index string "0" makes `cmd_extract`
fail with InvalidIndex and not with the invalid-magic error. -/
theorem C9_counterexample :
    bad_magic [0, 0, 0, 0]
    ∧ (cmd_extract [0, 0, 0, 0] [48]).error = some .InvalidIndex
    ∧ (cmd_extract [0, 0, 0, 0] [48]).error ≠ some .InvalidMagic :=
  ⟨Or.inr ⟨0, 0, 0, 0, [], rfl, by decide⟩, by decide, by decide⟩

/-- C10, as amended: `cmd_extract` rejects the index string with InvalidIndex,
whatever the archive holds and without creating the output file, if and only
if the string is not a positive index, that is optional white space, an
optional plus sign and one or more decimal digits of value between 1 and
2147483647; a positive index of value `i` is accepted and, on a file that
starts with a header, passed on to the chunk scan as the target `i`. -/
theorem C10_index_validation (s : List Nat) :
    (∀ archive : List Nat,
        (cmd_extract archive s).error = some .InvalidIndex ↔ ¬ ∃ i, positive_index s i)
    ∧ ((¬ ∃ i, positive_index s i) → ∀ archive : List Nat,
        cmd_extract archive s
          = { output := none, error := some .InvalidIndex, found := none, warnings := [] })
    ∧ (∀ i, positive_index s i → ∀ (H R : Nat) (body : List Nat), H < 2 ^ 32 → R < 2 ^ 32 →
        cmd_extract (encode_header H R ++ body) s
          = extract_loop (12 + body.length + 1)
              { data := encode_header H R ++ body, pos := 12 } 0 i) := by
  refine ⟨?_, fun h archive => cmd_extract_rejected archive s h, ?_⟩
  · intro archive
    constructor
    · intro he hpos
      obtain ⟨i, hi⟩ := hpos
      rw [cmd_extract_accepted archive s i hi] at he
      cases hr : read_u32_be (fopen_existing archive) with
      | mk a q =>
        rw [hr] at he
        cases a with
        | none => simp at he
        | some magic =>
          simp only at he
          split_ifs at he
          · simp at he
          · exact (extract_loop_error _ _ _ _).1 he
    · intro h
      rw [cmd_extract_rejected archive s h]
  · intro i hi H R body hH hR
    obtain ⟨r0, r1, r2, _⟩ := read_header H R body hH hR
    rw [cmd_extract_accepted _ s i hi, r0]
    simp only [ne_eq, not_true_eq_false, if_false, r1, r2, List.length_append,
      encode_header_length]

/-- Witness for C10: the strings "", "abc", "12x", "0" and "-5" are rejected,
the string "2" is accepted and passed to the scan. -/
theorem C10_index_validation_witness :
    (cmd_extract [0, 0, 0, 0] []).error = some .InvalidIndex
    ∧ (cmd_extract [0, 0, 0, 0] [97, 98, 99]).error = some .InvalidIndex
    ∧ (cmd_extract [0, 0, 0, 0] [49, 50, 120]).error = some .InvalidIndex
    ∧ (cmd_extract [0, 0, 0, 0] [48]).error = some .InvalidIndex
    ∧ (cmd_extract [0, 0, 0, 0] [45, 53]).error = some .InvalidIndex
    ∧ cmd_extract (encode_header 12 0 ++ []) [50]
        = extract_loop (12 + 0 + 1) { data := encode_header 12 0 ++ [], pos := 12 } 0 2 :=
  ⟨((C10_index_validation []).1 [0, 0, 0, 0]).mpr ((index_guard_iff []).mp (by decide)),
   ((C10_index_validation [97, 98, 99]).1 [0, 0, 0, 0]).mpr
     ((index_guard_iff [97, 98, 99]).mp (by decide)),
   ((C10_index_validation [49, 50, 120]).1 [0, 0, 0, 0]).mpr
     ((index_guard_iff [49, 50, 120]).mp (by decide)),
   ((C10_index_validation [48]).1 [0, 0, 0, 0]).mpr ((index_guard_iff [48]).mp (by decide)),
   ((C10_index_validation [45, 53]).1 [0, 0, 0, 0]).mpr
     ((index_guard_iff [45, 53]).mp (by decide)),
   (C10_index_validation [50]).2.2 2
     ⟨[], [], [50], rfl, by decide, Or.inl rfl, by decide, by decide, by decide, by decide,
       by decide⟩ 12 0 [] (by decide) (by decide)⟩

/-- C10 as stated fails above `2147483647`: the string "4294967296" is made of
decimal digits only and denotes the positive integer 4294967296, and
`cmd_extract` rejects it with InvalidIndex. -/
theorem C10_counterexample :
    (∀ c ∈ [52, 50, 57, 52, 57, 54, 55, 50, 57, 54], isdigit c = true)
    ∧ digits_value [52, 50, 57, 52, 57, 54, 55, 50, 57, 54] = 4294967296
    ∧ cmd_extract (encode_header 25 0 ++ encode_chunks
        [{ type := 1, payload := [104, 101, 108, 108, 111] }])
        [52, 50, 57, 52, 57, 54, 55, 50, 57, 54]
      = { output := none, error := some .InvalidIndex, found := none, warnings := [] } := by
  decide

/-- C19: for every offset from 0 to `2^32 - 1`, also above `0x7FFFFFFF`, the loop
of `seek_forward` ends after at most three relative seeks, whatever larger
bound it is given; every seek it issues has a step `s` with
`0 < s <= 0x70000000`; the steps sum to `offset`, so the stream position
advances by exactly `offset` bytes over unchanged data; and no seek is
issued when the offset is 0. -/
theorem C19_seek_forward (fp : FILE) (offset : Nat) (h : offset ≤ 0xFFFFFFFF) :
    seek_forward fp offset = (seek_forward_steps offset offset).foldl fseek_cur fp
    ∧ (seek_forward_steps offset offset).length ≤ 3
    ∧ (∀ fuel, offset ≤ fuel → seek_forward_loop fuel fp offset = seek_forward fp offset)
    ∧ (∀ s ∈ seek_forward_steps offset offset, 0 < s ∧ s ≤ 0x70000000)
    ∧ (seek_forward_steps offset offset).sum = offset
    ∧ seek_forward fp offset = { data := fp.data, pos := fp.pos + offset }
    ∧ (offset = 0 → seek_forward_steps offset offset = []) := by
  have h64 : offset < 2 ^ 64 := by omega
  obtain ⟨hsum, hstep⟩ := seek_forward_steps_spec offset offset (Nat.le_refl _) h64
  refine ⟨seek_forward_loop_steps offset fp offset,
    seek_forward_steps_length offset offset 3 (by omega) h64, ?_, hstep, hsum,
    seek_forward_eq fp offset h64, ?_⟩
  · intro fuel hf
    rw [seek_forward_loop_eq fuel offset fp hf h64, seek_forward_eq fp offset h64]
  · intro h0
    subst h0
    rfl

/-- Witness for C19: the offset `0xFFFFFFFF` is covered by the three steps
`0x70000000`, `0x70000000` and `0x1FFFFFFF`. -/
theorem C19_seek_forward_witness :
    seek_forward_steps 0xFFFFFFFF 0xFFFFFFFF = [0x70000000, 0x70000000, 0x1FFFFFFF]
    ∧ seek_forward { data := [1, 2, 3], pos := 1 } 0xFFFFFFFF
        = { data := [1, 2, 3], pos := 1 + 0xFFFFFFFF }
    ∧ (seek_forward_steps 0xFFFFFFFF 0xFFFFFFFF).sum = 0xFFFFFFFF :=
  have hw := C19_seek_forward { data := [1, 2, 3], pos := 1 } 0xFFFFFFFF (by decide)
  ⟨by decide, hw.2.2.2.2.2.1, hw.2.2.2.2.1⟩

/-- C20: on a buffer of `cap > 0` bytes with `used = u <= cap - 1`, `append_str`
leaves the first `u` bytes unchanged, sets `used` to
`u' = min (u + len(src)) (cap - 1)`, stores the first `u' - u` bytes of `src`
at offset `u` and a zero byte at index `u'`, and returns 0 if and only if
`u + len(src) <= cap - 1`, otherwise -1; so once `used` is `cap - 1` a call
adds no bytes, and a sequence of calls from `used = 0` leaves the first
`min (total length) (cap - 1)` bytes of the concatenation of the sources,
some call returning non-zero exactly when the total exceeds `cap - 1`. -/
theorem C20_append_str (dst src : List Nat) (cap u : Nat) (hcap : 0 < cap)
    (h64 : cap < 2 ^ 64) (hlen : dst.length = cap) (hu : u ≤ cap - 1) :
    (append_str dst cap u src).2.1.take u = dst.take u
    ∧ (append_str dst cap u src).2.2 = min (u + src.length) (cap - 1)
    ∧ ((append_str dst cap u src).2.1.drop u).take ((append_str dst cap u src).2.2 - u)
        = src.take ((append_str dst cap u src).2.2 - u)
    ∧ (append_str dst cap u src).2.1.get? (append_str dst cap u src).2.2 = some 0
    ∧ (append_str dst cap u src).2.1.length = cap
    ∧ ((append_str dst cap u src).1 = 0 ↔ u + src.length ≤ cap - 1)
    ∧ ((append_str dst cap u src).1 = 0 ∨ (append_str dst cap u src).1 = -1)
    ∧ (u = cap - 1 → (append_str dst cap u src).2.2 = u)
    ∧ (∀ srcs : List (List Nat),
        (append_str_all dst cap 0 srcs).1.take (append_str_all dst cap 0 srcs).2.1
            = srcs.flatten.take (cap - 1)
        ∧ (append_str_all dst cap 0 srcs).2.1 = min srcs.flatten.length (cap - 1)
        ∧ (append_str_all dst cap 0 srcs).2.2 = decide (srcs.flatten.length > cap - 1)) := by
  have hn := append_str_normal dst src cap u hlen hu hcap h64
  have hpl : (src.take (cap - 1 - u)).length = min (cap - 1 - u) src.length := List.length_take _ _
  have htl : (dst.take u).length = u := by rw [List.length_take]; omega
  rw [hn]
  refine ⟨?_, ?_, ?_, ?_, ?_, ?_, ?_, ?_, ?_⟩
  · simp only [List.append_assoc]
    rw [List.take_append_of_le_length (by omega), List.take_take, Nat.min_self]
  · simp only [hpl]; omega
  · simp only [List.append_assoc]
    rw [List.drop_append_of_le_length (by omega), List.drop_take, Nat.sub_self, List.take_zero,
      List.nil_append]
    have e : u + (src.take (cap - 1 - u)).length - u = (src.take (cap - 1 - u)).length := by omega
    rw [e, List.take_left, hpl]
    by_cases hm : cap - 1 - u ≤ src.length
    · rw [Nat.min_eq_left hm]
    · rw [Nat.min_eq_right (by omega), List.take_length, List.take_of_length_le (by omega)]
  · have hg := get?_after_prefix (dst.take u ++ src.take (cap - 1 - u)) 0
      (dst.drop (u + (src.take (cap - 1 - u)).length + 1))
    rw [List.length_append, htl] at hg
    exact hg
  · simp only [List.length_append, List.length_cons, List.length_drop, htl, hpl]
    omega
  · simp only
    constructor
    · intro h0
      by_contra hc
      rw [if_pos (by omega)] at h0
      exact absurd h0 (by decide)
    · intro hle
      rw [if_neg (by omega)]
  · simp only
    by_cases hc : src.length > cap - 1 - u
    · right; rw [if_pos hc]
    · left; rw [if_neg hc]
  · intro hmax
    simp only [hpl]
    omega
  · intro srcs
    exact append_str_all_from_start dst cap srcs hlen hcap h64

/-- Witness for C20: an 8-byte buffer with 2 bytes used receives the first 5
bytes of "hello world" and the call returns -1. -/
theorem C20_append_str_witness :
    append_str [1, 2, 9, 9, 9, 9, 9, 9] 8 2 [104, 101, 108, 108, 111, 32, 119, 111, 114, 108, 100]
      = (-1, [1, 2, 104, 101, 108, 108, 111, 0], 7)
    ∧ (append_str [1, 2, 9, 9, 9, 9, 9, 9] 8 2
        [104, 101, 108, 108, 111, 32, 119, 111, 114, 108, 100]).2.2 = min (2 + 11) (8 - 1) :=
  ⟨by decide,
   (C20_append_str [1, 2, 9, 9, 9, 9, 9, 9]
      [104, 101, 108, 108, 111, 32, 119, 111, 114, 108, 100] 8 2 (by decide) (by decide)
      (by decide) (by decide)).2.1⟩

/-- C13: for every healthy archive of size `S`, source file with contents `d` of
length `n`, file name `f` and description `s` (C strings) such that the text
`M` = "Filename: f", "Description: s" and "Size: n bytes" on three lines,
`n` in decimal, has at most 1023 bytes and `S + 16 + len(M) + n` is at most
`0xFFFFFFFF`, `cmd_append_file` succeeds without the truncation warning and
leaves the healthy archive of the old chunks followed by (TEXT, `len(M)`,
`M`) and then (BINARY, `n`, `d`); the header records
`S + (8 + len(M)) + (8 + n)`, which is the new file length. -/
theorem C13_append_file_layout (R : Nat) (cs : List Chunk) (f d s : List Nat)
    (hR : R < 2 ^ 32) (hf : 0 ∉ f) (hs : 0 ∉ s)
    (hM : (metadata_text f s d.length).length ≤ 1023)
    (hfit : (healthy_archive R cs).length + 16 + (metadata_text f s d.length).length + d.length
      ≤ 0xFFFFFFFF) :
    (cmd_append_file (healthy_archive R cs) f d s).error = none
    ∧ (cmd_append_file (healthy_archive R cs) f d s).archive
        = healthy_archive R
            (cs ++ [{ type := TYPE_TEXT, payload := metadata_text f s d.length },
                    { type := TYPE_BINARY, payload := d }])
    ∧ Warning.MetadataTruncated ∉ (cmd_append_file (healthy_archive R cs) f d s).warnings
    ∧ header_total_size (cmd_append_file (healthy_archive R cs) f d s).archive
        = some ((healthy_archive R cs).length + (8 + (metadata_text f s d.length).length)
            + (8 + d.length))
    ∧ (cmd_append_file (healthy_archive R cs) f d s).archive.length
        = (healthy_archive R cs).length + (8 + (metadata_text f s d.length).length)
            + (8 + d.length)
    ∧ (∀ c ∈ sprintf_lu d.length, isdigit c = true)
    ∧ digits_value (sprintf_lu d.length) = d.length := by
  have hlen := healthy_archive_length R cs
  have htk : (metadata_text f s d.length).take 1023 = metadata_text f s d.length :=
    List.take_of_length_le hM
  have hev := append_file_healthy R cs f d s hR hf hs (by rw [htk]; omega)
  rw [htk, if_neg (by omega)] at hev
  have hnew : (encode_chunks
      (cs ++ [{ type := TYPE_TEXT, payload := metadata_text f s d.length },
              { type := TYPE_BINARY, payload := d }])).length
      = (encode_chunks cs).length + ((8 + (metadata_text f s d.length).length) + (8 + d.length)) := by
    simp only [encode_chunks_append, encode_chunks, encode_chunk, List.length_append,
      be32_length, List.length_nil]
    omega
  rw [hev]
  refine ⟨rfl, rfl, ?_, ?_, ?_, (sprintf_lu_spec d.length).1, (sprintf_lu_spec d.length).2⟩
  · simp only [List.nil_append]
    split_ifs <;> simp
  · simp only [healthy_archive]
    rw [header_total_size_encoded _ R _ (by rw [hnew]; omega) hR, hnew]
    simp only [List.length_append, encode_header_length]
    congr 1
    omega
  · simp only
    rw [healthy_archive_length, hnew, hlen]
    omega

/-- Witness for C13: the three-byte file `a` with description `b` appended to
the archive created from "hello". -/
theorem C13_append_file_layout_witness :
    (cmd_append_file
        (healthy_archive 0 [{ type := TYPE_TEXT, payload := [104, 101, 108, 108, 111] }])
        [97] [1, 2, 3] [98]).archive
      = healthy_archive 0
          [{ type := TYPE_TEXT, payload := [104, 101, 108, 108, 111] },
           { type := TYPE_TEXT, payload := metadata_text [97] [98] 3 },
           { type := TYPE_BINARY, payload := [1, 2, 3] }]
    ∧ metadata_text [97] [98] 3
        = lit "Filename: a\nDescription: b\nSize: 3 bytes" :=
  ⟨(C13_append_file_layout 0 [{ type := TYPE_TEXT, payload := [104, 101, 108, 108, 111] }]
      [97] [1, 2, 3] [98] (by decide) (by decide) (by decide) (by decide) (by decide)).2.1,
   by decide⟩

/-- C14: for every file name and description (C strings) and source file whose
metadata text `M` is longer than 1023 bytes, the 1024-byte buffer holds the
first 1023 bytes of `M` and the terminator and the truncation flag is set;
on a healthy archive with room for both chunks `cmd_append_file` still
succeeds, with the truncation warning, and the metadata chunk it appends is
(TEXT, 1023, first 1023 bytes of `M`), followed by the binary chunk. -/
theorem C14_metadata_truncation (R : Nat) (cs : List Chunk) (f d s : List Nat)
    (hR : R < 2 ^ 32) (hf : 0 ∉ f) (hs : 0 ∉ s)
    (hM : 1023 < (metadata_text f s d.length).length)
    (hfit : (healthy_archive R cs).length + 16 + 1023 + d.length ≤ 0xFFFFFFFF) :
    (format_metadata f s d.length).1 = (metadata_text f s d.length).take 1023 ++ [0]
    ∧ (format_metadata f s d.length).2 = true
    ∧ ((metadata_text f s d.length).take 1023).length = 1023
    ∧ (cmd_append_file (healthy_archive R cs) f d s).error = none
    ∧ Warning.MetadataTruncated ∈ (cmd_append_file (healthy_archive R cs) f d s).warnings
    ∧ (cmd_append_file (healthy_archive R cs) f d s).archive
        = healthy_archive R
            (cs ++ [{ type := TYPE_TEXT, payload := (metadata_text f s d.length).take 1023 },
                    { type := TYPE_BINARY, payload := d }]) := by
  have hlen := healthy_archive_length R cs
  have htl : ((metadata_text f s d.length).take 1023).length = 1023 := by
    rw [List.length_take]; omega
  obtain ⟨tail, hbuf, hbl, hflag⟩ := format_metadata_spec f s d.length
  have htail : tail = [] := by
    apply List.length_eq_zero.mp
    simp only [List.length_append, List.length_cons, htl] at hbl
    omega
  subst htail
  have hev := append_file_healthy R cs f d s hR hf hs (by rw [htl]; omega)
  rw [if_pos hM] at hev
  rw [hev]
  refine ⟨hbuf, ?_, htl, rfl, ?_, rfl⟩
  · rw [hflag]
    exact decide_eq_true hM
  · simp

/-- Witness for C14: a description of 1100 bytes `b` makes the metadata text
longer than the buffer. -/
theorem C14_metadata_truncation_witness :
    1023 < (metadata_text [97] (List.replicate 1100 98) 3).length
    ∧ (format_metadata [97] (List.replicate 1100 98) 3).2 = true
    ∧ Warning.MetadataTruncated ∈ (cmd_append_file
        (healthy_archive 0 [{ type := TYPE_TEXT, payload := [104, 101, 108, 108, 111] }])
        [97] [1, 2, 3] (List.replicate 1100 98)).warnings :=
  have h := C14_metadata_truncation 0 [{ type := TYPE_TEXT, payload := [104, 101, 108, 108, 111] }]
    [97] [1, 2, 3] (List.replicate 1100 98) (by decide) (by decide)
    (fun h => absurd (List.eq_of_mem_replicate h) (by decide))
    (Nat.lt_of_lt_of_le (by rw [List.length_replicate]; decide)
      (metadata_text_length_ge [97] (List.replicate 1100 98) 3))
    (by decide)
  ⟨Nat.lt_of_lt_of_le (by rw [List.length_replicate]; decide)
      (metadata_text_length_ge [97] (List.replicate 1100 98) 3), h.2.1, h.2.2.2.2.1⟩

/-- C11: the length guard of `cmd_append_file` comes after the writes.  For
every healthy archive `A`, file name and description (C strings) and source
file `d` with `0xFFFFFFF7 < len(d) <= 0xFFFFFFFF`, `cmd_append_file` fails
with the size overflow error, and at that point the archive is `A` followed
by the whole metadata chunk and the whole binary chunk (header and all of
`d`), so it is not `A`: the claim's "no byte has been written" fails there.
The other cases of the claim hold: `cmd_append` with the same payload fails
before the archive is opened and leaves `A` as it was, and so does
`cmd_append_file` with a source longer than `0xFFFFFFFF` bytes. -/
theorem C11_append_file_writes_before_guard (R : Nat) (cs : List Chunk) (f d s : List Nat)
    (hR : R < 2 ^ 32) (hf : 0 ∉ f) (hs : 0 ∉ s)
    (hS : (healthy_archive R cs).length ≤ 0xFFFFFFFF)
    (hlo : 0xFFFFFFF7 < d.length) (hhi : d.length ≤ 0xFFFFFFFF) :
    (cmd_append_file (healthy_archive R cs) f d s).error = some .SizeOverflow
    ∧ (cmd_append_file (healthy_archive R cs) f d s).archive
        = healthy_archive R cs
          ++ (encode_chunk { type := TYPE_TEXT, payload := (metadata_text f s d.length).take 1023 }
            ++ encode_chunk { type := TYPE_BINARY, payload := d })
    ∧ (cmd_append_file (healthy_archive R cs) f d s).archive ≠ healthy_archive R cs
    ∧ (healthy_archive R cs).length + 16 + d.length
        ≤ (cmd_append_file (healthy_archive R cs) f d s).archive.length
    ∧ cmd_append (healthy_archive R cs) d
        = { archive := healthy_archive R cs, error := some .TextTooLarge, warnings := [] }
    ∧ (∀ big : List Nat, 0xFFFFFFFF < big.length →
        cmd_append_file (healthy_archive R cs) f big s
          = { archive := healthy_archive R cs, error := some .FileTooLarge, warnings := [] }) := by
  have hlen := healthy_archive_length R cs
  have hev := append_file_late_guard R cs f d s hR hf hs (by omega) hhi (Or.inl hlo)
  have hv := validate_and_open_healthy R cs hR (by omega)
  rw [hev]
  refine ⟨rfl, rfl, ?_, ?_, ?_, ?_⟩
  · intro h
    have hl := congrArg List.length h
    simp only [List.length_append, be32_length] at hl
    omega
  · simp only [List.length_append, be32_length]
    omega
  · rw [cmd_append_eval _ d _ hv, if_pos hlo]
  · intro big hbig
    unfold cmd_append_file
    simp only
    rw [get_file_size_big _ (by simpa [fopen_existing] using hbig)]

/-- Witness for C11: a source file of `0xFFFFFFF8` zero bytes appended to the
archive created from "hello". -/
theorem C11_append_file_writes_before_guard_witness :
    (cmd_append_file
        (healthy_archive 0 [{ type := TYPE_TEXT, payload := [104, 101, 108, 108, 111] }])
        [97] (List.replicate 0xFFFFFFF8 0) [98]).error = some .SizeOverflow
    ∧ (cmd_append_file
        (healthy_archive 0 [{ type := TYPE_TEXT, payload := [104, 101, 108, 108, 111] }])
        [97] (List.replicate 0xFFFFFFF8 0) [98]).archive
      ≠ healthy_archive 0 [{ type := TYPE_TEXT, payload := [104, 101, 108, 108, 111] }] :=
  have h := C11_append_file_writes_before_guard 0
    [{ type := TYPE_TEXT, payload := [104, 101, 108, 108, 111] }]
    [97] (List.replicate 0xFFFFFFF8 0) [98] (by decide) (by decide) (by decide) (by decide)
    (by rw [List.length_replicate]; decide) (by rw [List.length_replicate]; decide)
  ⟨h.1, h.2.2.1⟩

/-- C12, as amended: for every archive accepted by `validate_and_open` with
baseline `b` and every payload, `cmd_append` (chunk length `l`) and
`cmd_append_file` (chunk lengths `m` of the metadata and `n` of the source
file) fail, with one of the overflow errors, if and only if
`b + sum (8 + l_i) > 0xFFFFFFFF` over the natural numbers; when the sum is at
most `0xFFFFFFFF` the command succeeds and the size field then holds exactly
that sum; on the failure the size field is as before whenever `8 <= b`. -/
theorem C12_cumulative_overflow (archive : List Nat) (o : Opened)
    (hv : validate_and_open archive = .ok o) :
    (∀ t : List Nat,
      (((cmd_append archive t).error = some .TextTooLarge
          ∨ (cmd_append archive t).error = some .SizeOverflow)
        ↔ o.current_size + (8 + t.length) > 0xFFFFFFFF)
      ∧ (o.current_size + (8 + t.length) ≤ 0xFFFFFFFF →
          (cmd_append archive t).error = none
          ∧ header_total_size (cmd_append archive t).archive
              = some (o.current_size + (8 + t.length)))
      ∧ (o.current_size + (8 + t.length) > 0xFFFFFFFF → 8 ≤ o.current_size →
          header_total_size (cmd_append archive t).archive = header_total_size archive))
    ∧ (∀ f d s : List Nat,
      (((cmd_append_file archive f d s).error = some .FileTooLarge
          ∨ (cmd_append_file archive f d s).error = some .SizeOverflow)
        ↔ o.current_size + ((8 + strlen (format_metadata f s d.length).1) + (8 + d.length))
            > 0xFFFFFFFF)
      ∧ (o.current_size + ((8 + strlen (format_metadata f s d.length).1) + (8 + d.length))
            ≤ 0xFFFFFFFF →
          (cmd_append_file archive f d s).error = none
          ∧ header_total_size (cmd_append_file archive f d s).archive
              = some (o.current_size
                  + ((8 + strlen (format_metadata f s d.length).1) + (8 + d.length))))
      ∧ (o.current_size + ((8 + strlen (format_metadata f s d.length).1) + (8 + d.length))
            > 0xFFFFFFFF → 8 ≤ o.current_size →
          header_total_size (cmd_append_file archive f d s).archive
            = header_total_size archive)) := by
  obtain ⟨_, h12, _, H, _, hHle, _, hcur⟩ := validate_and_open_ok archive o hv
  rw [hcur]
  constructor
  · intro t
    have hev := cmd_append_eval archive t o hv
    rw [hcur] at hev
    by_cases h1 : t.length > 0xFFFFFFF7
    · rw [if_pos h1] at hev
      rw [hev]
      refine ⟨⟨fun _ => by omega, fun _ => Or.inl rfl⟩, fun h => by omega, fun _ _ => rfl⟩
    · rw [if_neg h1] at hev
      by_cases h2 : H + (8 + t.length) > 0xFFFFFFFF
      · rw [if_pos h2] at hev
        rw [hev]
        refine ⟨⟨fun _ => h2, fun _ => Or.inr rfl⟩, fun h => by omega, fun _ h8 => ?_⟩
        exact header_total_size_take _ _ (overwrite_take_le archive H 8 _ hHle h8)
      · rw [if_neg h2] at hev
        rw [hev]
        refine ⟨⟨fun h => ?_, fun h => absurd h h2⟩, fun _ => ⟨rfl, ?_⟩, fun h => absurd h h2⟩
        · rcases h with h | h <;> simp at h
        · exact (appended_size_and_length archive H _ _ hHle h12 (by omega)).1
  · intro f d s
    by_cases hbig : d.length > 0xFFFFFFFF
    · have hf : cmd_append_file archive f d s
          = { archive := archive, error := some .FileTooLarge, warnings := [] } := by
        unfold cmd_append_file
        simp only
        rw [get_file_size_big _ (by simpa [fopen_existing] using hbig)]
      rw [hf]
      refine ⟨⟨fun _ => by omega, fun _ => Or.inl rfl⟩, fun h => by omega, fun _ _ => rfl⟩
    · have hm : strlen (format_metadata f s d.length).1 ≤ 0xFFFFFFF7 := by
        obtain ⟨tail, hbuf, hbl, _⟩ := format_metadata_spec f s d.length
        have hle := strlen_le (format_metadata f s d.length).1
        rw [hbuf, hbl] at hle
        rw [hbuf]
        omega
      have hev := cmd_append_file_eval archive f d s o hv (by omega) hm
      rw [hcur] at hev
      by_cases h2 : d.length > 0xFFFFFFF7
          ∨ H + ((8 + strlen (format_metadata f s d.length).1) + (8 + d.length)) > 0xFFFFFFFF
      · rw [if_pos h2] at hev
        rw [hev]
        have hsum : H + ((8 + strlen (format_metadata f s d.length).1) + (8 + d.length))
            > 0xFFFFFFFF := by omega
        refine ⟨⟨fun _ => hsum, fun _ => Or.inr rfl⟩, fun h => by omega, fun _ h8 => ?_⟩
        exact header_total_size_take _ _ (overwrite_take_le archive H 8 _ hHle h8)
      · rw [if_neg h2] at hev
        rw [hev]
        have hsum : ¬ H + ((8 + strlen (format_metadata f s d.length).1) + (8 + d.length))
            > 0xFFFFFFFF := fun h => h2 (Or.inr h)
        refine ⟨⟨fun h => ?_, fun h => absurd h hsum⟩, fun _ => ⟨rfl, ?_⟩,
          fun h => absurd h hsum⟩
        · rcases h with h | h <;> simp at h
        · exact (appended_size_and_length archive H _ _ hHle h12 (by omega)).1

/-- Witness for C12: the archive created from "hello", with baseline 25. -/
theorem C12_cumulative_overflow_witness :
    header_total_size (cmd_append
      [90, 90, 75, 49, 0, 0, 0, 25, 0, 0, 0, 0, 0, 0, 0, 1, 0, 0, 0, 5, 104, 101, 108, 108, 111]
      [119, 111, 114, 108, 100]).archive = some (25 + (8 + 5))
    ∧ ((cmd_append
      [90, 90, 75, 49, 0, 0, 0, 25, 0, 0, 0, 0, 0, 0, 0, 1, 0, 0, 0, 5, 104, 101, 108, 108, 111]
      (List.replicate 0xFFFFFFF0 0)).error = some .TextTooLarge
      ∨ (cmd_append
      [90, 90, 75, 49, 0, 0, 0, 25, 0, 0, 0, 0, 0, 0, 0, 1, 0, 0, 0, 5, 104, 101, 108, 108, 111]
      (List.replicate 0xFFFFFFF0 0)).error = some .SizeOverflow) :=
  have hv : validate_and_open
      [90, 90, 75, 49, 0, 0, 0, 25, 0, 0, 0, 0, 0, 0, 0, 1, 0, 0, 0, 5, 104, 101, 108, 108, 111]
      = .ok { fp := { data := [90, 90, 75, 49, 0, 0, 0, 25, 0, 0, 0, 0, 0, 0, 0, 1, 0, 0, 0, 5,
                        104, 101, 108, 108, 111], pos := 25 },
              current_size := 25, warnings := [] } := by decide
  have h := C12_cumulative_overflow _ _ hv
  ⟨((h.1 [119, 111, 114, 108, 100]).2.1 (by decide)).2,
   (h.1 (List.replicate 0xFFFFFFF0 0)).1.mpr (by rw [List.length_replicate]; decide)⟩

/-- C12 as stated fails for a baseline below 8: the 12-byte header that records
7 is accepted with baseline 7; the append of `0xFFFFFFF7` bytes fails with
the size overflow error, since `7 + 8 + 0xFFFFFFF7 > 0xFFFFFFFF`, and the
size field, which held 7, holds 0 afterwards, its last byte being the first
byte of the chunk written at offset 7. -/
theorem C12_counterexample :
    (∃ o, validate_and_open (encode_header 7 0) = .ok o ∧ o.current_size = 7)
    ∧ (List.replicate 0xFFFFFFF7 0).length = 0xFFFFFFF7
    ∧ (cmd_append (encode_header 7 0) (List.replicate 0xFFFFFFF7 0)).error = some .SizeOverflow
    ∧ header_total_size (encode_header 7 0) = some 7
    ∧ header_total_size (cmd_append (encode_header 7 0) (List.replicate 0xFFFFFFF7 0)).archive
        = some 0 :=
  have h := append_at_overlap (List.replicate 0xFFFFFFF7 0) (List.length_replicate _ _)
  ⟨h.1, List.length_replicate _ _, h.2.1, h.2.2.1, h.2.2.2⟩

/-- C18, as amended: for every archive accepted by `validate_and_open` with
baseline `B`, the recorded total size, a successful `cmd_append` or
`cmd_append_file` leaves every byte at an offset below `B` and outside the
size field `[4, 8)` as it was; when `B >= 12` these are the magic at
`[0, 4)`, the reserved field at `[8, 12)` and every committed chunk byte in
`[12, B)`. -/
theorem C18_append_frame (archive : List Nat) (o : Opened)
    (hv : validate_and_open archive = .ok o) :
    header_total_size archive = some o.current_size
    ∧ (∀ t : List Nat, (cmd_append archive t).error = none →
        (∀ i, i < o.current_size → ¬ (4 ≤ i ∧ i < 8) →
          (cmd_append archive t).archive.get? i = archive.get? i)
        ∧ (12 ≤ o.current_size →
          (cmd_append archive t).archive.take 4 = archive.take 4
          ∧ ((cmd_append archive t).archive.drop 8).take 4 = (archive.drop 8).take 4
          ∧ ((cmd_append archive t).archive.drop 12).take (o.current_size - 12)
              = (archive.drop 12).take (o.current_size - 12)))
    ∧ (∀ f d s : List Nat, (cmd_append_file archive f d s).error = none →
        (∀ i, i < o.current_size → ¬ (4 ≤ i ∧ i < 8) →
          (cmd_append_file archive f d s).archive.get? i = archive.get? i)
        ∧ (12 ≤ o.current_size →
          (cmd_append_file archive f d s).archive.take 4 = archive.take 4
          ∧ ((cmd_append_file archive f d s).archive.drop 8).take 4 = (archive.drop 8).take 4
          ∧ ((cmd_append_file archive f d s).archive.drop 12).take (o.current_size - 12)
              = (archive.drop 12).take (o.current_size - 12))) := by
  obtain ⟨_, h12, _, H, hH, hHle, _, hcur⟩ := validate_and_open_ok archive o hv
  rw [hcur]
  refine ⟨hH, fun t herr => ?_, fun f d s herr => ?_⟩
  · obtain ⟨H1, hH1, _, _, _, hres, _⟩ := cmd_append_ok archive t herr
    have e : H1 = H := Option.some.inj (hH1.symm.trans hH)
    rw [e] at hres
    rw [hres]
    exact ⟨fun i hi hout => append_frame archive _ H _ i hHle h12 hi hout,
      fun hB => append_frame_header archive _ H _ hHle hB⟩
  · obtain ⟨H1, M, hH1, _, _, _, _, hres⟩ := cmd_append_file_ok archive f d s herr
    have e : H1 = H := Option.some.inj (hH1.symm.trans hH)
    rw [e] at hres
    rw [hres]
    exact ⟨fun i hi hout => append_frame archive _ H _ i hHle h12 hi hout,
      fun hB => append_frame_header archive _ H _ hHle hB⟩

/-- Witness for C18: the append of "world" to the archive created from "hello"
followed by ten garbage bytes, with baseline 25. -/
theorem C18_append_frame_witness :
    ((cmd_append (encode_header 25 0
        ++ ([0, 0, 0, 1, 0, 0, 0, 5, 104, 101, 108, 108, 111] ++ List.replicate 10 7))
        [119, 111, 114, 108, 100]).archive.drop 12).take (25 - 12)
      = ((encode_header 25 0
        ++ ([0, 0, 0, 1, 0, 0, 0, 5, 104, 101, 108, 108, 111] ++ List.replicate 10 7)).drop 12).take
          (25 - 12) :=
  have hv : validate_and_open (encode_header 25 0
        ++ ([0, 0, 0, 1, 0, 0, 0, 5, 104, 101, 108, 108, 111] ++ List.replicate 10 7))
      = .ok { fp := { data := encode_header 25 0
                ++ ([0, 0, 0, 1, 0, 0, 0, 5, 104, 101, 108, 108, 111] ++ List.replicate 10 7),
                      pos := 25 },
              current_size := 25,
              warnings := [Warning.SizeMismatch 25 35, Warning.FixingGarbage] } := by decide
  (((C18_append_frame _ _ hv).2.1 [119, 111, 114, 108, 100] (by decide)).2 (by decide)).2.2

/-- C18 as stated fails for a baseline below 12: the 12-byte header that
records 8 is accepted with baseline 8, the append of "A" succeeds, and the
reserved field at `[8, 12)`, which held zero, holds the type tag of the new
chunk afterwards. -/
theorem C18_counterexample :
    (∃ o, validate_and_open (encode_header 8 0) = .ok o ∧ o.current_size = 8)
    ∧ (cmd_append (encode_header 8 0) [65]).error = none
    ∧ ((encode_header 8 0).drop 8).take 4 = [0, 0, 0, 0]
    ∧ ((cmd_append (encode_header 8 0) [65]).archive.drop 8).take 4 = [0, 0, 0, 1] :=
  ⟨⟨{ fp := { data := encode_header 8 0, pos := 8 }, current_size := 8,
      warnings := [Warning.SizeMismatch 8 12, Warning.FixingGarbage] }, by decide, rfl⟩,
   by decide, by decide, by decide⟩

/-- C15: for every archive made of a header and a complete sequence of chunks
`c1..cn` with arbitrary 32-bit type tags, `cmd_list` succeeds and reports
every chunk, with the ordinals `1..n` and the stored type and length; the
payload is displayed for TEXT chunks only (those that pass the size guard),
while a chunk with tag BINARY, PADDING or any other tag gets its skip label
and is passed over by a seek of exactly `length` bytes, after which the
next chunk header is read. -/
theorem C15_forward_compat (H R : Nat) (cs : List Chunk) (hH : H < 2 ^ 32) (hR : R < 2 ^ 32)
    (hfit : ∀ c ∈ cs, c.fits) :
    ∃ lines, cmd_list (encode_header H R ++ encode_chunks cs) = .ok lines
      ∧ lines = Line.Header (some H) :: Line.Separator :: chunk_lines 0 cs
      ∧ listed_chunks lines = numbered 0 cs
      ∧ (listed_chunks lines).map Prod.fst = List.range' 1 cs.length
      ∧ (listed_chunks lines).length = cs.length
      ∧ listed_contents lines = displayed_texts cs
      ∧ (∀ c ∈ cs, c.type ≠ TYPE_TEXT →
          chunk_body_line c
            = if c.type = TYPE_BINARY then Line.BinarySkipped
              else if c.type = TYPE_PADDING then Line.PaddingSkipped
              else Line.UnknownSkipped)
      ∧ (∀ c ∈ cs, ∀ fp : FILE,
          seek_forward fp c.payload.length
            = { data := fp.data, pos := fp.pos + c.payload.length }) := by
  have hl : listed_chunks (Line.Header (some H) :: Line.Separator :: chunk_lines 0 cs)
      = numbered 0 cs := listed_chunks_chunk_lines cs 0
  have hc : listed_contents (Line.Header (some H) :: Line.Separator :: chunk_lines 0 cs)
      = displayed_texts cs := listed_contents_chunk_lines cs 0
  refine ⟨_, cmd_list_encoded H R cs hH hR hfit, rfl, hl, ?_, ?_, hc,
    fun c _ ht => chunk_body_line_other c ht, fun c hc fp => ?_⟩
  · rw [hl, numbered_ordinals cs 0]
  · rw [hl, numbered_length cs 0]
  · have h64 : c.payload.length < 2 ^ 64 :=
      Nat.lt_of_lt_of_le (hfit c hc).2 (by norm_num)
    exact seek_forward_eq fp c.payload.length h64

/-- Witness for C15: a TEXT, a BINARY, a PADDING and a chunk of type 7. -/
theorem C15_forward_compat_witness :
    ∃ lines, cmd_list (encode_header 52 0 ++ encode_chunks
        [{ type := 1, payload := [104, 105] }, { type := 2, payload := [1, 2, 3] },
         { type := 0xFFFFFFFF, payload := [0, 0] }, { type := 7, payload := [9] }]) = .ok lines
      ∧ listed_chunks lines = [(1, 1, 2), (2, 2, 3), (3, 0xFFFFFFFF, 2), (4, 7, 1)]
      ∧ listed_contents lines = [[104, 105]] :=
  let ⟨lines, h1, _, h3, _, _, h6, _⟩ := C15_forward_compat 52 0
    [{ type := 1, payload := [104, 105] }, { type := 2, payload := [1, 2, 3] },
     { type := 0xFFFFFFFF, payload := [0, 0] }, { type := 7, payload := [9] }]
    (by decide) (by decide) (by decide)
  ⟨lines, h1, h3.trans (by decide), h6.trans (by decide)⟩

/-- C16: a chunk that is skipped is not checked against the end of the file.
On the 23-byte archive whose only chunk header declares a BINARY chunk of
100 bytes and is followed by 3 bytes, `cmd_list` prints the chunk and its
skip label and ends without any warning, and `cmd_extract` of chunk 2 skips
the chunk and ends with the chunk-not-found error, without any warning; the
paths that read the payload do report the short chunk: `cmd_list` on the
same bytes with a TEXT tag prints the unexpected-end warning, and
`cmd_extract` of chunk 1 fails with the read error. -/
theorem C16_short_chunk_skipped_silently :
    cmd_list (encode_header 23 0 ++ [0, 0, 0, 2, 0, 0, 0, 100, 1, 2, 3])
      = .ok [Line.Header (some 23), Line.Separator, Line.Chunk 1 2 100, Line.BinarySkipped,
             Line.Separator]
    ∧ cmd_extract (encode_header 23 0 ++ [0, 0, 0, 2, 0, 0, 0, 100, 1, 2, 3]) [50]
      = { output := none, error := some .ChunkNotFound, found := none, warnings := [] }
    ∧ seek_forward { data := encode_header 23 0 ++ [0, 0, 0, 2, 0, 0, 0, 100, 1, 2, 3], pos := 20 }
        100
      = { data := encode_header 23 0 ++ [0, 0, 0, 2, 0, 0, 0, 100, 1, 2, 3], pos := 120 }
    ∧ cmd_list (encode_header 23 0 ++ [0, 0, 0, 1, 0, 0, 0, 100, 1, 2, 3])
      = .ok [Line.Header (some 23), Line.Separator, Line.Chunk 1 1 100, Line.EofBody,
             Line.Separator]
    ∧ cmd_extract (encode_header 23 0 ++ [0, 0, 0, 2, 0, 0, 0, 100, 1, 2, 3]) [49]
      = { output := some [], error := some .ReadChunkData, found := some (1, 2, 100),
          warnings := [] } := by
  decide

/-- C17, as amended: in a complete sequence of chunks, `cmd_list` displays the
payload of a TEXT chunk if and only if its length is at most `0x10000000`
(256 MiB; the length `0xFFFFFFFF` is above it), as the C string stored in
the buffer, which is the payload itself when it has no zero byte; a TEXT
chunk whose length is above `0x10000000` gets the too-large warning instead
and is skipped, and in both cases the listing continues with the chunks
that follow. -/
theorem C17_display_ceiling (H R : Nat) (pre post : List Chunk) (c : Chunk)
    (hH : H < 2 ^ 32) (hR : R < 2 ^ 32) (hpre : ∀ x ∈ pre, x.fits) (hc : c.fits)
    (hpost : ∀ x ∈ post, x.fits) (ht : c.type = TYPE_TEXT) :
    cmd_list (encode_header H R ++ encode_chunks (pre ++ c :: post))
      = .ok (Line.Header (some H) :: Line.Separator :: (chunk_lines 0 pre
          ++ Line.Chunk (pre.length + 1) TYPE_TEXT c.payload.length
            :: (if c.payload.length ≤ 0x10000000 then Line.Content (printf_s (c.payload ++ [0]))
                else Line.TextTooLarge c.payload.length)
            :: Line.Separator :: chunk_lines (pre.length + 1) post))
    ∧ (0 ∉ c.payload → printf_s (c.payload ++ [0]) = c.payload)
    ∧ (c.payload.length ≤ 0x10000000
        ↔ ¬ (c.payload.length = 0xFFFFFFFF ∨ c.payload.length > 0x10000000)) := by
  have hfit : ∀ x ∈ pre ++ c :: post, x.fits := by
    intro x hx
    rcases List.mem_append.mp hx with h | h
    · exact hpre x h
    · rcases List.mem_cons.mp h with h | h
      · exact h ▸ hc
      · exact hpost x h
  refine ⟨?_, fun h0 => printf_s_terminated c.payload h0, ⟨fun h => by omega, fun h => by omega⟩⟩
  rw [cmd_list_encoded H R _ hH hR hfit, chunk_lines_append]
  have hcons : chunk_lines (0 + pre.length) (c :: post)
      = Line.Chunk (pre.length + 1) TYPE_TEXT c.payload.length
        :: (if c.payload.length ≤ 0x10000000 then Line.Content (printf_s (c.payload ++ [0]))
            else Line.TextTooLarge c.payload.length)
        :: Line.Separator :: chunk_lines (pre.length + 1) post := by
    rw [Nat.zero_add]
    show Line.Chunk (pre.length + 1) c.type c.payload.length :: chunk_body_line c
        :: Line.Separator :: chunk_lines (pre.length + 1) post = _
    rw [chunk_body_line_text c ht, ht]
  rw [hcons]

/-- Witness for C17: the chunk "hi" between a BINARY chunk and the chunk "A". -/
theorem C17_display_ceiling_witness :
    cmd_list (encode_header 43 0 ++ encode_chunks
        ([{ type := 2, payload := [1, 2, 3] }]
          ++ { type := 1, payload := [104, 105] } :: [{ type := 1, payload := [65] }]))
      = .ok [Line.Header (some 43), Line.Separator,
             Line.Chunk 1 2 3, Line.BinarySkipped, Line.Separator,
             Line.Chunk 2 1 2, Line.Content [104, 105], Line.Separator,
             Line.Chunk 3 1 1, Line.Content [65], Line.Separator] :=
  (C17_display_ceiling 43 0 [{ type := 2, payload := [1, 2, 3] }]
    [{ type := 1, payload := [65] }] { type := 1, payload := [104, 105] }
    (by decide) (by decide) (by decide) (by decide) (by decide) (by decide)).1.trans (by decide)

/-- C17 as stated fails at the ceiling itself: the TEXT chunk made of
`0x10000000` letters "A", whose length is not below `0x10000000`, is
displayed in full and gets no too-large warning. -/
theorem C17_counterexample :
    (List.replicate 0x10000000 65).length = 0x10000000
    ∧ ¬ (List.replicate 0x10000000 65).length < 0x10000000
    ∧ cmd_list (encode_header 0x10000014 0
        ++ encode_chunks [{ type := TYPE_TEXT, payload := List.replicate 0x10000000 65 }])
      = .ok [Line.Header (some 0x10000014), Line.Separator,
             Line.Chunk 1 TYPE_TEXT (List.replicate 0x10000000 65).length,
             Line.Content (List.replicate 0x10000000 65), Line.Separator] :=
  have hl : (List.replicate 0x10000000 65).length = 0x10000000 := List.length_replicate _ _
  ⟨hl, by rw [hl]; exact Nat.lt_irrefl _,
   list_at_ceiling (List.replicate 0x10000000 65) hl
     (fun h => absurd (List.eq_of_mem_replicate h) (by decide))⟩

/-- C22: for any two files of at least 12 bytes that start with the magic and
differ only in the bytes `[4, 12)`, `cmd_list` prints the same lines after
the first one, which shows the recorded size: the same chunks (ordinal,
type, length) and the same displayed contents; and `cmd_extract` ends the
same way, with the same output file, for every index string.  In
particular the recorded total size does not bound the scan: whatever size
the header records, every complete chunk stored after the header is
listed and can be extracted. -/
theorem C22_header_fields_ignored (a b : List Nat) (ha : 12 ≤ a.length) (hb : 12 ≤ b.length)
    (hm : header_magic a = some MAGIC_NUMBER) (h4 : a.take 4 = b.take 4)
    (h12 : a.drop 12 = b.drop 12) :
    (∃ la lb, cmd_list a = .ok la ∧ cmd_list b = .ok lb
      ∧ la.head? = some (Line.Header (header_total_size a))
      ∧ lb.head? = some (Line.Header (header_total_size b))
      ∧ la.tail = lb.tail
      ∧ listed_chunks la = listed_chunks lb
      ∧ listed_contents la = listed_contents lb)
    ∧ (∀ s : List Nat, cmd_extract a s = cmd_extract b s)
    ∧ (∀ (H R : Nat) (cs : List Chunk), H < 2 ^ 32 → R < 2 ^ 32 → (∀ c ∈ cs, c.fits) →
        (∃ lines, cmd_list (encode_header H R ++ encode_chunks cs) = .ok lines
          ∧ listed_chunks lines = numbered 0 cs)
        ∧ (∀ (s : List Nat) (i : Nat) (c : Chunk), positive_index s i →
            cs.get? (i - 1) = some c →
            cmd_extract (encode_header H R ++ encode_chunks cs) s
              = { output := some c.payload, error := none,
                  found := some (i, c.type, c.payload.length), warnings := [] })) := by
  have hmb : header_magic b = some MAGIC_NUMBER := by
    rw [← header_magic_take a b h4]
    exact hm
  have hlen : a.length = b.length := by
    have h := congrArg List.length h12
    rw [List.length_drop, List.length_drop] at h
    omega
  have hsa := (header_reads a hm).2.2.1 ha
  have hsb := (header_reads b hmb).2.2.1 hb
  refine ⟨?_, fun s => ?_, fun H R cs hH hR hfit => ⟨?_, fun s i c hi hc => ?_⟩⟩
  · refine ⟨_, _, cmd_list_eval a hm, cmd_list_eval b hmb, rfl, rfl, ?_, ?_, ?_⟩
    · rw [hsa, hsb, hlen]
      show Line.Separator :: _ = Line.Separator :: _
      rw [list_loop_congr (b.length + 1) { data := a, pos := 12 } { data := b, pos := 12 } 0 h12]
    · rw [hsa, hsb, hlen]
      show listed_chunks (list_loop _ _ _) = listed_chunks (list_loop _ _ _)
      rw [list_loop_congr (b.length + 1) { data := a, pos := 12 } { data := b, pos := 12 } 0 h12]
    · rw [hsa, hsb, hlen]
      show listed_contents (list_loop _ _ _) = listed_contents (list_loop _ _ _)
      rw [list_loop_congr (b.length + 1) { data := a, pos := 12 } { data := b, pos := 12 } 0 h12]
  · by_cases hs : ∃ i, positive_index s i
    · obtain ⟨i, hi⟩ := hs
      rw [cmd_extract_eval a s i hm hi, cmd_extract_eval b s i hmb hi, hsa, hsb, hlen]
      exact extract_loop_congr (b.length + 1) { data := a, pos := 12 } { data := b, pos := 12 }
        0 i h12
    · rw [cmd_extract_rejected a s hs, cmd_extract_rejected b s hs]
  · exact ⟨_, cmd_list_encoded H R cs hH hR hfit, listed_chunks_chunk_lines cs 0⟩
  · obtain ⟨hst, hne⟩ := strtol_positive s i hi
    obtain ⟨_, _, _, _, _, _, _, _, _, h1, hmax⟩ := hi
    rw [cmd_extract_encoded H R cs s i hH hR hfit hst hne h1 hmax, hc]

/-- Witness for C22: the archive created from "hello" and the same file with
the recorded size 12 and the reserved field 7. -/
theorem C22_header_fields_ignored_witness :
    cmd_extract (encode_header 25 0 ++ [0, 0, 0, 1, 0, 0, 0, 5, 104, 101, 108, 108, 111]) [49]
      = cmd_extract (encode_header 12 7 ++ [0, 0, 0, 1, 0, 0, 0, 5, 104, 101, 108, 108, 111]) [49]
    ∧ cmd_extract (encode_header 12 7 ++ [0, 0, 0, 1, 0, 0, 0, 5, 104, 101, 108, 108, 111]) [49]
      = { output := some [104, 101, 108, 108, 111], error := none, found := some (1, 1, 5),
          warnings := [] } :=
  ⟨(C22_header_fields_ignored
      (encode_header 25 0 ++ [0, 0, 0, 1, 0, 0, 0, 5, 104, 101, 108, 108, 111])
      (encode_header 12 7 ++ [0, 0, 0, 1, 0, 0, 0, 5, 104, 101, 108, 108, 111])
      (by decide) (by decide) (by decide) (by decide) (by decide)).2.1 [49],
   by decide⟩

/-- C21: for every file of bytes that starts with the magic, well-formed or
not, and every index string that denotes an integer `i` from 1 to
2147483647, `cmd_extract` announces chunk `i` with type `t` and length `l`
if and only if `cmd_list` prints a line for chunk `i` with type `t` and
length `l`; an ordinal is listed with one type and length only.  Every other
index string is rejected before the scan, and a listed ordinal `n` needs
`12 + 8 * n` bytes of file.  Both commands follow the scan of the format
description: from offset 12, advancing `8 + length` bytes per chunk. -/
theorem C21_same_numbering (archive : List Nat) (hb : ∀ b ∈ archive, b < 256)
    (hm : header_magic archive = some MAGIC_NUMBER) :
    ∃ lines, cmd_list archive = .ok lines
      ∧ (∀ (s : List Nat) (i : Nat), positive_index s i → ∀ t l : Nat,
          ((cmd_extract archive s).found = some (i, t, l) ↔ (i, t, l) ∈ listed_chunks lines))
      ∧ (∀ (s : List Nat) (i : Nat), positive_index s i →
          (cmd_extract archive s).found = (listed_chunks lines).get? (i - 1))
      ∧ (∀ n t l t2 l2 : Nat, (n, t, l) ∈ listed_chunks lines →
          (n, t2, l2) ∈ listed_chunks lines → t = t2 ∧ l = l2)
      ∧ (∀ s : List Nat, (¬ ∃ i, positive_index s i) → (cmd_extract archive s).found = none)
      ∧ (∀ n t l : Nat, (n, t, l) ∈ listed_chunks lines → 1 ≤ n ∧ 12 + 8 * n ≤ archive.length)
      ∧ (12 ≤ archive.length →
          listed_chunks lines = scan_chunks (archive.length + 1) archive 12 0) := by
  obtain ⟨_, hd, h12, hshort⟩ := header_reads archive hm
  have hb0 : ∀ b ∈ (read_u32_be (read_u32_be { data := archive, pos := 4 }).2).2.data,
      b < 256 := by
    rw [hd]
    exact hb
  have hlist : listed_chunks (Line.Header (header_total_size archive) :: Line.Separator
        :: list_loop (archive.length + 1)
            (read_u32_be (read_u32_be { data := archive, pos := 4 }).2).2 0)
      = scan_chunks (archive.length + 1) archive
          (read_u32_be (read_u32_be { data := archive, pos := 4 }).2).2.pos 0 := by
    have h := list_scan (archive.length + 1) _ 0 hb0
    rw [hd] at h
    exact h
  have hfound : ∀ (s : List Nat) (i : Nat), positive_index s i →
      (cmd_extract archive s).found
        = (scan_chunks (archive.length + 1) archive
            (read_u32_be (read_u32_be { data := archive, pos := 4 }).2).2.pos 0).get? (i - 1) := by
    intro s i hi
    have h1 : 0 < i := by
      obtain ⟨_, _, _, _, _, _, _, _, _, h1, _⟩ := hi
      exact h1
    have h := extract_scan (archive.length + 1) _ 0 i hb0 h1
    rw [hd, Nat.sub_zero] at h
    rw [cmd_extract_eval archive s i hm hi]
    exact h
  refine ⟨_, cmd_list_eval archive hm, ?_, ?_, ?_, ?_, ?_, ?_⟩
  · intro s i hi t l
    have h1 : 0 < i := by
      obtain ⟨_, _, _, _, _, _, _, _, _, h1, _⟩ := hi
      exact h1
    rw [hlist, hfound s i hi]
    have hmem := mem_scan_iff (archive.length + 1) archive
      (read_u32_be (read_u32_be { data := archive, pos := 4 }).2).2.pos 0 (i, t, l)
    simp only [Nat.sub_zero] at hmem
    exact ⟨fun h => hmem.mpr ⟨h1, h⟩, fun h => (hmem.mp h).2⟩
  · intro s i hi
    rw [hlist]
    exact hfound s i hi
  · intro n t l t2 l2 hx hy
    rw [hlist] at hx hy
    have h1 := ((mem_scan_iff _ _ _ _ _).mp hx).2
    have h2 := ((mem_scan_iff _ _ _ _ _).mp hy).2
    simp only at h1 h2
    rw [h1] at h2
    simp only [Option.some.injEq, Prod.mk.injEq, true_and] at h2
    exact h2
  · intro s hs
    rw [cmd_extract_rejected archive s hs]
  · intro n t l hx
    rw [hlist] at hx
    obtain ⟨hlt, hle⟩ := scan_chunks_bound _ _ _ _ _ hb hx
    simp only [Nat.sub_zero] at hlt hle
    by_cases hlen : 12 ≤ archive.length
    · rw [h12 hlen] at hle
      simp only at hle
      exact ⟨hlt, hle⟩
    · rw [hshort (by omega)] at hle
      omega
  · intro hlen
    rw [hlist, h12 hlen]

/-- Witness for C21: the 38-byte archive that holds "hello" and "world" and the
index string "2". -/
theorem C21_same_numbering_witness :
    ∃ lines, cmd_list (encode_header 38 0 ++ encode_chunks
        [{ type := 1, payload := [104, 101, 108, 108, 111] },
         { type := 1, payload := [119, 111, 114, 108, 100] }]) = .ok lines
      ∧ listed_chunks lines = [(1, 1, 5), (2, 1, 5)]
      ∧ (cmd_extract (encode_header 38 0 ++ encode_chunks
          [{ type := 1, payload := [104, 101, 108, 108, 111] },
           { type := 1, payload := [119, 111, 114, 108, 100] }]) [50]).found
        = (listed_chunks lines).get? (2 - 1) :=
  let ⟨lines, h1, _, h3, _, _, _, h7⟩ := C21_same_numbering
    (encode_header 38 0 ++ encode_chunks
      [{ type := 1, payload := [104, 101, 108, 108, 111] },
       { type := 1, payload := [119, 111, 114, 108, 100] }]) (by decide) (by decide)
  ⟨lines, h1, (h7 (by decide)).trans (by decide),
   h3 [50] 2 ⟨[], [], [50], rfl, by decide, Or.inl rfl, by decide, by decide, by decide,
     by decide, by decide⟩⟩

end Zzk1
